import Mathlib

/-!
# Galaxy simulation (Barnes-Hut quadtree and brute force)

A shallow embedding of `Assignment5/main.c` (the Barnes-Hut variant) and of
`Assignment3/A3/main.c` (the brute-force variant).

Conventions of the embedding.

* `double` and `float` values are elements of an arbitrary linearly ordered
  field `K` (exact arithmetic); concrete evaluations are done in `ℚ` or `ℝ`.
* The half width `h` of a box is the one `float` field of the source.  In
  `qt_add` it is halved exactly like the `double` values; `qt_add_rounded`
  takes the halving as a parameter, and with `float_half` the half widths are
  those of the source, which are 0 from the 149th halving of 0.5 on.  What
  depends on the recursion ending is stated for `qt_add_rounded float_half`.
* A quotient by 0 is 0 in `K`, where the source computes not-a-number or an
  infinity.  The only quotients of `qt_add` are by the summed mass of a node,
  so the properties that depend on them assume positive masses.
* `sqrt` from `math.h` is a parameter `sqrt : K → K` of the functions that
  call it.
* A value of type `qt K` is a pointer `qt *`: either `qt.null` (the `NULL`
  pointer) or `qt.node` carrying the fields of the `struct quadtree` it
  points to.  The tree owns its nodes, so pointers are replaced by the values
  they point to, and `qt_add(&t, tadd)` becomes a function returning the new
  value of `*t`.
* The recursion of `qt_add` is bounded by a depth budget: `qt_add k t tadd`
  is `none` when the C recursion would go deeper than `k` nested calls.
-/

namespace Galsim

/-! ## Data model -/

/-- The `struct vectors` of `Assignment5/main.c`. -/
structure vector (K : Type) where
  x : K
  y : K
deriving DecidableEq

/-- A pointer to a `struct quadtree`: `null`, or a node with its four child
pointers, centre of mass `c`, box centre `p`, mass `m` and half width `h`. -/
inductive qt (K : Type) where
  | null : qt K
  | node (nw ne sw se : qt K) (c p : vector K) (m h : K) : qt K
deriving DecidableEq

/-- The pointer test `t == NULL`. -/
def qt.isNull {K : Type} : qt K → Bool
  | qt.null => true
  | qt.node _ _ _ _ _ _ _ _ => false

section Tree

variable {K : Type} [LinearOrderedField K]

/-- The function `check_quadrant` of `Assignment5/main.c`. -/
def check_quadrant (c p : vector K) : Nat :=
  if c.x ≤ p.x ∧ c.y > p.y then 1
  else if c.x > p.x ∧ c.y ≥ p.y then 2
  else if c.x < p.x ∧ c.y ≤ p.y then 3
  else if c.x ≥ p.x ∧ c.y < p.y then 4
  else 0

/-- The constructor `new_qt` of `Assignment5/main.c`. -/
def new_qt (c : vector K) (m : K) : qt K :=
  qt.node qt.null qt.null qt.null qt.null c ⟨1 / 2, 1 / 2⟩ m (1 / 2)

/-- The `switch (check_quadrant(tadd->c, (*t)->p))` block that ends both the
internal and the external branch of `qt_add`: the node `*t` has children
`nw ne sw se` and (already updated) fields `c p m h`; `tadd` has children
`anw ane asw ase`, centre of mass `ac`, mass `am` and half width `ah`, and its
box centre is assigned in the selected case.  `rec` is the recursive call. -/
def qt_add_switch (rec : qt K → qt K → Option (qt K))
    (nw ne sw se : qt K) (c p : vector K) (m h : K)
    (anw ane asw ase : qt K) (ac : vector K) (am ah : K) : Option (qt K) :=
  match check_quadrant ac p with
  | 1 => (rec nw (qt.node anw ane asw ase ac ⟨p.x - ah, p.y + ah⟩ am ah)).map
      (fun r => qt.node r ne sw se c p m h)
  | 2 => (rec ne (qt.node anw ane asw ase ac ⟨p.x + ah, p.y + ah⟩ am ah)).map
      (fun r => qt.node nw r sw se c p m h)
  | 3 => (rec sw (qt.node anw ane asw ase ac ⟨p.x - ah, p.y - ah⟩ am ah)).map
      (fun r => qt.node nw ne r se c p m h)
  | 4 => (rec se (qt.node anw ane asw ase ac ⟨p.x + ah, p.y - ah⟩ am ah)).map
      (fun r => qt.node nw ne sw r c p m h)
  | _ => some (qt.node nw ne sw se c p m h)

/-- The function `qt_add` of `Assignment5/main.c`: `qt_add k t tadd` is the
value of `*t` after `qt_add(&t, tadd)`, or `none` when the call nests deeper
than `k` levels (or dereferences a `NULL` `tadd`).  The quotient `h / 2` and
the offsets `p.x - h`, `p.x + h` are exact here; `qt_add_rounded` is the same
function with the `float` quotient as a parameter. -/
def qt_add : Nat → qt K → qt K → Option (qt K)
  | 0, _, _ => none
  | _ + 1, qt.null, tadd => some tadd
  | _ + 1, qt.node _ _ _ _ _ _ _ _, qt.null => none
  | k + 1, qt.node nw ne sw se c p m h, qt.node anw ane asw ase ac _ am _ =>
    if !nw.isNull || !ne.isNull || !sw.isNull || !se.isNull then
      -- current node is internal
      let m1 := m
      let m' := m + am
      let c' : vector K := ⟨(c.x * m1 + ac.x * am) / m', (c.y * m1 + ac.y * am) / m'⟩
      let ah := h / 2
      qt_add_switch (qt_add k) nw ne sw se c' p m' h anw ane asw ase ac am ah
    else
      -- current node is external: `tnew = new_qt((*t)->c, (*t)->m)`
      let th := h / 2
      let ah := h / 2
      let m1 := m
      let m' := m + am
      let c' : vector K := ⟨(c.x * m1 + ac.x * am) / m', (c.y * m1 + ac.y * am) / m'⟩
      match check_quadrant c p with
      | 1 => qt_add_switch (qt_add k)
          (qt.node qt.null qt.null qt.null qt.null c ⟨p.x - th, p.y + th⟩ m th) ne sw se
          c' p m' h anw ane asw ase ac am ah
      | 2 => qt_add_switch (qt_add k)
          nw (qt.node qt.null qt.null qt.null qt.null c ⟨p.x + th, p.y + th⟩ m th) sw se
          c' p m' h anw ane asw ase ac am ah
      | 3 => qt_add_switch (qt_add k)
          nw ne (qt.node qt.null qt.null qt.null qt.null c ⟨p.x - th, p.y - th⟩ m th) se
          c' p m' h anw ane asw ase ac am ah
      | 4 => qt_add_switch (qt_add k)
          nw ne sw (qt.node qt.null qt.null qt.null qt.null c ⟨p.x + th, p.y - th⟩ m th)
          c' p m' h anw ane asw ase ac am ah
      | _ => qt_add_switch (qt_add k) nw ne sw se c' p m' h anw ane asw ase ac am ah

/-- The tree-building loop of `main`: `t = NULL` and then
`qt_add(&t, new_qt(C[i], M[i]))` for every body in order; every insertion has
the depth budget `k`. -/
def build (k : Nat) (bodies : List (vector K × K)) : Option (qt K) :=
  bodies.foldlM (fun t b => qt_add k t (new_qt b.1 b.2)) qt.null

/-! ## Observations on trees used to state the properties -/

/-- The field `t->m` of the node a non-`NULL` pointer points to. -/
def qt.root_m : qt K → Option K
  | qt.null => none
  | qt.node _ _ _ _ _ _ m _ => some m

/-- The external nodes of a tree (nodes whose four child pointers are all
`NULL`, the test of `force_BH_one_body`), each as the pair of its centre of
mass and its mass. -/
def leaves : qt K → List (vector K × K)
  | qt.null => []
  | qt.node nw ne sw se c _ m _ =>
    if nw.isNull && ne.isNull && sw.isNull && se.isNull then [(c, m)]
    else leaves nw ++ leaves ne ++ leaves sw ++ leaves se

/-- Total mass of a list of (position, mass) pairs. -/
def total_mass (l : List (vector K × K)) : K := (l.map (fun b => b.2)).sum

/-- Sum of `x * m` over a list of (position, mass) pairs. -/
def moment_x (l : List (vector K × K)) : K := (l.map (fun b => b.1.x * b.2)).sum

/-- Sum of `y * m` over a list of (position, mass) pairs. -/
def moment_y (l : List (vector K × K)) : K := (l.map (fun b => b.1.y * b.2)).sum

/-- Mass-weighted average position of a list of (position, mass) pairs. -/
def weighted_average (l : List (vector K × K)) : vector K :=
  ⟨moment_x l / total_mass l, moment_y l / total_mass l⟩

/-- Every internal node (a node with at least one child) has mass equal to the
total mass of its leaf descendants and centre of mass equal to their
mass-weighted average position. -/
def aggregates_ok : qt K → Prop
  | qt.null => True
  | qt.node nw ne sw se c p m h =>
    ((nw.isNull && ne.isNull && sw.isNull && se.isNull) = false →
      m = total_mass (leaves (qt.node nw ne sw se c p m h)) ∧
      c = weighted_average (leaves (qt.node nw ne sw se c p m h))) ∧
    aggregates_ok nw ∧ aggregates_ok ne ∧ aggregates_ok sw ∧ aggregates_ok se

/-- The child pointer selected by a quadrant number (1 NW, 2 NE, 3 SW, 4 SE). -/
def get_child : Nat → qt K → qt K
  | 1, qt.node nw _ _ _ _ _ _ _ => nw
  | 2, qt.node _ ne _ _ _ _ _ _ => ne
  | 3, qt.node _ _ sw _ _ _ _ _ => sw
  | 4, qt.node _ _ _ se _ _ _ _ => se
  | _, _ => qt.null

/-- The node reached from `t` by following a list of quadrant numbers. -/
def subtree (ds : List Nat) (t : qt K) : qt K := ds.foldl (fun s q => get_child q s) t

/-- The box centre that `qt_add` assigns to a node placed in quadrant `q` of a
node with box centre `p`, where `h` is the half width of the placed node. -/
def child_p (q : Nat) (p : vector K) (h : K) : vector K :=
  match q with
  | 1 => ⟨p.x - h, p.y + h⟩
  | 2 => ⟨p.x + h, p.y + h⟩
  | 3 => ⟨p.x - h, p.y - h⟩
  | 4 => ⟨p.x + h, p.y - h⟩
  | _ => p

/-! ## Invariants of the trees that `qt_add` builds -/

/-- A leaf: an external node with centre of mass `c`, mass `m`, box centre `p`
and half width `h`. -/
def leaf {K : Type} (c p : vector K) (m h : K) : qt K :=
  qt.node qt.null qt.null qt.null qt.null c p m h

/-- The node `t`, if not `NULL`, has box centre `p` and half width `h`, and
recursively each child has half of its parent's half width and the box centre
that `qt_add` assigns in the child's quadrant. -/
def boxed (p : vector K) (h : K) : qt K → Prop
  | qt.null => True
  | qt.node nw ne sw se _ np _ nh =>
    np = p ∧ nh = h ∧
    boxed (child_p 1 p (h / 2)) (h / 2) nw ∧ boxed (child_p 2 p (h / 2)) (h / 2) ne ∧
    boxed (child_p 3 p (h / 2)) (h / 2) sw ∧ boxed (child_p 4 p (h / 2)) (h / 2) se

/-- The box (centre, half width) reached after `k` levels when descending
from the box with centre `p` and half width `h` towards the point `c` by the
rule of `check_quadrant`, with the child boxes that `qt_add` assigns. -/
def box_from (c p : vector K) (h : K) : Nat → vector K × K
  | 0 => (p, h)
  | k + 1 =>
    let b := box_from c p h k
    (child_p (check_quadrant c b.1) b.1 (b.2 / 2), b.2 / 2)

/-- The boxes met when descending from the root box of `new_qt`, centre
(0.5, 0.5) and half width 0.5, towards the point `c`. -/
def box_path (c : vector K) (k : Nat) : vector K × K := box_from c ⟨1 / 2, 1 / 2⟩ (1 / 2) k

/-- The node `t`, if not `NULL`, has box centre `p` and half width `h`, every
child has the box that `qt_add` assigns in its quadrant, and no external
node has its centre of mass at the centre of its own box or of a box that the
descent from its box towards it goes through. -/
def settled (p : vector K) (h : K) : qt K → Prop
  | qt.null => True
  | qt.node nw ne sw se c np _ nh =>
    np = p ∧ nh = h ∧
    if nw.isNull && ne.isNull && sw.isNull && se.isNull then ∀ k, c ≠ (box_from c p h k).1
    else
      settled (child_p 1 p (h / 2)) (h / 2) nw ∧ settled (child_p 2 p (h / 2)) (h / 2) ne ∧
      settled (child_p 3 p (h / 2)) (h / 2) sw ∧ settled (child_p 4 p (h / 2)) (h / 2) se

/-- Every node of the tree, external or internal, has positive mass equal to
the total mass of its leaves, and a centre of mass `c` with `c * m` equal to
the sum of `position * mass` over its leaves. -/
def agg : qt K → Prop
  | qt.null => True
  | qt.node nw ne sw se c p m h =>
    (0 < m ∧ m = total_mass (leaves (qt.node nw ne sw se c p m h)) ∧
      c.x * m = moment_x (leaves (qt.node nw ne sw se c p m h)) ∧
      c.y * m = moment_y (leaves (qt.node nw ne sw se c p m h))) ∧
    agg nw ∧ agg ne ∧ agg sw ∧ agg se

end Tree

/-! ## The index ranges of `thread_force` -/

/-- The value `my_len = (long) ceil((double) N / n_threads)` of `thread_force`.
The `int` values `N >= 0`, `n_threads >= 1` and the `long` values `rank`,
`my_len`, `my_first_i`, `my_last_i` are natural numbers: for `int` inputs the
`long` products do not overflow and the quotient is rounded up exactly. -/
def my_len (N n_threads : Nat) : Nat := ⌈((N : ℚ) / (n_threads : ℚ))⌉₊

/-- The value `my_first_i = my_len * rank` of `thread_force`. -/
def my_first_i (N n_threads rank : Nat) : Nat := my_len N n_threads * rank

/-- The value of `my_last_i` in `thread_force` when the loop starts:
`my_first_i + my_len`, replaced by `N` if it is greater than `N`. -/
def my_last_i (N n_threads rank : Nat) : Nat :=
  if my_first_i N n_threads rank + my_len N n_threads > N then N
  else my_first_i N n_threads rank + my_len N n_threads

/-- The values taken in order by the counter `i` of the loop
`for (i=my_first_i; i<my_last_i; i++)` of `thread_force`, that is the indices
on which the thread of the given rank calls `force_BH_one_body`.  The counter
is an unbounded integer here; the `int` counter of the C code agrees with it
as long as `my_first_i` is below `2^31`. -/
def thread_force_indices (N n_threads rank : Nat) : List Nat :=
  List.range' (my_first_i N n_threads rank)
    (my_last_i N n_threads rank - my_first_i N n_threads rank)

/-! ## The force evaluation of `Assignment5/main.c` -/

section Force
variable {K : Type} [LinearOrderedField K]

/-- The softening constant `E` (`#define E 0.001`) of both programs. -/
def E : K := 1 / 1000

/-- The function `force_BH_one_body` of `Assignment5/main.c`: the value of
`*f` after the call, given its value `f` before the call.  `sqrt` is the
square root of `math.h`. -/
def force_BH_one_body (sqrt : K → K) (G : K) (c : vector K) (m : K) :
    qt K → vector K → K → vector K
  | qt.null, f, _ => f
  | qt.node nw ne sw se tc tp tm th, f, theta =>
    if nw.isNull && ne.isNull && sw.isNull && se.isNull then
      -- external branch
      let rx := c.x - tc.x
      let ry := c.y - tc.y
      let r := sqrt (rx * rx + ry * ry)
      let comm := -G * tm / ((r + E) * (r + E) * (r + E))
      ⟨f.x + comm * rx, f.y + comm * ry⟩
    else
      -- internal branch
      let dx := c.x - tp.x
      let dy := c.y - tp.y
      let d := sqrt (dx * dx + dy * dy)
      if th * 2 < theta * d then
        let rx := c.x - tc.x
        let ry := c.y - tc.y
        let r := sqrt (rx * rx + ry * ry)
        let comm := -G * tm / ((r + E) * (r + E) * (r + E))
        ⟨f.x + comm * rx, f.y + comm * ry⟩
      else
        let f1 := force_BH_one_body sqrt G c m sw f theta
        let f2 := force_BH_one_body sqrt G c m nw f1 theta
        let f3 := force_BH_one_body sqrt G c m se f2 theta
        force_BH_one_body sqrt G c m ne f3 theta

/-- The vector that the external branch of `force_BH_one_body` adds to `*f`
for a leaf with centre of mass `b.1` and mass `b.2`, seen from position `c`. -/
def leaf_term (sqrt : K → K) (G : K) (c : vector K) (b : vector K × K) : vector K :=
  let rx := c.x - b.1.x
  let ry := c.y - b.1.y
  let r := sqrt (rx * rx + ry * ry)
  let comm := -G * b.2 / ((r + E) * (r + E) * (r + E))
  ⟨comm * rx, comm * ry⟩

end Force

/-! ## The brute-force variant (`Assignment3/A3/main.c`) -/

namespace A3

/-- The `struct celestial_bodies` of `Assignment3/A3/main.c`. -/
structure body (K : Type) where
  x : K
  y : K
  mass : K
  vx : K
  vy : K
  brtness : K
deriving DecidableEq

/-- The `struct vectors` of `Assignment3/A3/main.c`. -/
structure vector (K : Type) where
  x1 : K
  x2 : K
deriving DecidableEq

section Step
variable {K : Type} [LinearOrderedField K]

/-- The element `B[i]` of the body array (all fields zero outside the array). -/
def body_at (B : List (body K)) (i : Nat) : body K := B.getD i ⟨0, 0, 0, 0, 0, 0⟩

/-- The value of `F[i]` after the first loop nest of `step`: the inner loop
over `j = 0..N-1`, skipping `j == i`, run on the zero-initialised `F[i]`. -/
def step_F (sqrt : K → K) (G : K) (N : Nat) (B : List (body K)) (i : Nat) : vector K :=
  (List.range N).foldl
    (fun F j =>
      if i = j then F
      else
        let rx := (body_at B i).x - (body_at B j).x
        let ry := (body_at B i).y - (body_at B j).y
        let r := sqrt (rx * rx + ry * ry)
        let fabs := -G * (body_at B i).mass * (body_at B j).mass / ((r + E) * (r + E) * (r + E))
        ⟨F.x1 + fabs * rx, F.x2 + fabs * ry⟩)
    ⟨0, 0⟩

/-- The accelerations `(ax, ay)` that the second loop of `step` computes for
body `i`: `F[i].x1 / B[i].mass` and `F[i].x2 / B[i].mass`. -/
def step_a (sqrt : K → K) (G : K) (N : Nat) (B : List (body K)) (i : Nat) : vector K :=
  ⟨(step_F sqrt G N B i).x1 / (body_at B i).mass, (step_F sqrt G N B i).x2 / (body_at B i).mass⟩

/-- The function `step` of `Assignment3/A3/main.c`: the array `B` after the
call.  The forces are all computed from the old positions, then every body
`i < N` gets its velocity and then its position updated. -/
def step (sqrt : K → K) (G : K) (N : Nat) (dt : K) (B : List (body K)) : List (body K) :=
  (List.range N).map
    (fun i =>
      let b := body_at B i
      let ax := (step_a sqrt G N B i).x1
      let ay := (step_a sqrt G N B i).x2
      let vx := b.vx + dt * ax
      let vy := b.vy + dt * ay
      ⟨b.x + dt * vx, b.y + dt * vy, b.mass, vx, vy, b.brtness⟩)
    ++ B.drop N

/-- The brute-force body array holding the bodies of a Barnes-Hut body store:
positions `C`, masses `M` (velocity and brightness do not enter the forces). -/
def of_store (bodies : List (Galsim.vector K × K)) : List (body K) :=
  bodies.map (fun b => ⟨b.1.x, b.1.y, b.2, 0, 0, 0⟩)

end Step
end A3

/-! ## Concrete inputs used in the evaluations -/

section Inputs
variable (K : Type) [LinearOrderedField K]

/-- Two unit masses, the second one at the centre (0.5, 0.5) of the root box. -/
def bodies_centre : List (vector K × K) := [(⟨3 / 10, 3 / 10⟩, 1), (⟨1 / 2, 1 / 2⟩, 1)]

/-- Two unit masses that are both at the centre (0.5, 0.5) of the root box. -/
def bodies_twice_centre : List (vector K × K) := [(⟨1 / 2, 1 / 2⟩, 1), (⟨1 / 2, 1 / 2⟩, 1)]

/-- Two bodies of masses 1 and 2 in opposite quadrants of the root box. -/
def bodies_apart : List (vector K × K) := [(⟨3 / 10, 3 / 10⟩, 1), (⟨7 / 10, 7 / 10⟩, 2)]

end Inputs

/-! ## The driver loop of `Assignment5/main.c` -/

section Driver
variable {K : Type} [LinearOrderedField K]

/-- The element `C[i]` of an array of vectors (zero outside the array). -/
def vec_at (C : List (vector K)) (i : Nat) : vector K := C.getD i ⟨0, 0⟩

/-- The function `thread_force` of `Assignment5/main.c`: the array `F` after
the thread of the given rank has run its loop, which replaces `F[i]` by the
result of `force_BH_one_body(G, &C[i], &M[i], t, &F[i], theta)` for every
index `i` of its range. -/
def thread_force (sqrt : K → K) (t : qt K) (C : List (vector K)) (M : List K) (theta G : K)
    (N n_threads rank : Nat) (F : List (vector K)) : List (vector K) :=
  (thread_force_indices N n_threads rank).foldl
    (fun F i => F.set i (force_BH_one_body sqrt G (vec_at C i) (M.getD i 0) t (vec_at F i) theta))
    F

/-- The force phase of one time step of `main`: `F` is the zero array of
`calloc`, and the threads of ranks `0 .. n_threads-1` run `thread_force` on
it.  Every thread writes only the entries of `F` of its own range and reads
nothing that another thread writes, so the threads are run one after the
other. -/
def all_forces (sqrt : K → K) (t : qt K) (C : List (vector K)) (M : List K) (theta G : K)
    (N n_threads : Nat) : List (vector K) :=
  (List.range n_threads).foldl (fun F rank => thread_force sqrt t C M theta G N n_threads rank F)
    (List.replicate N ⟨0, 0⟩)

/-- The body of the update loop of `main` for one body with force `F`, old
velocity `v` and old position `c`: `V[i] += dt * F[i]` in both coordinates,
then `C[i] += V[i] * dt` in both coordinates.  The result is the pair of the
new position and the new velocity. -/
def update_body (dt : K) (F v c : vector K) : vector K × vector K :=
  let vx := v.x + dt * F.x
  let vy := v.y + dt * F.y
  let cx := c.x + vx * dt
  let cy := c.y + vy * dt
  (⟨cx, cy⟩, ⟨vx, vy⟩)

/-- The update loop of `main` over `i = 0 .. N-1`: the arrays `C` and `V`
after the loop. -/
def integrate (N : Nat) (dt : K) (F : List (vector K)) (CV : List (vector K) × List (vector K)) :
    List (vector K) × List (vector K) :=
  ((List.range N).map (fun i => (update_body dt (vec_at F i) (vec_at CV.2 i) (vec_at CV.1 i)).1),
   (List.range N).map (fun i => (update_body dt (vec_at F i) (vec_at CV.2 i) (vec_at CV.1 i)).2))

/-- One iteration of the stepping loop of `main` (graphics off): build the
tree from `C` and `M` with depth budget `k` for every insertion, compute the
forces with `n_threads` threads, update velocities and positions.  The result
is the pair of the arrays `C` and `V`, or `none` when the tree building does
not return within the budget.  `G` is `(double) 100 / N` as in `main`. -/
def main_step (sqrt : K → K) (k N : Nat) (dt theta : K) (n_threads : Nat) (M : List K)
    (CV : List (vector K) × List (vector K)) : Option (List (vector K) × List (vector K)) :=
  match build k ((List.range N).map (fun i => (vec_at CV.1 i, M.getD i 0))) with
  | none => none
  | some t => some (integrate N dt (all_forces sqrt t CV.1 M theta (100 / (N : K)) N n_threads) CV)

end Driver

/-! ## The binary files of `Assignment5/main.c` -/

section Files
variable {K : Type} [LinearOrderedField K]

/-- The six values that one iteration of the loop of `write_data` writes for
body `i`: `C[i]` (two doubles), `M[i]`, `V[i]` (two doubles), `b[i]`. -/
def write_record (C V : List (vector K)) (M b : List K) (i : Nat) : List K :=
  [(vec_at C i).x, (vec_at C i).y, M.getD i 0, (vec_at V i).x, (vec_at V i).y, b.getD i 0]

/-- The function `write_data` of `Assignment5/main.c`: the content of the file
after the call, as the sequence of the doubles written. -/
def write_data (N : Nat) (C V : List (vector K)) (M b : List K) : List K :=
  (List.range N).flatMap (write_record C V M b)

/-- The function `load_data` of `Assignment5/main.c` on an opened file with
the given content: the arrays `C`, `V`, `M`, `b` after the call, each of `N`
elements read in the order `C[i]` (two doubles), `M[i]`, `V[i]` (two doubles),
`b[i]`; `none` when the file ends before `N` records are read (the arrays then
keep unspecified values). -/
def load_data : Nat → List K → Option (List (vector K) × List (vector K) × List K × List K)
  | 0, _ => some ([], [], [], [])
  | N + 1, cx :: cy :: m :: vx :: vy :: br :: rest =>
    match load_data N rest with
    | none => none
    | some (C, V, M, b) => some (⟨cx, cy⟩ :: C, ⟨vx, vy⟩ :: V, m :: M, br :: b)
  | _ + 1, _ => none

end Files

/-- Two unit masses at (0.3, 0.3) and (0.7, 0.7). -/
def bodies_symmetric (K : Type) [LinearOrderedField K] : List (vector K × K) :=
  [(⟨3 / 10, 3 / 10⟩, 1), (⟨7 / 10, 7 / 10⟩, 1)]

/-- The tree that `main` builds from `bodies_symmetric`. -/
def tree_symmetric (K : Type) [LinearOrderedField K] : qt K :=
  qt.node qt.null (leaf ⟨7 / 10, 7 / 10⟩ ⟨3 / 4, 3 / 4⟩ 1 (1 / 4))
    (leaf ⟨3 / 10, 3 / 10⟩ ⟨1 / 4, 1 / 4⟩ 1 (1 / 4)) qt.null ⟨1 / 2, 1 / 2⟩ ⟨1 / 2, 1 / 2⟩ 2 (1 / 2)

namespace A3

section Momentum
variable {K : Type} [LinearOrderedField K]

/-- The vector `(fabs * rx, fabs * ry)` that the inner loop of `step` adds to
`F[i]` for the pair `(i, j)`. -/
def pair_term (sqrt : K → K) (G : K) (B : List (body K)) (i j : Nat) : vector K :=
  let rx := (body_at B i).x - (body_at B j).x
  let ry := (body_at B i).y - (body_at B j).y
  let r := sqrt (rx * rx + ry * ry)
  let fabs := -G * (body_at B i).mass * (body_at B j).mass / ((r + E) * (r + E) * (r + E))
  ⟨fabs * rx, fabs * ry⟩

/-- The sum over the bodies `i < N` of the forces `F[i]` that `step`
accumulates. -/
def total_force (sqrt : K → K) (G : K) (N : Nat) (B : List (body K)) : vector K :=
  ⟨((List.range N).map (fun i => (step_F sqrt G N B i).x1)).sum,
   ((List.range N).map (fun i => (step_F sqrt G N B i).x2)).sum⟩

/-- The total momentum of the bodies `i < N`: the sum of `mass * (vx, vy)`. -/
def momentum (N : Nat) (B : List (body K)) : vector K :=
  ⟨((List.range N).map (fun i => (body_at B i).mass * (body_at B i).vx)).sum,
   ((List.range N).map (fun i => (body_at B i).mass * (body_at B i).vy)).sum⟩

end Momentum

end A3

/-! ## One level of `qt_add` in terms of the children -/

section Step
variable {K : Type} [LinearOrderedField K]

/-- The node `t` with the child pointer of quadrant `q` (1 NW, 2 NE, 3 SW,
4 SE) replaced by `r`; `t` itself for any other `q`. -/
def set_child : Nat → qt K → qt K → qt K
  | 1, qt.node _ ne sw se c p m h, r => qt.node r ne sw se c p m h
  | 2, qt.node nw _ sw se c p m h, r => qt.node nw r sw se c p m h
  | 3, qt.node nw ne _ se c p m h, r => qt.node nw ne r se c p m h
  | 4, qt.node nw ne sw _ c p m h, r => qt.node nw ne sw r c p m h
  | _, t, _ => t

/-- The update of the mass and the centre of mass that `qt_add` makes on the
node it visits, for a new node with centre of mass `a` and mass `am`. -/
def upd (a : vector K) (am : K) : qt K → qt K
  | qt.null => qt.null
  | qt.node nw ne sw se c p m h =>
    qt.node nw ne sw se ⟨(c.x * m + a.x * am) / (m + am), (c.y * m + a.y * am) / (m + am)⟩ p
      (m + am) h

/-- The test `!(nw || ne || sw || se)` of an external node: the node has no
child (`NULL` counts as having none). -/
def childless : qt K → Bool
  | qt.null => true
  | qt.node nw ne sw se _ _ _ _ => nw.isNull && ne.isNull && sw.isNull && se.isNull

/-- The first switch of the external branch of `qt_add`: an external node gets
the copy `tnew` of itself, with half the half width, as the child of the
quadrant of its centre of mass (no child when that quadrant is 0); an internal
node is unchanged. -/
def expand : qt K → qt K
  | qt.null => qt.null
  | qt.node nw ne sw se c p m h =>
    if !nw.isNull || !ne.isNull || !sw.isNull || !se.isNull then qt.node nw ne sw se c p m h
    else
      set_child (check_quadrant c p) (qt.node nw ne sw se c p m h)
        (leaf c (child_p (check_quadrant c p) p (h / 2)) m (h / 2))

/-- Every external node of the tree rooted at `t`, whose box has centre `p` and
half width `h`, has its centre of mass inside its closed box and in the list
`S` and has a positive mass, and every child has the box that `qt_add` assigns
in its quadrant. -/
def placed (S : List (vector K)) (p : vector K) (h : K) : qt K → Prop
  | qt.null => True
  | qt.node nw ne sw se c np m nh =>
    np = p ∧ nh = h ∧
    (childless (qt.node nw ne sw se c np m nh) = true →
      |c.x - p.x| ≤ h ∧ |c.y - p.y| ≤ h ∧ c ∈ S ∧ 0 < m) ∧
    placed S (child_p 1 p (h / 2)) (h / 2) nw ∧ placed S (child_p 2 p (h / 2)) (h / 2) ne ∧
    placed S (child_p 3 p (h / 2)) (h / 2) sw ∧ placed S (child_p 4 p (h / 2)) (h / 2) se

/-- Every node of the tree has a positive mass. -/
def pos_mass : qt K → Prop
  | qt.null => True
  | qt.node nw ne sw se _ _ m _ =>
    0 < m ∧ pos_mass nw ∧ pos_mass ne ∧ pos_mass sw ∧ pos_mass se

/-- No external node of the tree has its centre of mass at `a`. -/
def avoids (a : vector K) : qt K → Prop
  | qt.null => True
  | qt.node nw ne sw se c p m h =>
    (childless (qt.node nw ne sw se c p m h) = true → c ≠ a) ∧
    avoids a nw ∧ avoids a ne ∧ avoids a sw ∧ avoids a se

end Step

section Access
variable {K : Type} [LinearOrderedField K]

/-- The field `p` (box centre) of a node; (0, 0) for `NULL`. -/
def box_p : qt K → vector K
  | qt.null => ⟨0, 0⟩
  | qt.node _ _ _ _ _ p _ _ => p

/-- The field `h` (half width of the box) of a node; 0 for `NULL`. -/
def box_h : qt K → K
  | qt.null => 0
  | qt.node _ _ _ _ _ _ _ h => h

end Access

/-! ## The `float` field `h` -/

section Rounded
variable {K : Type} [LinearOrderedField K]

/-- The value that `(*t)->h / 2` stores in the `float` field `h`, for the half
widths that occur.  Every `h` in a tree comes from `0.5` of `new_qt` by
halvings, so it is a power of two (or 0): the `float` quotient is exact down to
`2^-149`, the smallest positive `float`, and the quotient `2^-150` of `2^-149`
is rounded to 0 (round to nearest, ties to even), as is the quotient of 0. -/
def float_half (h : K) : K := if h < 1 / 2 ^ 148 then 0 else h / 2

/-- The function `qt_add` of `Assignment5/main.c` with the quotient
`(*t)->h / 2`, which the source stores in the `float` fields `tnew->h` and
`tadd->h`, computed by `half`; all else is as in `qt_add`, which is the case
`half h = h / 2`.  With `half = float_half` the half widths are those of the
source (the `double` values are still taken exact). -/
def qt_add_rounded (half : K → K) : Nat → qt K → qt K → Option (qt K)
  | 0, _, _ => none
  | _ + 1, qt.null, tadd => some tadd
  | _ + 1, qt.node _ _ _ _ _ _ _ _, qt.null => none
  | k + 1, qt.node nw ne sw se c p m h, qt.node anw ane asw ase ac _ am _ =>
    if !nw.isNull || !ne.isNull || !sw.isNull || !se.isNull then
      -- current node is internal
      let m1 := m
      let m' := m + am
      let c' : vector K := ⟨(c.x * m1 + ac.x * am) / m', (c.y * m1 + ac.y * am) / m'⟩
      let ah := half h
      qt_add_switch (qt_add_rounded half k) nw ne sw se c' p m' h anw ane asw ase ac am ah
    else
      -- current node is external: `tnew = new_qt((*t)->c, (*t)->m)`
      let th := half h
      let ah := half h
      let m1 := m
      let m' := m + am
      let c' : vector K := ⟨(c.x * m1 + ac.x * am) / m', (c.y * m1 + ac.y * am) / m'⟩
      match check_quadrant c p with
      | 1 => qt_add_switch (qt_add_rounded half k)
          (qt.node qt.null qt.null qt.null qt.null c ⟨p.x - th, p.y + th⟩ m th) ne sw se
          c' p m' h anw ane asw ase ac am ah
      | 2 => qt_add_switch (qt_add_rounded half k)
          nw (qt.node qt.null qt.null qt.null qt.null c ⟨p.x + th, p.y + th⟩ m th) sw se
          c' p m' h anw ane asw ase ac am ah
      | 3 => qt_add_switch (qt_add_rounded half k)
          nw ne (qt.node qt.null qt.null qt.null qt.null c ⟨p.x - th, p.y - th⟩ m th) se
          c' p m' h anw ane asw ase ac am ah
      | 4 => qt_add_switch (qt_add_rounded half k)
          nw ne sw (qt.node qt.null qt.null qt.null qt.null c ⟨p.x + th, p.y - th⟩ m th)
          c' p m' h anw ane asw ase ac am ah
      | _ => qt_add_switch (qt_add_rounded half k) nw ne sw se c' p m' h anw ane asw ase ac am ah

/-- The tree-building loop of `main` with `qt_add_rounded`. -/
def build_rounded (half : K → K) (k : Nat) (bodies : List (vector K × K)) : Option (qt K) :=
  bodies.foldlM (fun t b => qt_add_rounded half k t (new_qt b.1 b.2)) qt.null

end Rounded

/-- Two unit masses at the distinct positions (0, 0) and (0, 2^-160) of the unit
square; both coordinates are values of the type `double`. -/
def bodies_close (K : Type) [LinearOrderedField K] : List (vector K × K) :=
  [(⟨0, 0⟩, 1), (⟨0, 1 / 2 ^ 160⟩, 1)]

/-! # Properties -/

theorem isNull_eq_true {K : Type} {t : qt K} (h : t.isNull = true) : t = qt.null := by
  cases t with
  | null => rfl
  | node _ _ _ _ _ _ _ _ => simp [qt.isNull] at h

section Proofs

variable {K : Type} [LinearOrderedField K]

/-! ## The quadrant test -/

theorem check_quadrant_le_four (c p : vector K) : check_quadrant c p ≤ 4 := by
  unfold check_quadrant
  split_ifs <;> omega

/-- The four tests of `check_quadrant` all fail exactly when the point is the
box centre itself. -/
theorem check_quadrant_eq_zero_iff (c p : vector K) : check_quadrant c p = 0 ↔ c = p := by
  obtain ⟨cx, cy⟩ := c
  obtain ⟨px, py⟩ := p
  unfold check_quadrant
  simp only [vector.mk.injEq]
  constructor
  · intro h
    split_ifs at h with h1 h2 h3 h4
    constructor
    · rcases lt_trichotomy cx px with hx | hx | hx
      · rcases lt_trichotomy cy py with hy | hy | hy
        · exact absurd ⟨hx, hy.le⟩ h3
        · exact absurd ⟨hx, hy.le⟩ h3
        · exact absurd ⟨hx.le, hy⟩ h1
      · exact hx
      · rcases lt_trichotomy cy py with hy | hy | hy
        · exact absurd ⟨hx.le, hy⟩ h4
        · exact absurd ⟨hx, hy.ge⟩ h2
        · exact absurd ⟨hx, hy.le⟩ h2
    · rcases lt_trichotomy cy py with hy | hy | hy
      · rcases lt_trichotomy cx px with hx | hx | hx
        · exact absurd ⟨hx, hy.le⟩ h3
        · exact absurd ⟨hx.ge, hy⟩ h4
        · exact absurd ⟨hx.le, hy⟩ h4
      · exact hy
      · rcases lt_trichotomy cx px with hx | hx | hx
        · exact absurd ⟨hx.le, hy⟩ h1
        · exact absurd ⟨hx.le, hy⟩ h1
        · exact absurd ⟨hx, hy.le⟩ h2
  · rintro ⟨rfl, rfl⟩
    simp

/-- The four tests of `check_quadrant` are pairwise disjoint. -/
theorem check_quadrant_tests_disjoint (c p : vector K) :
    ¬ ((c.x ≤ p.x ∧ c.y > p.y) ∧ (c.x > p.x ∧ c.y ≥ p.y)) ∧
    ¬ ((c.x ≤ p.x ∧ c.y > p.y) ∧ (c.x < p.x ∧ c.y ≤ p.y)) ∧
    ¬ ((c.x ≤ p.x ∧ c.y > p.y) ∧ (c.x ≥ p.x ∧ c.y < p.y)) ∧
    ¬ ((c.x > p.x ∧ c.y ≥ p.y) ∧ (c.x < p.x ∧ c.y ≤ p.y)) ∧
    ¬ ((c.x > p.x ∧ c.y ≥ p.y) ∧ (c.x ≥ p.x ∧ c.y < p.y)) ∧
    ¬ ((c.x < p.x ∧ c.y ≤ p.y) ∧ (c.x ≥ p.x ∧ c.y < p.y)) :=
  ⟨fun h => absurd h.2.1 (not_lt.mpr h.1.1), fun h => absurd h.1.2 (not_lt.mpr h.2.2),
    fun h => absurd h.1.2 (not_lt.mpr h.2.2.le), fun h => absurd h.1.1 (not_lt.mpr h.2.1.le),
    fun h => absurd h.2.2 (not_lt.mpr h.1.2), fun h => absurd h.1.1 (not_lt.mpr h.2.1)⟩

/-- Each return value 1..4 of `check_quadrant` stands for exactly one of the
four tests, whatever the order in which they are tried. -/
theorem check_quadrant_spec (c p : vector K) :
    (check_quadrant c p = 1 ↔ c.x ≤ p.x ∧ c.y > p.y) ∧
    (check_quadrant c p = 2 ↔ c.x > p.x ∧ c.y ≥ p.y) ∧
    (check_quadrant c p = 3 ↔ c.x < p.x ∧ c.y ≤ p.y) ∧
    (check_quadrant c p = 4 ↔ c.x ≥ p.x ∧ c.y < p.y) := by
  obtain ⟨hAB, hAC, hAD, hBC, hBD, hCD⟩ := check_quadrant_tests_disjoint c p
  unfold check_quadrant
  by_cases hA : c.x ≤ p.x ∧ c.y > p.y <;> by_cases hB : c.x > p.x ∧ c.y ≥ p.y <;>
    by_cases hC : c.x < p.x ∧ c.y ≤ p.y <;> by_cases hD : c.x ≥ p.x ∧ c.y < p.y <;>
    first
    | (exfalso; apply hAB; constructor <;> assumption)
    | (exfalso; apply hAC; constructor <;> assumption)
    | (exfalso; apply hAD; constructor <;> assumption)
    | (exfalso; apply hBC; constructor <;> assumption)
    | (exfalso; apply hBD; constructor <;> assumption)
    | (exfalso; apply hCD; constructor <;> assumption)
    | (rw [if_pos hA]; simp [hA, hB, hC, hD])
    | (rw [if_neg hA, if_pos hB]; simp [hA, hB, hC, hD])
    | (rw [if_neg hA, if_neg hB, if_pos hC]; simp [hA, hB, hC, hD])
    | (rw [if_neg hA, if_neg hB, if_neg hC, if_pos hD]; simp [hA, hB, hC, hD])
    | (rw [if_neg hA, if_neg hB, if_neg hC, if_neg hD]; simp [hA, hB, hC, hD])

/-- Every point other than the box centre is put in exactly one quadrant. -/
theorem check_quadrant_off_centre (c p : vector K) (h : c ≠ p) :
    check_quadrant c p = 1 ∨ check_quadrant c p = 2 ∨ check_quadrant c p = 3 ∨
      check_quadrant c p = 4 := by
  have h0 : check_quadrant c p ≠ 0 := fun h0 => h ((check_quadrant_eq_zero_iff c p).mp h0)
  have h4 := check_quadrant_le_four c p
  omega

theorem check_quadrant_centre_zero (p : vector K) : check_quadrant p p = 0 :=
  (check_quadrant_eq_zero_iff p p).mpr rfl

/-- Claim C1, evaluated where it fails: for the point at the centre (0.5, 0.5)
of the root box all four tests of `check_quadrant` fail and the function
returns 0, which is none of the quadrant numbers 1 (NW), 2 (NE), 3 (SW),
4 (SE); the four tests do not cover the point `c = p`. -/
theorem check_quadrant_centre_unassigned :
    check_quadrant (⟨1 / 2, 1 / 2⟩ : vector ℚ) ⟨1 / 2, 1 / 2⟩ = 0 ∧
    check_quadrant (⟨1 / 2, 1 / 2⟩ : vector ℚ) ⟨1 / 2, 1 / 2⟩ ∉ [1, 2, 3, 4] := by
  simp [check_quadrant]

/-- Claim C8, evaluated where it fails: for every box centre `p` the call
`check_quadrant(p, p)` returns 0, not 4 (SE): the SE test needs `c.y < p.y`,
which is false at the centre. -/
theorem check_quadrant_centre_not_se (p : vector K) :
    check_quadrant p p = 0 ∧ check_quadrant p p ≠ 4 := by
  simp [check_quadrant]

/-! ## Mass of the root -/

theorem qt_add_switch_root (rec : qt K → qt K → Option (qt K))
    (nw ne sw se : qt K) (c p : vector K) (m h : K)
    (anw ane asw ase : qt K) (ac : vector K) (am ah : K) (r : qt K)
    (hr : qt_add_switch rec nw ne sw se c p m h anw ane asw ase ac am ah = some r) :
    ∃ nw1 ne1 sw1 se1, r = qt.node nw1 ne1 sw1 se1 c p m h := by
  unfold qt_add_switch at hr
  split at hr
  all_goals first
    | (obtain ⟨r1, -, rfl⟩ := Option.map_eq_some'.mp hr; exact ⟨_, _, _, _, rfl⟩)
    | (cases hr; exact ⟨_, _, _, _, rfl⟩)

/-- A call of `qt_add` on an existing node that returns leaves the node's box
untouched, adds the new mass to the node's mass and merges the new position
into its centre of mass, whichever branch is taken. -/
theorem qt_add_node_root (k : Nat) (nw ne sw se : qt K) (c p : vector K) (m h : K)
    (anw ane asw ase : qt K) (ac ap : vector K) (am ah : K) (r : qt K)
    (hr : qt_add k (qt.node nw ne sw se c p m h) (qt.node anw ane asw ase ac ap am ah) = some r) :
    ∃ nw1 ne1 sw1 se1,
      r = qt.node nw1 ne1 sw1 se1
        ⟨(c.x * m + ac.x * am) / (m + am), (c.y * m + ac.y * am) / (m + am)⟩ p (m + am) h := by
  cases k with
  | zero => simp [qt_add] at hr
  | succ k =>
    simp only [qt_add] at hr
    split at hr
    · exact qt_add_switch_root _ _ _ _ _ _ _ _ _ _ _ _ _ _ _ _ _ hr
    · split at hr <;> exact qt_add_switch_root _ _ _ _ _ _ _ _ _ _ _ _ _ _ _ _ _ hr

theorem foldlM_qt_add_root (k : Nat) (bodies : List (vector K × K)) :
    ∀ (nw ne sw se : qt K) (c p : vector K) (m h : K) (t : qt K),
      bodies.foldlM (fun t b => qt_add k t (new_qt b.1 b.2)) (qt.node nw ne sw se c p m h)
        = some t →
      ∃ nw1 ne1 sw1 se1 c1, t = qt.node nw1 ne1 sw1 se1 c1 p (m + total_mass bodies) h := by
  induction bodies with
  | nil =>
    intro nw ne sw se c p m h t ht
    simp at ht
    subst ht
    exact ⟨nw, ne, sw, se, c, by simp [total_mass]⟩
  | cons b bs ih =>
    intro nw ne sw se c p m h t ht
    rw [List.foldlM_cons] at ht
    obtain ⟨r, hr, hrest⟩ := Option.bind_eq_some.mp ht
    obtain ⟨nw1, ne1, sw1, se1, rfl⟩ := qt_add_node_root _ _ _ _ _ _ _ _ _ _ _ _ _ _ _ _ _ _ hr
    obtain ⟨nw2, ne2, sw2, se2, c2, rfl⟩ := ih _ _ _ _ _ _ _ _ _ hrest
    exact ⟨nw2, ne2, sw2, se2, c2, by simp [total_mass, add_assoc]⟩

/-- The tree built from at least one body has a root node with the box of
`new_qt` and with the total mass of the bodies. -/
theorem build_root_node (k : Nat) (bodies : List (vector K × K)) (t : qt K)
    (hN : 1 ≤ bodies.length) (ht : build k bodies = some t) :
    ∃ nw ne sw se c, t = qt.node nw ne sw se c ⟨1 / 2, 1 / 2⟩ (total_mass bodies) (1 / 2) := by
  cases bodies with
  | nil => simp at hN
  | cons b bs =>
    unfold build at ht
    rw [List.foldlM_cons] at ht
    obtain ⟨r, hr, hrest⟩ := Option.bind_eq_some.mp ht
    cases k with
    | zero => simp [qt_add] at hr
    | succ k =>
      simp only [qt_add, new_qt, Option.some.injEq] at hr
      subst hr
      obtain ⟨nw2, ne2, sw2, se2, c2, rfl⟩ := foldlM_qt_add_root _ _ _ _ _ _ _ _ _ _ _ hrest
      exact ⟨nw2, ne2, sw2, se2, c2, by simp [total_mass]⟩

/-- Claim C2: for every list of `N >= 1` bodies on which the tree-building
loop of `main` returns (every `qt_add` call returns within the depth budget),
the mass `m` of the root node equals the sum of the masses of all the
bodies. -/
theorem build_root_mass (k : Nat) (bodies : List (vector K × K)) (t : qt K)
    (hN : 1 ≤ bodies.length) (ht : build k bodies = some t) :
    t.root_m = some (bodies.map (fun b => b.2)).sum := by
  obtain ⟨nw, ne, sw, se, c, rfl⟩ := build_root_node k bodies t hN ht
  rfl

theorem build_bodies_apart :
    build 2 (bodies_apart ℚ) =
      some (qt.node qt.null (leaf ⟨7 / 10, 7 / 10⟩ ⟨3 / 4, 3 / 4⟩ 2 (1 / 4))
        (leaf ⟨3 / 10, 3 / 10⟩ ⟨1 / 4, 1 / 4⟩ 1 (1 / 4)) qt.null
        ⟨17 / 30, 17 / 30⟩ ⟨1 / 2, 1 / 2⟩ 3 (1 / 2)) := by
  simp [build, bodies_apart, qt_add, new_qt, qt_add_switch, check_quadrant, qt.isNull, leaf]
  norm_num

/-- Claim C2 at two bodies of masses 1 and 2 at (0.3, 0.3) and (0.7, 0.7): the
tree is built and its root has mass 3. -/
theorem build_root_mass_witness :
    1 ≤ (bodies_apart ℚ).length ∧
    build 2 (bodies_apart ℚ) =
      some (qt.node qt.null (leaf ⟨7 / 10, 7 / 10⟩ ⟨3 / 4, 3 / 4⟩ 2 (1 / 4))
        (leaf ⟨3 / 10, 3 / 10⟩ ⟨1 / 4, 1 / 4⟩ 1 (1 / 4)) qt.null
        ⟨17 / 30, 17 / 30⟩ ⟨1 / 2, 1 / 2⟩ 3 (1 / 2)) ∧
    (qt.node qt.null (leaf ⟨7 / 10, 7 / 10⟩ ⟨3 / 4, 3 / 4⟩ 2 (1 / 4))
        (leaf ⟨3 / 10, 3 / 10⟩ ⟨1 / 4, 1 / 4⟩ 1 (1 / 4)) qt.null
        ⟨17 / 30, 17 / 30⟩ ⟨1 / 2, 1 / 2⟩ (3 : ℚ) (1 / 2)).root_m =
      some ((bodies_apart ℚ).map (fun b => b.2)).sum :=
  ⟨by decide, build_bodies_apart, build_root_mass 2 _ _ (by decide) build_bodies_apart⟩

/-! ## Geometry of the boxes -/

theorem boxed_leaf (c p : vector K) (m h : K) :
    boxed p h (qt.node qt.null qt.null qt.null qt.null c p m h) := by
  simp [boxed]

theorem qt_add_switch_boxed (rec : qt K → qt K → Option (qt K))
    (hrec : ∀ (t : qt K) (p : vector K) (h : K) (ac : vector K) (am : K) (r : qt K),
      boxed p h t → rec t (qt.node qt.null qt.null qt.null qt.null ac p am h) = some r →
      boxed p h r)
    (nw ne sw se : qt K) (c p : vector K) (m h : K) (ac : vector K) (am : K) (r : qt K)
    (hb : boxed p h (qt.node nw ne sw se c p m h))
    (hr : qt_add_switch rec nw ne sw se c p m h qt.null qt.null qt.null qt.null ac am (h / 2)
      = some r) :
    boxed p h r := by
  obtain ⟨-, -, h1, h2, h3, h4⟩ := hb
  unfold qt_add_switch at hr
  split at hr
  · obtain ⟨r1, hr1, rfl⟩ := Option.map_eq_some'.mp hr
    exact ⟨rfl, rfl, hrec _ _ _ _ _ _ h1 hr1, h2, h3, h4⟩
  · obtain ⟨r1, hr1, rfl⟩ := Option.map_eq_some'.mp hr
    exact ⟨rfl, rfl, h1, hrec _ _ _ _ _ _ h2 hr1, h3, h4⟩
  · obtain ⟨r1, hr1, rfl⟩ := Option.map_eq_some'.mp hr
    exact ⟨rfl, rfl, h1, h2, hrec _ _ _ _ _ _ h3 hr1, h4⟩
  · obtain ⟨r1, hr1, rfl⟩ := Option.map_eq_some'.mp hr
    exact ⟨rfl, rfl, h1, h2, h3, hrec _ _ _ _ _ _ h4 hr1⟩
  · cases hr
    exact ⟨rfl, rfl, h1, h2, h3, h4⟩

/-- A call of `qt_add` that returns keeps the geometry of the boxes: the new node
gets the box of the slot it ends in. -/
theorem qt_add_boxed (k : Nat) :
    ∀ (t : qt K) (p : vector K) (h : K) (ac : vector K) (am : K) (r : qt K),
      boxed p h t → qt_add k t (qt.node qt.null qt.null qt.null qt.null ac p am h) = some r →
      boxed p h r := by
  induction k with
  | zero => intro t p h ac am r _ hr; simp [qt_add] at hr
  | succ k ih =>
    intro t p h ac am r hb hr
    cases t with
    | null =>
      simp only [qt_add, Option.some.injEq] at hr
      subst hr
      exact boxed_leaf _ _ _ _
    | node nw ne sw se c np m nh =>
      obtain ⟨rfl, rfl, h1, h2, h3, h4⟩ := hb
      simp only [qt_add] at hr
      split at hr
      · exact qt_add_switch_boxed _ ih _ _ _ _ _ _ _ _ _ _ _ ⟨rfl, rfl, h1, h2, h3, h4⟩ hr
      · rename_i hext
        simp only [Bool.or_eq_true, Bool.not_eq_true', not_or, Bool.not_eq_false] at hext
        obtain ⟨⟨⟨e1, e2⟩, e3⟩, e4⟩ := hext
        have := isNull_eq_true e1; have := isNull_eq_true e2
        have := isNull_eq_true e3; have := isNull_eq_true e4
        subst_vars
        split at hr
        all_goals
          refine qt_add_switch_boxed _ ih _ _ _ _ _ _ _ _ _ _ _ ?_ hr
          simp [boxed, child_p]

theorem subtree_null {L : Type} (ds : List Nat) : subtree ds (qt.null : qt L) = qt.null := by
  induction ds with
  | nil => rfl
  | cons q ds ih => rcases q with _ | _ | _ | _ | _ | q <;> simpa [subtree, get_child] using ih

theorem foldlM_qt_add_boxed (k : Nat) (bodies : List (vector K × K)) :
    ∀ (t r : qt K), boxed ⟨1 / 2, 1 / 2⟩ (1 / 2) t →
      bodies.foldlM (fun t b => qt_add k t (new_qt b.1 b.2)) t = some r →
      boxed ⟨1 / 2, 1 / 2⟩ (1 / 2) r := by
  induction bodies with
  | nil => intro t r hb hr; simp at hr; subst hr; exact hb
  | cons b bs ih =>
    intro t r hb hr
    rw [List.foldlM_cons] at hr
    obtain ⟨r1, hr1, hrest⟩ := Option.bind_eq_some.mp hr
    exact ih _ _ (qt_add_boxed k _ _ _ _ _ _ hb hr1) hrest

/-- Every tree built by the loop of `main` has the root box of `new_qt` and
halves the boxes from each node to its children. -/
theorem build_boxed (k : Nat) (bodies : List (vector K × K)) (t : qt K)
    (ht : build k bodies = some t) : boxed ⟨1 / 2, 1 / 2⟩ (1 / 2) t :=
  foldlM_qt_add_boxed k bodies _ _ (by simp [boxed]) ht

theorem le_my_len_mul (N T : Nat) (hT : 1 ≤ T) : N ≤ my_len N T * T := by
  have hT0 : (0 : ℚ) < (T : ℚ) := by exact_mod_cast hT
  have h := Nat.le_ceil ((N : ℚ) / (T : ℚ))
  rw [div_le_iff₀ hT0] at h
  unfold my_len
  exact_mod_cast h

/-- Every starting index is below `N + T`, so for `int` inputs the `long`
values of `thread_force` cannot overflow. -/
theorem my_first_i_lt (N T r : Nat) (hT : 1 ≤ T) (hr : r < T) :
    my_first_i N T r < N + T := by
  have hT0 : (0 : ℚ) < (T : ℚ) := by exact_mod_cast hT
  have h := Nat.ceil_lt_add_one (div_nonneg (Nat.cast_nonneg N) hT0.le)
  have h2 : ((my_len N T : ℕ) : ℚ) * T < N + T := by
    have := mul_lt_mul_of_pos_right h hT0
    rw [add_mul, div_mul_cancel₀ _ hT0.ne', one_mul] at this
    exact this
  have h3 : my_len N T * T < N + T := by exact_mod_cast h2
  have h4 : my_len N T * r ≤ my_len N T * T := Nat.mul_le_mul_left _ hr.le
  unfold my_first_i
  omega

theorem flatMap_indices_range (N T : Nat) (k : Nat) :
    (List.range k).flatMap (thread_force_indices N T) = List.range (min (my_len N T * k) N) := by
  induction k with
  | zero => simp
  | succ k ih =>
    rw [List.range_succ, List.flatMap_append, ih]
    simp only [List.flatMap_cons, List.flatMap_nil, List.append_nil, thread_force_indices, my_last_i,
      my_first_i]
    rw [List.range_eq_range', List.range_eq_range']
    by_cases hk : my_len N T * k ≤ N
    · rw [min_eq_left hk]
      have h := List.range'_append 0 (my_len N T * k)
        ((if my_len N T * k + my_len N T > N then N else my_len N T * k + my_len N T)
          - my_len N T * k) 1
      simp only [one_mul, zero_add] at h
      rw [h]
      congr 1
      rw [Nat.mul_succ]
      split_ifs with h1 <;> omega
    · have h1 : my_len N T * k + my_len N T > N := by omega
      rw [if_pos h1, Nat.mul_succ]
      have h2 : N - my_len N T * k = 0 := by omega
      rw [h2]
      simp only [List.range'_zero, List.append_nil]
      congr 1
      omega

theorem box_from_shift (c p : vector K) (h : K) (k : Nat) :
    box_from c (child_p (check_quadrant c p) p (h / 2)) (h / 2) k = box_from c p h (k + 1) := by
  induction k with
  | zero => rfl
  | succ k ih =>
    show (_, _) = (_, _)
    rw [ih]

theorem never_centre_child (c p : vector K) (h : K)
    (hc : ∀ k, c ≠ (box_from c p h k).1) :
    ∀ k, c ≠ (box_from c (child_p (check_quadrant c p) p (h / 2)) (h / 2) k).1 := by
  intro k
  rw [box_from_shift]
  exact hc (k + 1)

theorem never_centre_quadrant (c p : vector K) (h : K)
    (hc : ∀ k, c ≠ (box_from c p h k).1) :
    check_quadrant c p = 1 ∨ check_quadrant c p = 2 ∨ check_quadrant c p = 3 ∨
      check_quadrant c p = 4 := by
  have h0 : check_quadrant c p ≠ 0 := fun h0 => hc 0 ((check_quadrant_eq_zero_iff c p).mp h0)
  have h4 := check_quadrant_le_four c p
  omega

/-! ## Two bodies at the same position -/

/-- Claim C9, evaluated where it fails: with a body at the centre (0.5, 0.5) of
the root box in the tree, inserting a second body at (0.5, 0.5) returns within
the depth budget 1: both nodes get quadrant 0 from `check_quadrant`, no
recursive call is made, and one childless node of mass 2 is left. -/
theorem same_point_at_centre_terminates :
    qt_add 1 qt.null (new_qt (⟨1 / 2, 1 / 2⟩ : vector ℚ) 1) = some (new_qt ⟨1 / 2, 1 / 2⟩ 1) ∧
    qt_add 1 (new_qt (⟨1 / 2, 1 / 2⟩ : vector ℚ) 1) (new_qt ⟨1 / 2, 1 / 2⟩ 1) =
      some (leaf ⟨1 / 2, 1 / 2⟩ ⟨1 / 2, 1 / 2⟩ 2 (1 / 2)) := by
  constructor
  · rfl
  · simp [qt_add, new_qt, qt_add_switch, check_quadrant, qt.isNull, leaf]
    norm_num

/-! ## Trees without a body at a box centre -/

theorem leaves_internal {L : Type} (nw ne sw se : qt L) (c p : vector L) (m h : L)
    (hint : (nw.isNull && ne.isNull && sw.isNull && se.isNull) = false) :
    leaves (qt.node nw ne sw se c p m h) = leaves nw ++ leaves ne ++ leaves sw ++ leaves se := by
  simp [leaves, hint]

theorem leaves_leaf {L : Type} (c p : vector L) (m h : L) : leaves (leaf c p m h) = [(c, m)] := by
  simp [leaves, leaf, qt.isNull]

theorem isNull_of_leaves {L : Type} (t : qt L) (x : vector L × L) (s : Multiset (vector L × L))
    (h : (leaves t : Multiset (vector L × L)) = x ::ₘ s) : t.isNull = false := by
  cases t with
  | null =>
    simp only [leaves, Multiset.coe_nil] at h
    exact absurd h.symm (Multiset.cons_ne_zero)
  | node _ _ _ _ _ _ _ _ => rfl

theorem internal_of_leaves {L : Type} (nw ne sw se : qt L) (x : vector L × L)
    (s : Multiset (vector L × L))
    (h : ((leaves nw ++ leaves ne ++ leaves sw ++ leaves se : List (vector L × L)) :
      Multiset (vector L × L)) = x ::ₘ s) :
    (nw.isNull && ne.isNull && sw.isNull && se.isNull) = false := by
  by_contra hcon
  simp only [Bool.not_eq_false, Bool.and_eq_true] at hcon
  obtain ⟨⟨⟨e1, e2⟩, e3⟩, e4⟩ := hcon
  rw [isNull_eq_true e1, isNull_eq_true e2, isNull_eq_true e3, isNull_eq_true e4] at h
  simp only [leaves, List.append_nil, Multiset.coe_nil] at h
  exact absurd h.symm (Multiset.cons_ne_zero)

theorem total_mass_cons (l1 l2 : List (vector K × K)) (x : vector K × K)
    (h : (l1 : Multiset (vector K × K)) = x ::ₘ (l2 : Multiset (vector K × K))) :
    total_mass l1 = x.2 + total_mass l2 := by
  have := congrArg (fun s => (s.map (fun b : vector K × K => b.2)).sum) h
  simpa [total_mass] using this

theorem moment_x_cons (l1 l2 : List (vector K × K)) (x : vector K × K)
    (h : (l1 : Multiset (vector K × K)) = x ::ₘ (l2 : Multiset (vector K × K))) :
    moment_x l1 = x.1.x * x.2 + moment_x l2 := by
  have := congrArg (fun s => (s.map (fun b : vector K × K => b.1.x * b.2)).sum) h
  simpa [moment_x] using this

theorem moment_y_cons (l1 l2 : List (vector K × K)) (x : vector K × K)
    (h : (l1 : Multiset (vector K × K)) = x ::ₘ (l2 : Multiset (vector K × K))) :
    moment_y l1 = x.1.y * x.2 + moment_y l2 := by
  have := congrArg (fun s => (s.map (fun b : vector K × K => b.1.y * b.2)).sum) h
  simpa [moment_y] using this

theorem agg_top_after (c ac : vector K) (m am : K) (lt lr : List (vector K × K))
    (hm0 : 0 < m) (hm : m = total_mass lt) (hx : c.x * m = moment_x lt)
    (hy : c.y * m = moment_y lt) (ham : 0 < am)
    (hl : (lr : Multiset (vector K × K)) = (ac, am) ::ₘ (lt : Multiset (vector K × K))) :
    0 < m + am ∧ m + am = total_mass lr ∧
    (c.x * m + ac.x * am) / (m + am) * (m + am) = moment_x lr ∧
    (c.y * m + ac.y * am) / (m + am) * (m + am) = moment_y lr := by
  have hpos : 0 < m + am := add_pos hm0 ham
  refine ⟨hpos, ?_, ?_, ?_⟩
  · rw [total_mass_cons lr lt _ hl, ← hm]; ring
  · rw [div_mul_cancel₀ _ hpos.ne', moment_x_cons lr lt _ hl, ← hx]; ring
  · rw [div_mul_cancel₀ _ hpos.ne', moment_y_cons lr lt _ hl, ← hy]; ring

theorem agg_leaf (c p : vector K) (m h : K) (hm : 0 < m) : agg (leaf c p m h) := by
  simp [agg, leaf, leaves, qt.isNull, total_mass, moment_x, moment_y, hm]

theorem settled_leaf (c p : vector K) (m h : K) (hc : ∀ k, c ≠ (box_from c p h k).1) :
    settled p h (leaf c p m h) := by
  simp only [settled, leaf, qt.isNull, Bool.and_self, if_true, true_and]
  exact hc

theorem qt_add_switch_inv (rec : qt K → qt K → Option (qt K)) (ac : vector K) (am : K)
    (hrec : ∀ (t : qt K) (p : vector K) (h : K) (r : qt K),
      settled p h t → (∀ k, ac ≠ (box_from ac p h k).1) →
      rec t (leaf ac p am h) = some r →
      settled p h r ∧
      (leaves r : Multiset (vector K × K)) = (ac, am) ::ₘ (leaves t : Multiset (vector K × K)) ∧
      (0 < am → agg t → agg r))
    (nw ne sw se : qt K) (c p : vector K) (m h : K) (r : qt K)
    (s1 : settled (child_p 1 p (h / 2)) (h / 2) nw) (s2 : settled (child_p 2 p (h / 2)) (h / 2) ne)
    (s3 : settled (child_p 3 p (h / 2)) (h / 2) sw) (s4 : settled (child_p 4 p (h / 2)) (h / 2) se)
    (hc : ∀ k, ac ≠ (box_from ac p h k).1)
    (hr : qt_add_switch rec nw ne sw se c p m h qt.null qt.null qt.null qt.null ac am (h / 2)
      = some r) :
    ∃ nw1 ne1 sw1 se1, r = qt.node nw1 ne1 sw1 se1 c p m h ∧
      settled (child_p 1 p (h / 2)) (h / 2) nw1 ∧ settled (child_p 2 p (h / 2)) (h / 2) ne1 ∧
      settled (child_p 3 p (h / 2)) (h / 2) sw1 ∧ settled (child_p 4 p (h / 2)) (h / 2) se1 ∧
      ((leaves nw1 ++ leaves ne1 ++ leaves sw1 ++ leaves se1 : List (vector K × K)) :
        Multiset (vector K × K)) =
        (ac, am) ::ₘ ((leaves nw ++ leaves ne ++ leaves sw ++ leaves se : List (vector K × K)) :
          Multiset (vector K × K)) ∧
      (0 < am → agg nw → agg ne → agg sw → agg se → agg nw1 ∧ agg ne1 ∧ agg sw1 ∧ agg se1) := by
  have hq := never_centre_quadrant ac p h hc
  have hc' := never_centre_child ac p h hc
  unfold qt_add_switch at hr
  split at hr
  · rename_i hq1
    rw [hq1] at hc'
    obtain ⟨r1, hr1, rfl⟩ := Option.map_eq_some'.mp hr
    obtain ⟨t1, t2, t3⟩ := hrec _ _ _ _ s1 hc' hr1
    refine ⟨r1, ne, sw, se, rfl, t1, s2, s3, s4, ?_, fun ha a1 a2 a3 a4 => ⟨t3 ha a1, a2, a3, a4⟩⟩
    simp only [← Multiset.coe_add, t2, Multiset.cons_add]
  · rename_i hq1
    rw [hq1] at hc'
    obtain ⟨r1, hr1, rfl⟩ := Option.map_eq_some'.mp hr
    obtain ⟨t1, t2, t3⟩ := hrec _ _ _ _ s2 hc' hr1
    refine ⟨nw, r1, sw, se, rfl, s1, t1, s3, s4, ?_, fun ha a1 a2 a3 a4 => ⟨a1, t3 ha a2, a3, a4⟩⟩
    simp only [← Multiset.coe_add, t2, Multiset.cons_add, Multiset.add_cons]
  · rename_i hq1
    rw [hq1] at hc'
    obtain ⟨r1, hr1, rfl⟩ := Option.map_eq_some'.mp hr
    obtain ⟨t1, t2, t3⟩ := hrec _ _ _ _ s3 hc' hr1
    refine ⟨nw, ne, r1, se, rfl, s1, s2, t1, s4, ?_, fun ha a1 a2 a3 a4 => ⟨a1, a2, t3 ha a3, a4⟩⟩
    simp only [← Multiset.coe_add, t2, Multiset.cons_add, Multiset.add_cons]
  · rename_i hq1
    rw [hq1] at hc'
    obtain ⟨r1, hr1, rfl⟩ := Option.map_eq_some'.mp hr
    obtain ⟨t1, t2, t3⟩ := hrec _ _ _ _ s4 hc' hr1
    refine ⟨nw, ne, sw, r1, rfl, s1, s2, s3, t1, ?_, fun ha a1 a2 a3 a4 => ⟨a1, a2, a3, t3 ha a4⟩⟩
    simp only [← Multiset.coe_add, t2, Multiset.cons_add, Multiset.add_cons]
  · rename_i n1 n2 n3 n4
    rcases hq with hq | hq | hq | hq
    · exact absurd hq n1
    · exact absurd hq n2
    · exact absurd hq n3
    · exact absurd hq n4

/-- A call of `qt_add` that returns, for a new body that is at no box centre of
its descent, on a tree whose leaves are at no box centre of theirs: the
leaves of the result are the old leaves and the new one, and the mass and
centre-of-mass aggregates stay right when the masses are positive. -/
theorem qt_add_inv (ac : vector K) (am : K) (k : Nat) :
    ∀ (t : qt K) (p : vector K) (h : K) (r : qt K),
      settled p h t → (∀ k, ac ≠ (box_from ac p h k).1) →
      qt_add k t (leaf ac p am h) = some r →
      settled p h r ∧
      (leaves r : Multiset (vector K × K)) = (ac, am) ::ₘ (leaves t : Multiset (vector K × K)) ∧
      (0 < am → agg t → agg r) := by
  induction k with
  | zero => intro t p h r _ _ hr; simp [qt_add] at hr
  | succ k ih =>
    intro t p h r hs hc hr
    cases t with
    | null =>
      simp only [qt_add, leaf, Option.some.injEq] at hr
      subst hr
      refine ⟨settled_leaf _ _ _ _ hc, ?_, fun ha _ => agg_leaf _ _ _ _ ha⟩
      simp [leaves, qt.isNull]
    | node nw ne sw se c np m nh =>
      obtain ⟨rfl, rfl, hs⟩ := hs
      simp only [qt_add, leaf] at hr
      split at hr
      · rename_i hint
        have hint' : (nw.isNull && ne.isNull && sw.isNull && se.isNull) = false := by
          simp only [Bool.or_eq_true, Bool.not_eq_true'] at hint
          rcases hint with ((h | h) | h) | h <;> simp [h]
        rw [hint'] at hs
        simp only [Bool.false_eq_true, if_false] at hs
        obtain ⟨s1, s2, s3, s4⟩ := hs
        obtain ⟨nw1, ne1, sw1, se1, rfl, t1, t2, t3, t4, hl, ha⟩ :=
          qt_add_switch_inv _ ac am ih _ _ _ _ _ _ _ _ _ s1 s2 s3 s4 hc hr
        have hint1 := internal_of_leaves _ _ _ _ _ _ hl
        have hlr : (leaves (qt.node nw1 ne1 sw1 se1
            ⟨(c.x * m + ac.x * am) / (m + am), (c.y * m + ac.y * am) / (m + am)⟩ np (m + am) nh) :
            Multiset (vector K × K)) =
            (ac, am) ::ₘ (leaves (qt.node nw ne sw se c np m nh) : Multiset (vector K × K)) := by
          rw [leaves_internal _ _ _ _ _ _ _ _ hint1, leaves_internal _ _ _ _ _ _ _ _ hint', hl]
        refine ⟨?_, hlr, ?_⟩
        · simp only [settled, hint1, Bool.false_eq_true, if_false, true_and]
          exact ⟨t1, t2, t3, t4⟩
        · rintro ham ⟨⟨hm0, hm, hx, hy⟩, a1, a2, a3, a4⟩
          exact ⟨agg_top_after c ac m am _ _ hm0 hm hx hy ham hlr, ha ham a1 a2 a3 a4⟩
      · rename_i hext
        simp only [Bool.or_eq_true, Bool.not_eq_true', not_or, Bool.not_eq_false] at hext
        obtain ⟨⟨⟨e1, e2⟩, e3⟩, e4⟩ := hext
        have := isNull_eq_true e1; have := isNull_eq_true e2
        have := isNull_eq_true e3; have := isNull_eq_true e4
        subst_vars
        simp only [qt.isNull, Bool.and_self, if_true] at hs
        have hq := never_centre_quadrant c np nh hs
        have hs' := never_centre_child c np nh hs
        have hnull : settled (child_p 1 np (nh / 2)) (nh / 2) (qt.null : qt K) ∧
            settled (child_p 2 np (nh / 2)) (nh / 2) (qt.null : qt K) ∧
            settled (child_p 3 np (nh / 2)) (nh / 2) (qt.null : qt K) ∧
            settled (child_p 4 np (nh / 2)) (nh / 2) (qt.null : qt K) := by
          simp [settled]
        obtain ⟨z1, z2, z3, z4⟩ := hnull
        rcases hq with hq | hq | hq | hq
        all_goals
          rw [hq] at hs'
          simp only [hq] at hr
          have hnew := settled_leaf c _ m _ hs'
          simp only [child_p, leaf] at hnew
          obtain ⟨nw1, ne1, sw1, se1, rfl, t1, t2, t3, t4, hl, ha⟩ :=
            qt_add_switch_inv _ ac am ih _ _ _ _ _ _ _ _ _
              (by first | exact hnew | exact z1) (by first | exact hnew | exact z2)
              (by first | exact hnew | exact z3) (by first | exact hnew | exact z4) hc hr
          have hint1 := internal_of_leaves _ _ _ _ _ _ hl
          have hlr : (leaves (qt.node nw1 ne1 sw1 se1
              ⟨(c.x * m + ac.x * am) / (m + am), (c.y * m + ac.y * am) / (m + am)⟩ np (m + am) nh) :
              Multiset (vector K × K)) =
              (ac, am) ::ₘ (leaves (qt.node qt.null qt.null qt.null qt.null c np m nh) :
                Multiset (vector K × K)) := by
            rw [leaves_internal _ _ _ _ _ _ _ _ hint1, hl]
            simp [leaves, qt.isNull]
          refine ⟨?_, hlr, ?_⟩
          · simp only [settled, hint1, Bool.false_eq_true, if_false, true_and]
            exact ⟨t1, t2, t3, t4⟩
          · rintro ham ⟨⟨hm0, hm, hx, hy⟩, -⟩
            refine ⟨agg_top_after c ac m am _ _ hm0 hm hx hy ham hlr, ?_⟩
            have hal := agg_leaf c np m nh hm0
            refine ha ham ?_ ?_ ?_ ?_ <;>
              first
              | exact (by simp [agg] : agg (qt.null : qt K))
              | exact agg_leaf c _ m _ hm0

theorem aggregates_ok_of_agg (t : qt K) (h : agg t) : aggregates_ok t := by
  induction t with
  | null => simp [aggregates_ok]
  | node nw ne sw se c p m h ih1 ih2 ih3 ih4 =>
    obtain ⟨⟨hm0, hm, hx, hy⟩, a1, a2, a3, a4⟩ := h
    refine ⟨fun _ => ⟨hm, ?_⟩, ih1 a1, ih2 a2, ih3 a3, ih4 a4⟩
    have hne : total_mass (leaves (qt.node nw ne sw se c p m h)) ≠ 0 := by
      rw [← hm]; exact hm0.ne'
    obtain ⟨cx, cy⟩ := c
    simp only [weighted_average, vector.mk.injEq]
    constructor
    · rw [eq_div_iff hne, ← hm]; exact hx
    · rw [eq_div_iff hne, ← hm]; exact hy

theorem foldlM_qt_add_inv (k : Nat) (bodies : List (vector K × K)) :
    ∀ (t r : qt K), settled ⟨1 / 2, 1 / 2⟩ (1 / 2) t →
      (∀ b ∈ bodies, ∀ j, b.1 ≠ (box_path b.1 j).1) →
      bodies.foldlM (fun t b => qt_add k t (new_qt b.1 b.2)) t = some r →
      settled ⟨1 / 2, 1 / 2⟩ (1 / 2) r ∧
      (leaves r : Multiset (vector K × K)) =
        (bodies : Multiset (vector K × K)) + (leaves t : Multiset (vector K × K)) ∧
      ((∀ b ∈ bodies, 0 < b.2) → agg t → agg r) := by
  induction bodies with
  | nil =>
    intro t r hs _ hr
    simp at hr
    subst hr
    exact ⟨hs, by simp, fun _ ha => ha⟩
  | cons b bs ih =>
    intro t r hs hc hr
    rw [List.foldlM_cons] at hr
    obtain ⟨r1, hr1, hrest⟩ := Option.bind_eq_some.mp hr
    obtain ⟨s1, l1, a1⟩ := qt_add_inv b.1 b.2 k t _ _ r1 hs
      (hc b (List.mem_cons_self _ _)) hr1
    obtain ⟨s2, l2, a2⟩ := ih r1 r s1 (fun b' hb' => hc b' (List.mem_cons_of_mem _ hb')) hrest
    refine ⟨s2, ?_, fun hpos ha => a2 (fun b' hb' => hpos b' (List.mem_cons_of_mem _ hb'))
      (a1 (hpos b (List.mem_cons_self _ _)) ha)⟩
    rw [l2, l1, ← Multiset.cons_coe, Multiset.add_cons, Multiset.cons_add]

/-- When no body is at a box centre of its descent, the leaves of the built tree
are exactly the bodies (positions and masses), each once. -/
theorem build_leaves (k : Nat) (bodies : List (vector K × K)) (t : qt K)
    (hc : ∀ b ∈ bodies, ∀ j, b.1 ≠ (box_path b.1 j).1)
    (ht : build k bodies = some t) :
    (leaves t : Multiset (vector K × K)) = (bodies : Multiset (vector K × K)) := by
  obtain ⟨-, hl, -⟩ := foldlM_qt_add_inv k bodies _ _ (by simp [settled]) hc ht
  simpa [leaves] using hl

/-- When no body is at a box centre of its descent and all masses are positive,
every internal node of the built tree has the total mass and the
mass-weighted average position of its leaf descendants. -/
theorem build_aggregates (k : Nat) (bodies : List (vector K × K)) (t : qt K)
    (hc : ∀ b ∈ bodies, ∀ j, b.1 ≠ (box_path b.1 j).1)
    (hm : ∀ b ∈ bodies, 0 < b.2)
    (ht : build k bodies = some t) :
    aggregates_ok t := by
  obtain ⟨-, -, ha⟩ := foldlM_qt_add_inv k bodies _ _ (by simp [settled]) hc ht
  exact aggregates_ok_of_agg t (ha hm (by simp [agg]))

/-- When no body is at a box centre of its descent, an insertion that returns
adds exactly the new leaf to the leaves of a built tree. -/
theorem qt_add_leaves (k0 k : Nat) (bodies : List (vector K × K)) (t r : qt K)
    (c : vector K) (m : K)
    (hb : ∀ b ∈ bodies, ∀ j, b.1 ≠ (box_path b.1 j).1)
    (hc : ∀ j, c ≠ (box_path c j).1)
    (ht : build k0 bodies = some t)
    (hr : qt_add k t (new_qt c m) = some r) :
    (leaves r : Multiset (vector K × K)) = (c, m) ::ₘ (leaves t : Multiset (vector K × K)) := by
  obtain ⟨hs, -, -⟩ := foldlM_qt_add_inv k0 bodies _ _ (by simp [settled]) hb ht
  exact (qt_add_inv c m k t _ _ r hs hc hr).2.1

/-! ## The force at `theta = 0` and the brute-force step -/

/-- With `theta = 0` the traversal visits every leaf: the result is the
accumulator plus the sum of the leaf terms. -/
theorem force_theta_zero (sqrt : K → K) (G : K) (c : vector K) (m : K) (t : qt K) :
    ∀ (p : vector K) (h : K) (f : vector K), boxed p h t → 0 < h →
      force_BH_one_body sqrt G c m t f 0 =
        ⟨f.x + ((leaves t).map (fun b => (leaf_term sqrt G c b).x)).sum,
         f.y + ((leaves t).map (fun b => (leaf_term sqrt G c b).y)).sum⟩ := by
  induction t with
  | null => intro p h f _ _; simp [force_BH_one_body, leaves]
  | node nw ne sw se tc tp tm th ih1 ih2 ih3 ih4 =>
    intro p h f hb hh
    obtain ⟨rfl, rfl, b1, b2, b3, b4⟩ := hb
    have hh2 : 0 < th / 2 := by positivity
    by_cases hext : (nw.isNull && ne.isNull && sw.isNull && se.isNull) = true
    · simp [force_BH_one_body, leaves, hext, leaf_term]
    · have hno : ¬ th * 2 < 0 := by
        have : 0 < th * 2 := by positivity
        exact not_lt.mpr this.le
      simp only [force_BH_one_body, leaves, hext, if_false, zero_mul, hno, Bool.false_eq_true]
      rw [ih2 _ _ _ b2 hh2, ih4 _ _ _ b4 hh2, ih1 _ _ _ b1 hh2, ih3 _ _ _ b3 hh2]
      simp only [List.map_append, List.sum_append, vector.mk.injEq]
      constructor <;> ring

theorem foldl_skip_sum (i : Nat) (gx gy : Nat → K) (l : List Nat) :
    ∀ F : A3.vector K,
      l.foldl (fun F j => if i = j then F else ⟨F.x1 + gx j, F.x2 + gy j⟩) F =
        ⟨F.x1 + (l.map (fun j => if i = j then 0 else gx j)).sum,
         F.x2 + (l.map (fun j => if i = j then 0 else gy j)).sum⟩ := by
  induction l with
  | nil => intro F; simp
  | cons j l ih =>
    intro F
    rw [List.foldl_cons, ih]
    by_cases hij : i = j
    · simp [hij]
    · simp [hij, add_assoc]

theorem sum_range_getD {α : Type} (l : List α) (d : α) (g : α → K) :
    ((List.range l.length).map (fun j => g (l.getD j d))).sum = (l.map g).sum := by
  induction l with
  | nil => simp
  | cons a l ih =>
    rw [List.length_cons, List.range_succ_eq_map]
    simp only [List.map_cons, List.sum_cons, List.map_map, List.getD_cons_zero]
    congr 1

theorem body_at_of_store (bodies : List (vector K × K)) (j : Nat) :
    A3.body_at (A3.of_store bodies) j =
      ⟨(bodies.getD j (⟨0, 0⟩, 0)).1.x, (bodies.getD j (⟨0, 0⟩, 0)).1.y,
        (bodies.getD j (⟨0, 0⟩, 0)).2, 0, 0, 0⟩ := by
  unfold A3.body_at A3.of_store
  induction bodies generalizing j with
  | nil => simp
  | cons b bs ih =>
    cases j with
    | zero => simp
    | succ j => simpa using ih j

theorem step_a_eq_sum (sqrt : K → K) (G : K) (bodies : List (vector K × K)) (i : Nat)
    (hm : (bodies.getD i (⟨0, 0⟩, 0)).2 ≠ 0) :
    A3.step_a sqrt G bodies.length (A3.of_store bodies) i =
      ⟨(bodies.map (fun b => (leaf_term sqrt G (bodies.getD i (⟨0, 0⟩, 0)).1 b).x)).sum,
       (bodies.map (fun b => (leaf_term sqrt G (bodies.getD i (⟨0, 0⟩, 0)).1 b).y)).sum⟩ := by
  unfold A3.step_a A3.step_F
  rw [foldl_skip_sum]
  simp only [body_at_of_store, zero_add]
  rw [← sum_range_getD bodies (⟨0, 0⟩, 0), ← sum_range_getD bodies (⟨0, 0⟩, 0)]
  simp only [A3.vector.mk.injEq]
  constructor
  · rw [div_eq_iff hm, ← List.sum_map_mul_right]
    congr 1
    apply List.map_congr_left
    intro j _
    by_cases hij : i = j
    · subst hij; simp [leaf_term]
    · simp only [hij, if_false, leaf_term]; ring
  · rw [div_eq_iff hm, ← List.sum_map_mul_right]
    congr 1
    apply List.map_congr_left
    intro j _
    by_cases hij : i = j
    · subst hij; simp [leaf_term]
    · simp only [hij, if_false, leaf_term]; ring

/-- When no body is at a box centre of its descent, `force_BH_one_body` with
`theta = 0` and a zero accumulator gives for body `i` the acceleration
`F[i] / mass` of the brute-force `step`, for the same bodies and `G`. -/
theorem theta_zero_refines (sqrt : K → K) (G : K) (k : Nat) (bodies : List (vector K × K))
    (t : qt K) (i : Nat)
    (hc : ∀ b ∈ bodies, ∀ j, b.1 ≠ (box_path b.1 j).1)
    (hm : (bodies.getD i (⟨0, 0⟩, 0)).2 ≠ 0)
    (ht : build k bodies = some t) :
    force_BH_one_body sqrt G (bodies.getD i (⟨0, 0⟩, 0)).1 (bodies.getD i (⟨0, 0⟩, 0)).2 t
        ⟨0, 0⟩ 0 =
      ⟨(A3.step_a sqrt G bodies.length (A3.of_store bodies) i).x1,
       (A3.step_a sqrt G bodies.length (A3.of_store bodies) i).x2⟩ := by
  rw [force_theta_zero sqrt G _ _ t _ _ _ (build_boxed k bodies t ht) (by norm_num),
    step_a_eq_sum sqrt G bodies i hm]
  have hl := build_leaves k bodies t hc ht
  have h1 := congrArg (fun s => (s.map (fun b =>
    (leaf_term sqrt G (bodies.getD i (⟨0, 0⟩, 0)).1 b).x)).sum) hl
  have h2 := congrArg (fun s => (s.map (fun b =>
    (leaf_term sqrt G (bodies.getD i (⟨0, 0⟩, 0)).1 b).y)).sum) hl
  simp only [Multiset.map_coe, Multiset.sum_coe] at h1 h2
  simp only [zero_add, h1, h2]

/-! ## A body at the centre of a box -/

/-- The tree built from a body at (0.3, 0.3) and a body at the centre
(0.5, 0.5) of the root box: the second body gets quadrant 0, so its node is
not linked into the tree, but its mass and position are already merged into
the root. -/
theorem build_bodies_centre :
    build 2 (bodies_centre K) =
      some (qt.node qt.null qt.null (leaf ⟨3 / 10, 3 / 10⟩ ⟨1 / 4, 1 / 4⟩ 1 (1 / 4)) qt.null
        ⟨2 / 5, 2 / 5⟩
        ⟨1 / 2, 1 / 2⟩ 2 (1 / 2)) := by
  have h1 : ¬ ((3 : K) / 10 ≤ 1 / 2 ∧ (3 : K) / 10 > 1 / 2) := by norm_num
  have h2 : ¬ ((3 : K) / 10 > 1 / 2 ∧ (3 : K) / 10 ≥ 1 / 2) := by norm_num
  have h3 : (3 : K) / 10 < 1 / 2 ∧ (3 : K) / 10 ≤ 1 / 2 := by norm_num
  have hq : check_quadrant (⟨3 / 10, 3 / 10⟩ : vector K) ⟨1 / 2, 1 / 2⟩ = 3 := by
    unfold check_quadrant
    rw [if_neg h1, if_neg h2, if_pos h3]
  simp only [build, bodies_centre, List.foldlM_cons, List.foldlM_nil, qt_add, new_qt,
    Option.bind_eq_bind, Option.some_bind, qt.isNull, Bool.not_true, Bool.or_self,
    Bool.false_eq_true, if_false, hq, qt_add_switch, check_quadrant_centre_zero, leaf,
    Option.pure_def]
  norm_num

/-- Claim C3, evaluated where it fails: for a unit mass at (0.3, 0.3) and a unit
mass at the centre (0.5, 0.5) of the root box the tree is built, its root is an
internal node of mass 2 whose only leaf descendant has mass 1, so the root's
mass is not the sum of the masses of its leaf descendants. -/
theorem aggregates_fail_at_centre :
    build 2 (bodies_centre ℚ) =
      some (qt.node qt.null qt.null (leaf ⟨3 / 10, 3 / 10⟩ ⟨1 / 4, 1 / 4⟩ 1 (1 / 4)) qt.null
        ⟨2 / 5, 2 / 5⟩
        ⟨1 / 2, 1 / 2⟩ 2 (1 / 2)) ∧
    ¬ aggregates_ok (qt.node qt.null qt.null (leaf ⟨3 / 10, 3 / 10⟩ ⟨1 / 4, 1 / 4⟩ 1 (1 / 4))
        qt.null ⟨2 / 5, 2 / 5⟩
        ⟨1 / 2, 1 / 2⟩ (2 : ℚ) (1 / 2)) := by
  refine ⟨build_bodies_centre, ?_⟩
  simp [aggregates_ok, leaf, leaves, qt.isNull, total_mass]

/-- Claim C5, evaluated where it fails: for a unit mass at (0.3, 0.3) and a unit
mass at the centre (0.5, 0.5) of the root box, with `G = 50` and `theta = 0`,
`force_BH_one_body` gives the zero vector for body 0 (the only leaf of the tree
is body 0 itself), while the brute-force `step` gives body 0 an acceleration
with positive x component. -/
theorem theta_zero_differs_at_centre :
    build 2 (bodies_centre ℝ) =
      some (qt.node qt.null qt.null (leaf ⟨3 / 10, 3 / 10⟩ ⟨1 / 4, 1 / 4⟩ 1 (1 / 4)) qt.null
        ⟨2 / 5, 2 / 5⟩
        ⟨1 / 2, 1 / 2⟩ 2 (1 / 2)) ∧
    force_BH_one_body Real.sqrt 50 ⟨3 / 10, 3 / 10⟩ 1
      (qt.node qt.null qt.null (leaf ⟨3 / 10, 3 / 10⟩ ⟨1 / 4, 1 / 4⟩ 1 (1 / 4)) qt.null
        ⟨2 / 5, 2 / 5⟩
        ⟨1 / 2, 1 / 2⟩ 2 (1 / 2)) ⟨0, 0⟩ 0 = ⟨0, 0⟩ ∧
    0 < (A3.step_a Real.sqrt 50 2 (A3.of_store (bodies_centre ℝ)) 0).x1 := by
  refine ⟨build_bodies_centre, ?_, ?_⟩
  · simp [force_BH_one_body, leaf, qt.isNull]
  · simp [A3.step_a, A3.step_F, A3.of_store, bodies_centre, A3.body_at, List.range_succ]
    have hs := Real.sqrt_nonneg ((3 / 10 - 2⁻¹) * (3 / 10 - 2⁻¹) + (3 / 10 - 2⁻¹) * (3 / 10 - 2⁻¹))
    have hE : (0 : ℝ) < E := by norm_num [E]
    have hd : (0 : ℝ) <
        √((3 / 10 - 2⁻¹) * (3 / 10 - 2⁻¹) + (3 / 10 - 2⁻¹) * (3 / 10 - 2⁻¹)) + E :=
      add_pos_of_nonneg_of_pos hs hE
    refine mul_pos_of_neg_of_neg (div_neg_of_neg_of_pos (by norm_num) ?_) (by norm_num)
    positivity

/-- Claim C6, evaluated where it fails: inserting a unit mass at the centre
(0.5, 0.5) of the root box into the tree that holds a unit mass at (0.3, 0.3)
returns a tree whose only leaf is still the body at (0.3, 0.3): the new body
is not a leaf of the tree. -/
theorem qt_add_loses_leaf_at_centre :
    qt_add 1 (new_qt ⟨3 / 10, 3 / 10⟩ 1) (new_qt ⟨1 / 2, 1 / 2⟩ 1) =
      some (qt.node qt.null qt.null (leaf ⟨3 / 10, 3 / 10⟩ ⟨1 / 4, 1 / 4⟩ 1 (1 / 4)) qt.null
        ⟨2 / 5, 2 / 5⟩ ⟨1 / 2, 1 / 2⟩ (2 : ℚ) (1 / 2)) ∧
    leaves (new_qt (⟨3 / 10, 3 / 10⟩ : vector ℚ) 1) = [(⟨3 / 10, 3 / 10⟩, 1)] ∧
    leaves (qt.node qt.null qt.null (leaf ⟨3 / 10, 3 / 10⟩ ⟨1 / 4, 1 / 4⟩ 1 (1 / 4)) qt.null
        ⟨2 / 5, 2 / 5⟩ ⟨1 / 2, 1 / 2⟩ (2 : ℚ) (1 / 2)) = [(⟨3 / 10, 3 / 10⟩, 1)] := by
  refine ⟨?_, ?_, ?_⟩
  · simp [qt_add, new_qt, qt_add_switch, check_quadrant, qt.isNull, leaf]
    norm_num
  · simp [leaves, new_qt, qt.isNull]
  · simp [leaves, leaf, qt.isNull]

/-- Claim C7, evaluated where it fails: for two unit masses that are both at the
centre (0.5, 0.5) of the root box the tree is built, and it is one node with
zero children and mass 2, which is the mass of neither body. -/
theorem leaf_merges_bodies_at_centre :
    build 1 (bodies_twice_centre ℚ) = some (leaf ⟨1 / 2, 1 / 2⟩ ⟨1 / 2, 1 / 2⟩ 2 (1 / 2)) ∧
    leaves (leaf (⟨1 / 2, 1 / 2⟩ : vector ℚ) ⟨1 / 2, 1 / 2⟩ 2 (1 / 2)) = [(⟨1 / 2, 1 / 2⟩, 2)] ∧
    ((⟨1 / 2, 1 / 2⟩, 2) : vector ℚ × ℚ) ∉ bodies_twice_centre ℚ := by
  refine ⟨?_, ?_, ?_⟩
  · simp [build, bodies_twice_centre, qt_add, new_qt, qt_add_switch, check_quadrant, qt.isNull,
      leaf]
    norm_num
  · simp [leaves, leaf, qt.isNull]
  · simp [bodies_twice_centre]

/-! ## The force phase and the integrator of the Barnes-Hut driver -/

theorem foldl_flatMap_eq {α β γ : Type} (f : α → List β) (g : γ → β → γ) (l : List α) :
    ∀ a : γ, (l.flatMap f).foldl g a = l.foldl (fun acc x => (f x).foldl g acc) a := by
  induction l with
  | nil => intro a; rfl
  | cons x l ih => intro a; simp [List.flatMap_cons, List.foldl_append, ih]

theorem vec_at_append_right (A B : List (vector K)) (i : Nat) (h : A.length ≤ i) :
    vec_at (A ++ B) i = vec_at B (i - A.length) := by
  unfold vec_at
  rw [List.getD_eq_getElem?_getD, List.getD_eq_getElem?_getD, List.getElem?_append_right h]

theorem foldl_set_range (g : Nat → vector K → vector K) (F0 : List (vector K)) (n : Nat)
    (hn : n ≤ F0.length) :
    (List.range n).foldl (fun F i => F.set i (g i (vec_at F i))) F0 =
      (List.range n).map (fun i => g i (vec_at F0 i)) ++ F0.drop n := by
  induction n with
  | zero => simp
  | succ n ih =>
    rw [List.range_succ, List.foldl_append, ih (Nat.le_of_succ_le hn)]
    simp only [List.foldl_cons, List.foldl_nil, List.map_append, List.map_cons, List.map_nil]
    have hlen : ((List.range n).map (fun i => g i (vec_at F0 i))).length = n := by simp
    rw [vec_at_append_right _ _ _ (by rw [hlen]), hlen, Nat.sub_self]
    rw [List.set_append_right _ _ (by rw [hlen]), hlen, Nat.sub_self]
    have hd : F0.drop n = F0[n] :: F0.drop (n + 1) := (List.drop_eq_getElem_cons hn).trans rfl
    have hv : vec_at (F0.drop n) 0 = vec_at F0 n := by
      rw [hd]; unfold vec_at; simp [List.getD_eq_getElem?_getD, List.getElem?_eq_getElem hn]
    rw [hv, hd]
    simp only [List.set_cons_zero, List.append_assoc, List.singleton_append, List.cons_append,
      List.nil_append]

/-- With at least one thread, the force phase computes for every body `i < N`
the result of `force_BH_one_body` from a zero accumulator, exactly once. -/
theorem all_forces_eq (sqrt : K → K) (t : qt K) (C : List (vector K)) (M : List K)
    (theta G : K) (N T : Nat) (hT : 1 ≤ T) :
    all_forces sqrt t C M theta G N T =
      (List.range N).map
        (fun i => force_BH_one_body sqrt G (vec_at C i) (M.getD i 0) t ⟨0, 0⟩ theta) := by
  unfold all_forces thread_force
  rw [← foldl_flatMap_eq (thread_force_indices N T)
    (fun (F : List (vector K)) (i : Nat) =>
      F.set i (force_BH_one_body sqrt G (vec_at C i) (M.getD i 0) t (vec_at F i) theta)),
    flatMap_indices_range, min_eq_right (le_my_len_mul N T hT),
    foldl_set_range (fun i f => force_BH_one_body sqrt G (vec_at C i) (M.getD i 0) t f theta)
      _ N (by simp)]
  simp only [List.drop_replicate, Nat.sub_self, List.replicate_zero, List.append_nil]
  apply List.map_congr_left
  intro i hi
  have : vec_at (List.replicate N (⟨0, 0⟩ : vector K)) i = ⟨0, 0⟩ := by
    unfold vec_at
    simp [List.getD_eq_getElem?_getD, List.getElem?_replicate, List.mem_range.mp hi]
  rw [this]

/-- Without any thread the forces stay the zero array of `calloc`. -/
theorem all_forces_zero_threads (sqrt : K → K) (t : qt K) (C : List (vector K)) (M : List K)
    (theta G : K) (N : Nat) :
    all_forces sqrt t C M theta G N 0 = List.replicate N ⟨0, 0⟩ := rfl

/-- Claim C13: for every body `i < N`, force `F[i]`, time step `dt`, old velocity
`v` and old position `x`, the update loop of `main` yields `v' = v + dt * F`
and `x' = x + dt * v'` in each coordinate, that is `x' = x + dt * (v + dt * F)`:
the position update uses the already-updated velocity, so it differs from
the update with the old velocity by `dt * dt * F`. -/
theorem integrate_semi_implicit (N : Nat) (dt : K) (F C V : List (vector K)) (i : Nat)
    (hi : i < N) :
    vec_at (integrate N dt F (C, V)).2 i =
      ⟨(vec_at V i).x + dt * (vec_at F i).x, (vec_at V i).y + dt * (vec_at F i).y⟩ ∧
    vec_at (integrate N dt F (C, V)).1 i =
      ⟨(vec_at C i).x + dt * (vec_at (integrate N dt F (C, V)).2 i).x,
       (vec_at C i).y + dt * (vec_at (integrate N dt F (C, V)).2 i).y⟩ ∧
    vec_at (integrate N dt F (C, V)).1 i =
      ⟨(vec_at C i).x + dt * ((vec_at V i).x + dt * (vec_at F i).x),
       (vec_at C i).y + dt * ((vec_at V i).y + dt * (vec_at F i).y)⟩ ∧
    vec_at (integrate N dt F (C, V)).1 i =
      ⟨((vec_at C i).x + dt * (vec_at V i).x) + dt * dt * (vec_at F i).x,
       ((vec_at C i).y + dt * (vec_at V i).y) + dt * dt * (vec_at F i).y⟩ := by
  have h2 : vec_at (integrate N dt F (C, V)).2 i =
      ⟨(vec_at V i).x + dt * (vec_at F i).x, (vec_at V i).y + dt * (vec_at F i).y⟩ := by
    simp [integrate, vec_at, update_body, List.getD_eq_getElem?_getD, hi]
  have h1 : vec_at (integrate N dt F (C, V)).1 i =
      ⟨(vec_at C i).x + ((vec_at V i).x + dt * (vec_at F i).x) * dt,
       (vec_at C i).y + ((vec_at V i).y + dt * (vec_at F i).y) * dt⟩ := by
    simp [integrate, vec_at, update_body, List.getD_eq_getElem?_getD, hi]
  refine ⟨h2, ?_, ?_, ?_⟩
  · rw [h1, h2]; simp only [vector.mk.injEq]; constructor <;> ring
  · rw [h1]; simp only [vector.mk.injEq]; constructor <;> ring
  · rw [h1]; simp only [vector.mk.injEq]; constructor <;> ring

/-- Claim C13 at one body with force (2, 0), `dt = 1/2`, velocity (1, 0) and
position (0, 0): the new velocity is (2, 0) and the new position (1, 0). -/
theorem integrate_semi_implicit_witness :
    0 < 1 ∧
    vec_at (integrate 1 (1 / 2 : ℚ) [⟨2, 0⟩] ([⟨0, 0⟩], [⟨1, 0⟩])).2 0 =
      ⟨(1 : ℚ) + 1 / 2 * 2, 0 + 1 / 2 * 0⟩ :=
  ⟨by decide, by
    simpa [vec_at] using
      (integrate_semi_implicit 1 (1 / 2 : ℚ) [⟨2, 0⟩] [⟨0, 0⟩] [⟨1, 0⟩] 0 (by decide)).1⟩

/-! ## A single body -/

theorem build_bodies_symmetric (k : Nat) :
    build (k + 2) (bodies_symmetric K) = some (tree_symmetric K) := by
  have h1 : ¬ ((3 : K) / 10 ≤ 1 / 2 ∧ (3 : K) / 10 > 1 / 2) := by norm_num
  have h2 : ¬ ((3 : K) / 10 > 1 / 2 ∧ (3 : K) / 10 ≥ 1 / 2) := by norm_num
  have h3 : (3 : K) / 10 < 1 / 2 ∧ (3 : K) / 10 ≤ 1 / 2 := by norm_num
  have hq : check_quadrant (⟨3 / 10, 3 / 10⟩ : vector K) ⟨1 / 2, 1 / 2⟩ = 3 := by
    unfold check_quadrant
    rw [if_neg h1, if_neg h2, if_pos h3]
  have h4 : ¬ ((7 : K) / 10 ≤ 1 / 2 ∧ (7 : K) / 10 > 1 / 2) := by norm_num
  have h5 : (7 : K) / 10 > 1 / 2 ∧ (7 : K) / 10 ≥ 1 / 2 := by norm_num
  have hq2 : check_quadrant (⟨7 / 10, 7 / 10⟩ : vector K) ⟨1 / 2, 1 / 2⟩ = 2 := by
    unfold check_quadrant
    rw [if_neg h4, if_pos h5]
  simp only [build, bodies_symmetric, tree_symmetric, List.foldlM_cons, List.foldlM_nil, qt_add,
    new_qt, Option.bind_eq_bind, Option.some_bind, qt.isNull, Bool.not_true, Bool.or_self,
    Bool.false_eq_true, if_false, hq, hq2, qt_add_switch, leaf, Option.pure_def, Option.map_some']
  norm_num

theorem sqrt_small (x : ℝ) (hx : x ≤ 4) : Real.sqrt x ≤ 2 := by
  rw [Real.sqrt_le_left (by norm_num : (0 : ℝ) ≤ 2)]
  norm_num
  exact hx

theorem force_symmetric_zero :
    force_BH_one_body Real.sqrt 50 ⟨3 / 10, 3 / 10⟩ 1 (tree_symmetric ℝ) ⟨0, 0⟩ (1 / 2) =
      ⟨50 / ((√(8 / 25) + E) * (√(8 / 25) + E) * (√(8 / 25) + E)) * (7 / 10 - 3 / 10),
       50 / ((√(8 / 25) + E) * (√(8 / 25) + E) * (√(8 / 25) + E)) * (7 / 10 - 3 / 10)⟩ := by
  have hd : ¬ ((1 : ℝ) / 2 * 2 < 1 / 2 *
      √((3 / 10 - 1 / 2) * (3 / 10 - 1 / 2) + (3 / 10 - 1 / 2) * (3 / 10 - 1 / 2))) := by
    have := sqrt_small ((3 / 10 - 1 / 2) * (3 / 10 - 1 / 2) + (3 / 10 - 1 / 2) * (3 / 10 - 1 / 2))
      (by norm_num)
    intro h
    linarith
  have hr : ((3 : ℝ) / 10 - 7 / 10) * (3 / 10 - 7 / 10) + (3 / 10 - 7 / 10) * (3 / 10 - 7 / 10)
      = 8 / 25 := by norm_num
  simp only [tree_symmetric, leaf, force_BH_one_body, qt.isNull, Bool.and_self, Bool.and_false,
    Bool.false_and, Bool.false_eq_true, if_false, if_true, hd, sub_self, mul_zero, add_zero,
    zero_add, hr, vector.mk.injEq]
  constructor <;> ring

theorem force_symmetric_one :
    force_BH_one_body Real.sqrt 50 ⟨7 / 10, 7 / 10⟩ 1 (tree_symmetric ℝ) ⟨0, 0⟩ (1 / 2) =
      ⟨50 / ((√(8 / 25) + E) * (√(8 / 25) + E) * (√(8 / 25) + E)) * (3 / 10 - 7 / 10),
       50 / ((√(8 / 25) + E) * (√(8 / 25) + E) * (√(8 / 25) + E)) * (3 / 10 - 7 / 10)⟩ := by
  have hd : ¬ ((1 : ℝ) / 2 * 2 < 1 / 2 *
      √((7 / 10 - 1 / 2) * (7 / 10 - 1 / 2) + (7 / 10 - 1 / 2) * (7 / 10 - 1 / 2))) := by
    have := sqrt_small ((7 / 10 - 1 / 2) * (7 / 10 - 1 / 2) + (7 / 10 - 1 / 2) * (7 / 10 - 1 / 2))
      (by norm_num)
    intro h
    linarith
  have hr : ((7 : ℝ) / 10 - 3 / 10) * (7 / 10 - 3 / 10) + (7 / 10 - 3 / 10) * (7 / 10 - 3 / 10)
      = 8 / 25 := by norm_num
  simp only [tree_symmetric, leaf, force_BH_one_body, qt.isNull, Bool.and_self, Bool.and_false,
    Bool.false_and, Bool.false_eq_true, if_false, if_true, hd, sub_self, mul_zero, add_zero,
    zero_add, hr, vector.mk.injEq]
  constructor <;> ring

theorem main_step_symmetric (T : Nat) :
    main_step Real.sqrt 2 2 (1 / 1000) (1 / 2) (T + 1) [1, 1]
        ([⟨3 / 10, 3 / 10⟩, ⟨7 / 10, 7 / 10⟩], [⟨0, 0⟩, ⟨0, 0⟩]) =
      some (
        (integrate 2 (1 / 1000)
          [force_BH_one_body Real.sqrt 50 ⟨3 / 10, 3 / 10⟩ 1 (tree_symmetric ℝ) ⟨0, 0⟩ (1 / 2),
           force_BH_one_body Real.sqrt 50 ⟨7 / 10, 7 / 10⟩ 1 (tree_symmetric ℝ) ⟨0, 0⟩ (1 / 2)]
          ([⟨3 / 10, 3 / 10⟩, ⟨7 / 10, 7 / 10⟩], [⟨0, 0⟩, ⟨0, 0⟩]))) := by
  have hb : build 2 ((List.range 2).map (fun i =>
      (vec_at [(⟨3 / 10, 3 / 10⟩ : vector ℝ), ⟨7 / 10, 7 / 10⟩] i, [(1 : ℝ), 1].getD i 0))) =
      some (tree_symmetric ℝ) := by
    have := @build_bodies_symmetric ℝ _ 0
    simpa [vec_at, List.range_succ, bodies_symmetric] using this
  have hG : (100 : ℝ) / ((2 : ℕ) : ℝ) = 50 := by norm_num
  unfold main_step
  simp only [hb, hG, all_forces_eq Real.sqrt _ _ _ _ _ 2 (T + 1) (Nat.succ_le_succ (Nat.zero_le T))]
  simp [vec_at, List.range_succ]

/-- Claim C14: for the two unit masses at (0.3, 0.3) and (0.7, 0.7), with
`G = 50` and `theta = 0.5`, the tree is built and the forces `F[0]`, `F[1]`
that `force_BH_one_body` computes over it from zero accumulators are a positive
multiple `lam` of the vector from each body to the other body, the same
multiple for both: they are non-zero, `F[0] = -F[1]`, and each points from
its body towards the other along the line joining them.  After the update of
one time step with `dt = 0.001` from zero velocities, with any number of
threads, the two velocities are non-zero and exact negatives of each other. -/
theorem two_body_forces_symmetric :
    build 2 (bodies_symmetric ℝ) = some (tree_symmetric ℝ) ∧
    ∃ lam : ℝ, 0 < lam ∧
      force_BH_one_body Real.sqrt 50 ⟨3 / 10, 3 / 10⟩ 1 (tree_symmetric ℝ) ⟨0, 0⟩ (1 / 2) =
        ⟨lam * (7 / 10 - 3 / 10), lam * (7 / 10 - 3 / 10)⟩ ∧
      force_BH_one_body Real.sqrt 50 ⟨7 / 10, 7 / 10⟩ 1 (tree_symmetric ℝ) ⟨0, 0⟩ (1 / 2) =
        ⟨lam * (3 / 10 - 7 / 10), lam * (3 / 10 - 7 / 10)⟩ ∧
      (force_BH_one_body Real.sqrt 50 ⟨3 / 10, 3 / 10⟩ 1 (tree_symmetric ℝ) ⟨0, 0⟩ (1 / 2)).x =
        -(force_BH_one_body Real.sqrt 50 ⟨7 / 10, 7 / 10⟩ 1 (tree_symmetric ℝ) ⟨0, 0⟩ (1 / 2)).x ∧
      (force_BH_one_body Real.sqrt 50 ⟨3 / 10, 3 / 10⟩ 1 (tree_symmetric ℝ) ⟨0, 0⟩ (1 / 2)).y =
        -(force_BH_one_body Real.sqrt 50 ⟨7 / 10, 7 / 10⟩ 1 (tree_symmetric ℝ) ⟨0, 0⟩ (1 / 2)).y ∧
      ∀ T : Nat, ∃ C1 : List (vector ℝ), ∃ v0 v1 : vector ℝ,
        main_step Real.sqrt 2 2 (1 / 1000) (1 / 2) (T + 1) [1, 1]
          ([⟨3 / 10, 3 / 10⟩, ⟨7 / 10, 7 / 10⟩], [⟨0, 0⟩, ⟨0, 0⟩]) = some (C1, [v0, v1]) ∧
        v0.x = -v1.x ∧ v0.y = -v1.y ∧ 0 < v0.x ∧ 0 < v0.y := by
  have hE : (0 : ℝ) < E := by norm_num [E]
  have hs : (0 : ℝ) < √(8 / 25) + E := add_pos_of_nonneg_of_pos (Real.sqrt_nonneg _) hE
  have hlam : (0 : ℝ) < 50 / ((√(8 / 25) + E) * (√(8 / 25) + E) * (√(8 / 25) + E)) := by
    positivity
  refine ⟨build_bodies_symmetric 0, _, hlam, force_symmetric_zero, force_symmetric_one, ?_, ?_, ?_⟩
  · rw [force_symmetric_zero, force_symmetric_one]; ring
  · rw [force_symmetric_zero, force_symmetric_one]; ring
  · intro T
    rw [main_step_symmetric T, force_symmetric_zero, force_symmetric_one]
    refine ⟨_, _, _, rfl, ?_, ?_, ?_, ?_⟩
    · simp [update_body, vec_at]; ring
    · simp [update_body, vec_at]; ring
    · simp only [update_body, vec_at, List.getD_cons_zero, zero_add]
      have : (0 : ℝ) < 7 / 10 - 3 / 10 := by norm_num
      positivity
    · simp only [update_body, vec_at, List.getD_cons_zero, zero_add]
      have : (0 : ℝ) < 7 / 10 - 3 / 10 := by norm_num
      positivity

/-! ## Writing and reading the body store -/

theorem write_data_cons (N : Nat) (c v : vector K) (m x : K) (C V : List (vector K))
    (M b : List K) :
    write_data (N + 1) (c :: C) (v :: V) (m :: M) (x :: b) =
      c.x :: c.y :: m :: v.x :: v.y :: x :: write_data N C V M b := by
  unfold write_data
  rw [List.range_succ_eq_map, List.flatMap_cons, List.flatMap_map]
  have h : (fun a => write_record (c :: C) (v :: V) (m :: M) (x :: b) (Nat.succ a)) =
      write_record C V M b := by
    funext i
    simp [write_record, vec_at]
  rw [h]
  simp [write_record, vec_at]

/-- Claim C15: for every `N` and every body store of `N` bodies (positions `C`,
velocities `V`, masses `M`, brightness `b`), `load_data` with the same `N` on
the sequence of doubles that `write_data` writes returns the same positions,
velocities, masses and brightness for every body. -/
theorem load_write_data (N : Nat) (C V : List (vector K)) (M b : List K)
    (hC : C.length = N) (hV : V.length = N) (hM : M.length = N) (hb : b.length = N) :
    load_data N (write_data N C V M b) = some (C, V, M, b) := by
  induction N generalizing C V M b with
  | zero =>
    rw [List.length_eq_zero] at hC hV hM hb
    subst hC hV hM hb
    rfl
  | succ N ih =>
    obtain ⟨c, C, rfl⟩ := List.exists_cons_of_length_eq_add_one hC
    obtain ⟨v, V, rfl⟩ := List.exists_cons_of_length_eq_add_one hV
    obtain ⟨m, M, rfl⟩ := List.exists_cons_of_length_eq_add_one hM
    obtain ⟨x, b, rfl⟩ := List.exists_cons_of_length_eq_add_one hb
    simp only [List.length_cons, Nat.add_right_cancel_iff] at hC hV hM hb
    rw [write_data_cons, load_data, ih C V M b hC hV hM hb]

/-- Claim C15 at two bodies: the twelve doubles written are read back into the
same arrays. -/
theorem load_write_data_witness :
    write_data 2 [⟨1, 2⟩, ⟨3, 4⟩] [⟨5, 6⟩, ⟨7, 8⟩] [9, 10] [(11 : ℚ), 12] =
      [1, 2, 9, 5, 6, 11, 3, 4, 10, 7, 8, 12] ∧
    load_data 2 (write_data 2 [⟨1, 2⟩, ⟨3, 4⟩] [⟨5, 6⟩, ⟨7, 8⟩] [9, 10] [(11 : ℚ), 12]) =
      some ([⟨1, 2⟩, ⟨3, 4⟩], [⟨5, 6⟩, ⟨7, 8⟩], [9, 10], [11, 12]) :=
  ⟨by simp [write_data, write_record, vec_at, List.range_succ],
    load_write_data 2 _ _ _ _ rfl rfl rfl rfl⟩

/-! ## Momentum in the brute-force step -/

theorem list_sum_range_eq (N : Nat) (f : Nat → K) :
    ((List.range N).map f).sum = ∑ i in Finset.range N, f i := by
  simp [Finset.sum, Finset.range, Multiset.range]

theorem antisymm_double_sum (N : Nat) (f : Nat → Nat → K) (h : ∀ i j, f j i = -f i j) :
    ∑ i in Finset.range N, ∑ j in Finset.range N, f i j = 0 := by
  have h1 : ∑ i in Finset.range N, ∑ j in Finset.range N, f i j =
      -∑ i in Finset.range N, ∑ j in Finset.range N, f i j := by
    conv_lhs => rw [Finset.sum_comm]
    simp only [← Finset.sum_neg_distrib]
    exact Finset.sum_congr rfl (fun i _ => Finset.sum_congr rfl (fun j _ => h i j))
  have h2 : (2 : K) * ∑ i in Finset.range N, ∑ j in Finset.range N, f i j = 0 := by linarith
  rcases mul_eq_zero.mp h2 with h3 | h3
  · exact absurd h3 two_ne_zero
  · exact h3

theorem pair_term_antisymm (sqrt : K → K) (G : K) (B : List (A3.body K)) (i j : Nat) :
    A3.pair_term sqrt G B j i =
      ⟨-(A3.pair_term sqrt G B i j).x1, -(A3.pair_term sqrt G B i j).x2⟩ := by
  have hr : ((A3.body_at B j).x - (A3.body_at B i).x) * ((A3.body_at B j).x - (A3.body_at B i).x) +
      ((A3.body_at B j).y - (A3.body_at B i).y) * ((A3.body_at B j).y - (A3.body_at B i).y) =
      ((A3.body_at B i).x - (A3.body_at B j).x) * ((A3.body_at B i).x - (A3.body_at B j).x) +
      ((A3.body_at B i).y - (A3.body_at B j).y) * ((A3.body_at B i).y - (A3.body_at B j).y) := by
    ring
  simp only [A3.pair_term, hr, A3.vector.mk.injEq]
  constructor <;> ring

theorem step_F_eq_sum (sqrt : K → K) (G : K) (N : Nat) (B : List (A3.body K)) (i : Nat) :
    A3.step_F sqrt G N B i =
      ⟨∑ j in Finset.range N, (if i = j then 0 else (A3.pair_term sqrt G B i j).x1),
       ∑ j in Finset.range N, (if i = j then 0 else (A3.pair_term sqrt G B i j).x2)⟩ := by
  have hdef : A3.step_F sqrt G N B i =
      (List.range N).foldl
        (fun F j => if i = j then F
          else ⟨F.x1 + (A3.pair_term sqrt G B i j).x1, F.x2 + (A3.pair_term sqrt G B i j).x2⟩)
        ⟨0, 0⟩ := rfl
  rw [hdef, foldl_skip_sum i (fun j => (A3.pair_term sqrt G B i j).x1)
    (fun j => (A3.pair_term sqrt G B i j).x2), list_sum_range_eq, list_sum_range_eq]
  simp

theorem total_force_zero (sqrt : K → K) (G : K) (N : Nat) (B : List (A3.body K)) :
    A3.total_force sqrt G N B = ⟨0, 0⟩ := by
  unfold A3.total_force
  simp only [step_F_eq_sum, list_sum_range_eq, A3.vector.mk.injEq]
  constructor
  · apply antisymm_double_sum
    intro i j
    by_cases hij : i = j
    · subst hij; simp
    · have hji : ¬ j = i := fun h => hij h.symm
      simp only [hij, hji, if_false, pair_term_antisymm sqrt G B i j]
  · apply antisymm_double_sum
    intro i j
    by_cases hij : i = j
    · subst hij; simp
    · have hji : ¬ j = i := fun h => hij h.symm
      simp only [hij, hji, if_false, pair_term_antisymm sqrt G B i j]

theorem body_at_step (sqrt : K → K) (G : K) (N : Nat) (dt : K) (B : List (A3.body K)) (i : Nat)
    (hi : i < N) :
    (A3.body_at (A3.step sqrt G N dt B) i).mass = (A3.body_at B i).mass ∧
    (A3.body_at (A3.step sqrt G N dt B) i).vx =
      (A3.body_at B i).vx + dt * ((A3.step_F sqrt G N B i).x1 / (A3.body_at B i).mass) ∧
    (A3.body_at (A3.step sqrt G N dt B) i).vy =
      (A3.body_at B i).vy + dt * ((A3.step_F sqrt G N B i).x2 / (A3.body_at B i).mass) := by
  have hlen : i < ((List.range N).map (fun i =>
      (⟨(A3.body_at B i).x + dt * ((A3.body_at B i).vx + dt * (A3.step_a sqrt G N B i).x1),
        (A3.body_at B i).y + dt * ((A3.body_at B i).vy + dt * (A3.step_a sqrt G N B i).x2),
        (A3.body_at B i).mass,
        (A3.body_at B i).vx + dt * (A3.step_a sqrt G N B i).x1,
        (A3.body_at B i).vy + dt * (A3.step_a sqrt G N B i).x2,
        (A3.body_at B i).brtness⟩ : A3.body K))).length := by simpa using hi
  have h : A3.body_at (A3.step sqrt G N dt B) i =
      ⟨(A3.body_at B i).x + dt * ((A3.body_at B i).vx + dt * (A3.step_a sqrt G N B i).x1),
        (A3.body_at B i).y + dt * ((A3.body_at B i).vy + dt * (A3.step_a sqrt G N B i).x2),
        (A3.body_at B i).mass,
        (A3.body_at B i).vx + dt * (A3.step_a sqrt G N B i).x1,
        (A3.body_at B i).vy + dt * (A3.step_a sqrt G N B i).x2,
        (A3.body_at B i).brtness⟩ := by
    conv_lhs => unfold A3.body_at A3.step
    rw [List.getD_eq_getElem?_getD, List.getElem?_append_left hlen]
    simp [hi]
  rw [h]
  exact ⟨rfl, rfl, rfl⟩

/-- Claim C20: in the brute-force variant, for every `N`, `G`, `dt` and every
body array whose bodies `i < N` have non-zero masses, the term that `step`
adds to `F[j]` for the pair `(j, i)` is the exact negation of the term it adds
to `F[i]` for `(i, j)`, the accumulated forces sum to the zero vector over all
bodies, and one call of `step` leaves the total momentum, the sum of
`mass * (vx, vy)` over the bodies, unchanged. -/
theorem step_conserves_momentum (sqrt : K → K) (G : K) (N : Nat) (dt : K)
    (B : List (A3.body K)) (hm : ∀ i, i < N → (A3.body_at B i).mass ≠ 0) :
    (∀ i j, A3.pair_term sqrt G B j i =
      ⟨-(A3.pair_term sqrt G B i j).x1, -(A3.pair_term sqrt G B i j).x2⟩) ∧
    A3.total_force sqrt G N B = ⟨0, 0⟩ ∧
    A3.momentum N (A3.step sqrt G N dt B) = A3.momentum N B := by
  refine ⟨pair_term_antisymm sqrt G B, total_force_zero sqrt G N B, ?_⟩
  have hF := total_force_zero sqrt G N B
  unfold A3.total_force at hF
  simp only [A3.vector.mk.injEq, list_sum_range_eq] at hF
  unfold A3.momentum
  simp only [A3.vector.mk.injEq, list_sum_range_eq]
  constructor
  · have : ∀ i ∈ Finset.range N,
        (A3.body_at (A3.step sqrt G N dt B) i).mass * (A3.body_at (A3.step sqrt G N dt B) i).vx =
        (A3.body_at B i).mass * (A3.body_at B i).vx + dt * (A3.step_F sqrt G N B i).x1 := by
      intro i hi
      have hi := Finset.mem_range.mp hi
      obtain ⟨h1, h2, -⟩ := body_at_step sqrt G N dt B i hi
      rw [h1, h2]
      field_simp [hm i hi]
      ring
    rw [Finset.sum_congr rfl this, Finset.sum_add_distrib, ← Finset.mul_sum, hF.1]
    ring
  · have : ∀ i ∈ Finset.range N,
        (A3.body_at (A3.step sqrt G N dt B) i).mass * (A3.body_at (A3.step sqrt G N dt B) i).vy =
        (A3.body_at B i).mass * (A3.body_at B i).vy + dt * (A3.step_F sqrt G N B i).x2 := by
      intro i hi
      have hi := Finset.mem_range.mp hi
      obtain ⟨h1, -, h3⟩ := body_at_step sqrt G N dt B i hi
      rw [h1, h3]
      field_simp [hm i hi]
      ring
    rw [Finset.sum_congr rfl this, Finset.sum_add_distrib, ← Finset.mul_sum, hF.2]
    ring

/-! ## The theta criterion inside the box of a node -/

theorem dist_le_sqrt_two_mul (dx dy h : ℝ) (hh : 0 < h) (hx : |dx| ≤ h) (hy : |dy| ≤ h) :
    √(dx * dx + dy * dy) ≤ √2 * h := by
  have h2 : (0 : ℝ) ≤ √2 * h := mul_nonneg (Real.sqrt_nonneg _) hh.le
  rw [Real.sqrt_le_left h2, mul_pow, Real.sq_sqrt (by norm_num : (0 : ℝ) ≤ 2)]
  have hx2 : dx * dx ≤ h * h := by
    have := abs_le.mp hx
    nlinarith
  have hy2 : dy * dy ≤ h * h := by
    have := abs_le.mp hy
    nlinarith
  nlinarith

/-- Claim C17: for every `theta <= sqrt 2` and every internal node with half
width `h > 0` whose closed box contains the query position, the test
`2 * h < theta * d` of `force_BH_one_body` is false, so the call does not take
the point-mass branch for that node and returns the accumulator passed through
the recursive calls on the children `sw`, `nw`, `se`, `ne`. -/
theorem theta_criterion_inside (G : ℝ) (c : vector ℝ) (m : ℝ) (nw ne sw se : qt ℝ)
    (tc tp : vector ℝ) (tm th : ℝ) (f : vector ℝ) (theta : ℝ)
    (hint : (nw.isNull && ne.isNull && sw.isNull && se.isNull) = false)
    (hh : 0 < th) (hx : |c.x - tp.x| ≤ th) (hy : |c.y - tp.y| ≤ th) (hth : theta ≤ √2) :
    ¬ (th * 2 < theta * √((c.x - tp.x) * (c.x - tp.x) + (c.y - tp.y) * (c.y - tp.y))) ∧
    force_BH_one_body Real.sqrt G c m (qt.node nw ne sw se tc tp tm th) f theta =
      force_BH_one_body Real.sqrt G c m ne
        (force_BH_one_body Real.sqrt G c m se
          (force_BH_one_body Real.sqrt G c m nw
            (force_BH_one_body Real.sqrt G c m sw f theta) theta) theta) theta := by
  have hd := dist_le_sqrt_two_mul (c.x - tp.x) (c.y - tp.y) th hh hx hy
  have hd0 : 0 ≤ √((c.x - tp.x) * (c.x - tp.x) + (c.y - tp.y) * (c.y - tp.y)) :=
    Real.sqrt_nonneg _
  have h22 : √2 * √2 = (2 : ℝ) := Real.mul_self_sqrt (by norm_num)
  have hno : ¬ (th * 2 < theta * √((c.x - tp.x) * (c.x - tp.x) + (c.y - tp.y) * (c.y - tp.y))) := by
    have h1 : theta * √((c.x - tp.x) * (c.x - tp.x) + (c.y - tp.y) * (c.y - tp.y)) ≤
        √2 * √((c.x - tp.x) * (c.x - tp.x) + (c.y - tp.y) * (c.y - tp.y)) :=
      mul_le_mul_of_nonneg_right hth hd0
    have h2 : √2 * √((c.x - tp.x) * (c.x - tp.x) + (c.y - tp.y) * (c.y - tp.y)) ≤
        √2 * (√2 * th) := mul_le_mul_of_nonneg_left hd (Real.sqrt_nonneg _)
    have h3 : √2 * (√2 * th) = th * 2 := by rw [← mul_assoc, h22]; ring
    intro hlt
    linarith
  refine ⟨hno, ?_⟩
  simp only [force_BH_one_body, hint, Bool.false_eq_true, if_false, hno]

/-- Claim C17 at the root of the tree of two unit masses at (0.3, 0.3) and
(0.7, 0.7), seen from (0.3, 0.3) with `theta = 0.5`. -/
theorem theta_criterion_inside_witness :
    (0 : ℝ) < 1 / 2 ∧ |(3 / 10 : ℝ) - 1 / 2| ≤ 1 / 2 ∧ (1 / 2 : ℝ) ≤ √2 ∧
    ¬ ((1 / 2 : ℝ) * 2 < 1 / 2 *
      √((3 / 10 - 1 / 2) * (3 / 10 - 1 / 2) + (3 / 10 - 1 / 2) * (3 / 10 - 1 / 2))) := by
  have h1 : |(3 / 10 : ℝ) - 1 / 2| ≤ 1 / 2 := by rw [abs_le]; constructor <;> norm_num
  have h2 : (1 / 2 : ℝ) ≤ √2 := Real.le_sqrt_of_sq_le (by norm_num)
  exact ⟨by norm_num, h1, h2,
    (theta_criterion_inside 50 ⟨3 / 10, 3 / 10⟩ 1 qt.null
      (leaf ⟨7 / 10, 7 / 10⟩ ⟨3 / 4, 3 / 4⟩ 1 (1 / 4))
      (leaf ⟨3 / 10, 3 / 10⟩ ⟨1 / 4, 1 / 4⟩ 1 (1 / 4)) qt.null ⟨1 / 2, 1 / 2⟩ ⟨1 / 2, 1 / 2⟩ 2
      (1 / 2) ⟨0, 0⟩ (1 / 2) rfl (by norm_num) h1 h1 h2).1⟩

/-- Claim C20 at the two unit masses at (0.3, 0.3) and (0.7, 0.7) with `G = 50`
and `dt = 0.001`: the step leaves the total momentum unchanged. -/
theorem step_conserves_momentum_witness :
    (∀ i, i < 2 → (A3.body_at (A3.of_store (bodies_symmetric ℝ)) i).mass ≠ 0) ∧
    A3.momentum 2 (A3.step Real.sqrt 50 2 (1 / 1000) (A3.of_store (bodies_symmetric ℝ))) =
      A3.momentum 2 (A3.of_store (bodies_symmetric ℝ)) := by
  have hm : ∀ i, i < 2 → (A3.body_at (A3.of_store (bodies_symmetric ℝ)) i).mass ≠ 0 := by
    intro i hi
    interval_cases i <;> simp [A3.body_at, A3.of_store, bodies_symmetric]
  exact ⟨hm, (step_conserves_momentum Real.sqrt 50 2 (1 / 1000) _ hm).2.2⟩

/-! ## One level of `qt_add` -/

theorem get_child_null {L : Type} (q : Nat) : get_child q (qt.null : qt L) = qt.null := by
  rcases q with _ | _ | _ | _ | _ | q <;> rfl

/-- The step equation of `qt_add` on a node: the node is expanded, its aggregates
are updated, and the new leaf goes into the child of its quadrant, or nowhere
when its quadrant is 0. -/
theorem qt_add_succ_node (k : Nat) (nw ne sw se : qt K) (c p : vector K) (m h : K)
    (a ap : vector K) (am ah : K) :
    qt_add (k + 1) (qt.node nw ne sw se c p m h) (leaf a ap am ah) =
      if check_quadrant a p = 0 then some (upd a am (expand (qt.node nw ne sw se c p m h)))
      else
        (qt_add k (get_child (check_quadrant a p) (expand (qt.node nw ne sw se c p m h)))
          (leaf a (child_p (check_quadrant a p) p (h / 2)) am (h / 2))).map
          (fun r => set_child (check_quadrant a p)
            (upd a am (expand (qt.node nw ne sw se c p m h))) r) := by
  have ha4 := check_quadrant_le_four a p
  have hc4 := check_quadrant_le_four c p
  by_cases hint : (!nw.isNull || !ne.isNull || !sw.isNull || !se.isNull) = true
  · simp only [qt_add, leaf, hint, if_true, expand, qt_add_switch]
    generalize check_quadrant a p = qa at ha4 ⊢
    rcases qa with _ | _ | _ | _ | _ | qa
    · simp [upd]
    · simp [upd, get_child, set_child, child_p]
    · simp [upd, get_child, set_child, child_p]
    · simp [upd, get_child, set_child, child_p]
    · simp [upd, get_child, set_child, child_p]
    · omega
  · have hext := hint
    simp only [Bool.or_eq_true, Bool.not_eq_true', not_or, Bool.not_eq_false] at hext
    obtain ⟨⟨⟨e1, e2⟩, e3⟩, e4⟩ := hext
    have := isNull_eq_true e1; have := isNull_eq_true e2
    have := isNull_eq_true e3; have := isNull_eq_true e4
    subst_vars
    simp only [qt_add, leaf, qt.isNull, Bool.not_true, Bool.or_self, Bool.false_eq_true, if_false,
      expand, qt_add_switch]
    generalize check_quadrant c p = qc at hc4 ⊢
    generalize check_quadrant a p = qa at ha4 ⊢
    rcases qc with _ | _ | _ | _ | _ | qc <;> rcases qa with _ | _ | _ | _ | _ | qa <;>
      first
      | omega
      | simp [upd, get_child, set_child, child_p, leaf]

/-! ## Children of a node -/

theorem set_child_isNull {L : Type} (q : Nat) (t r : qt L) (ht : t.isNull = false) :
    (set_child q t r).isNull = false := by
  cases t with
  | null => simp [qt.isNull] at ht
  | node nw ne sw se c p m h => rcases q with _ | _ | _ | _ | _ | q <;> rfl

theorem upd_isNull (a : vector K) (am : K) (t : qt K) : (upd a am t).isNull = t.isNull := by
  cases t <;> rfl

theorem expand_isNull (t : qt K) : (expand t).isNull = t.isNull := by
  cases t with
  | null => rfl
  | node nw ne sw se c p m h =>
    simp only [expand]
    split_ifs
    · rfl
    · exact set_child_isNull _ _ _ rfl

theorem get_set_child {L : Type} (q : Nat) (hq1 : 1 ≤ q) (hq4 : q ≤ 4) (t r : qt L)
    (ht : t.isNull = false) : get_child q (set_child q t r) = r := by
  cases t with
  | null => simp [qt.isNull] at ht
  | node nw ne sw se c p m h =>
    rcases q with _ | _ | _ | _ | _ | q <;> first | omega | rfl

theorem get_set_child_ne {L : Type} (q q2 : Nat) (hq : q2 ≠ q) (t r : qt L) :
    get_child q2 (set_child q t r) = get_child q2 t := by
  cases t with
  | null => rcases q with _ | _ | _ | _ | _ | q <;> rfl
  | node nw ne sw se c p m h =>
    rcases q with _ | _ | _ | _ | _ | q <;> rcases q2 with _ | _ | _ | _ | _ | q2 <;>
      first | rfl | omega

theorem set_set_child {L : Type} (q : Nat) (t r r2 : qt L) :
    set_child q (set_child q t r) r2 = set_child q t r2 := by
  cases t with
  | null => rcases q with _ | _ | _ | _ | _ | q <;> rfl
  | node nw ne sw se c p m h => rcases q with _ | _ | _ | _ | _ | q <;> rfl

theorem set_child_comm {L : Type} (q q2 : Nat) (hq : q ≠ q2) (t r r2 : qt L) :
    set_child q2 (set_child q t r) r2 = set_child q (set_child q2 t r2) r := by
  cases t with
  | null => rcases q with _ | _ | _ | _ | _ | q <;> rcases q2 with _ | _ | _ | _ | _ | q2 <;> rfl
  | node nw ne sw se c p m h =>
    rcases q with _ | _ | _ | _ | _ | q <;> rcases q2 with _ | _ | _ | _ | _ | q2 <;>
      first | rfl | omega

theorem set_child_zero {L : Type} (t r : qt L) : set_child 0 t r = t := by
  cases t <;> rfl

theorem get_child_upd (q : Nat) (a : vector K) (am : K) (t : qt K) :
    get_child q (upd a am t) = get_child q t := by
  cases t with
  | null => rfl
  | node nw ne sw se c p m h => rcases q with _ | _ | _ | _ | _ | q <;> rfl

theorem upd_set_child (q : Nat) (a : vector K) (am : K) (t r : qt K) :
    upd a am (set_child q t r) = set_child q (upd a am t) r := by
  cases t with
  | null => rcases q with _ | _ | _ | _ | _ | q <;> rfl
  | node nw ne sw se c p m h => rcases q with _ | _ | _ | _ | _ | q <;> rfl

theorem childless_upd (a : vector K) (am : K) (t : qt K) :
    childless (upd a am t) = childless t := by
  cases t <;> rfl

theorem childless_set_child {L : Type} (q : Nat) (hq1 : 1 ≤ q) (hq4 : q ≤ 4) (t r : qt L)
    (ht : t.isNull = false) (hr : r.isNull = false) : childless (set_child q t r) = false := by
  cases t with
  | null => simp [qt.isNull] at ht
  | node nw ne sw se c p m h =>
    rcases q with _ | _ | _ | _ | _ | q <;> first | omega | simp [set_child, childless, hr]

theorem childless_of_get_child {L : Type} (q : Nat) (t : qt L) (ht : childless t = true) :
    get_child q t = qt.null := by
  cases t with
  | null => exact get_child_null q
  | node nw ne sw se c p m h =>
    simp only [childless, Bool.and_eq_true] at ht
    obtain ⟨⟨⟨e1, e2⟩, e3⟩, e4⟩ := ht
    rcases q with _ | _ | _ | _ | _ | q <;>
      first
      | rfl
      | exact isNull_eq_true e1
      | exact isNull_eq_true e2
      | exact isNull_eq_true e3
      | exact isNull_eq_true e4

theorem expand_of_internal (t : qt K) (ht : childless t = false) : expand t = t := by
  cases t with
  | null => rfl
  | node nw ne sw se c p m h =>
    simp only [expand]
    rw [if_pos]
    simp only [childless] at ht
    revert ht
    cases nw.isNull <;> cases ne.isNull <;> cases sw.isNull <;> cases se.isNull <;> simp

theorem expand_leaf (c p : vector K) (m h : K) :
    expand (leaf c p m h) =
      set_child (check_quadrant c p) (leaf c p m h)
        (leaf c (child_p (check_quadrant c p) p (h / 2)) m (h / 2)) := by
  simp [expand, leaf, qt.isNull]

theorem eq_leaf_of_childless {L : Type} (nw ne sw se : qt L) (c p : vector L) (m h : L)
    (ht : childless (qt.node nw ne sw se c p m h) = true) :
    qt.node nw ne sw se c p m h = leaf c p m h := by
  simp only [childless, Bool.and_eq_true] at ht
  obtain ⟨⟨⟨e1, e2⟩, e3⟩, e4⟩ := ht
  rw [isNull_eq_true e1, isNull_eq_true e2, isNull_eq_true e3, isNull_eq_true e4]
  rfl

/-- The quadrant number is 1, 2, 3 or 4 for a point that is not the box
centre. -/
theorem check_quadrant_range (a p : vector K) (h : a ≠ p) :
    1 ≤ check_quadrant a p ∧ check_quadrant a p ≤ 4 := by
  have h0 : check_quadrant a p ≠ 0 := fun h0 => h ((check_quadrant_eq_zero_iff a p).mp h0)
  have h4 := check_quadrant_le_four a p
  omega

/-! ## The depth budget of `qt_add` -/

theorem qt_add_null (k : Nat) (tadd : qt K) : qt_add (k + 1) qt.null tadd = some tadd := rfl

theorem qt_add_isNull (k : Nat) (t : qt K) (a ap : vector K) (am ah : K) (r : qt K)
    (h : qt_add k t (leaf a ap am ah) = some r) : r.isNull = false := by
  cases k with
  | zero => simp [qt_add] at h
  | succ k =>
    cases t with
    | null =>
      rw [qt_add_null] at h
      cases h
      rfl
    | node nw ne sw se c p m hh =>
      rw [qt_add_succ_node] at h
      split_ifs at h with hq
      · cases h
        rw [upd_isNull, expand_isNull]
        rfl
      · rw [Option.map_eq_some'] at h
        obtain ⟨r1, -, rfl⟩ := h
        apply set_child_isNull
        rw [upd_isNull, expand_isNull]
        rfl

/-- A larger depth budget does not change a result of `qt_add`. -/
theorem qt_add_mono (k : Nat) :
    ∀ (t : qt K) (a ap : vector K) (am ah : K) (r : qt K),
      qt_add k t (leaf a ap am ah) = some r → qt_add (k + 1) t (leaf a ap am ah) = some r := by
  induction k with
  | zero => intro t a ap am ah r h; simp [qt_add] at h
  | succ k ih =>
    intro t a ap am ah r h
    cases t with
    | null =>
      rw [qt_add_null] at h ⊢
      exact h
    | node nw ne sw se c p m hh =>
      rw [qt_add_succ_node] at h ⊢
      split_ifs at h ⊢ with hq
      · exact h
      · rw [Option.map_eq_some'] at h ⊢
        obtain ⟨r1, h1, rfl⟩ := h
        exact ⟨r1, ih _ _ _ _ _ _ h1, rfl⟩

theorem qt_add_mono_le (k k2 : Nat) (hk : k ≤ k2) (t : qt K) (a ap : vector K) (am ah : K)
    (r : qt K) (h : qt_add k t (leaf a ap am ah) = some r) :
    qt_add k2 t (leaf a ap am ah) = some r := by
  induction k2 with
  | zero =>
    have : k = 0 := by omega
    subst this
    exact h
  | succ n ih =>
    rcases Nat.lt_or_ge k (n + 1) with hlt | hge
    · exact qt_add_mono n _ _ _ _ _ _ (ih (by omega))
    · have : k = n + 1 := by omega
      subst this
      exact h

/-- The result of `qt_add` does not depend on the depth budget, once the budget
is enough. -/
theorem qt_add_det (k k2 : Nat) (t : qt K) (a ap : vector K) (am ah : K) (r r2 : qt K)
    (h : qt_add k t (leaf a ap am ah) = some r) (h2 : qt_add k2 t (leaf a ap am ah) = some r2) :
    r = r2 := by
  have e1 := qt_add_mono_le k (max k k2) (le_max_left _ _) _ _ _ _ _ _ h
  have e2 := qt_add_mono_le k2 (max k k2) (le_max_right _ _) _ _ _ _ _ _ h2
  rw [e1] at e2
  exact Option.some.inj e2

/-! ## Leaves inside their boxes -/

/-- A point of the closed box with centre `p` and half width `h`, other than
the centre, lies in the closed box of the quadrant that `check_quadrant` gives
it. -/
theorem child_box_contains (a p : vector K) (h : K) (hx : |a.x - p.x| ≤ h)
    (hy : |a.y - p.y| ≤ h) (hap : a ≠ p) :
    |a.x - (child_p (check_quadrant a p) p (h / 2)).x| ≤ h / 2 ∧
      |a.y - (child_p (check_quadrant a p) p (h / 2)).y| ≤ h / 2 := by
  obtain ⟨s1, s2, s3, s4⟩ := check_quadrant_spec a p
  rw [abs_le] at hx hy
  rcases check_quadrant_off_centre a p hap with hq | hq | hq | hq
  · obtain ⟨u, v⟩ := s1.mp hq
    rw [hq]
    simp only [child_p, abs_le]
    refine ⟨⟨?_, ?_⟩, ⟨?_, ?_⟩⟩ <;> linarith
  · obtain ⟨u, v⟩ := s2.mp hq
    rw [hq]
    simp only [child_p, abs_le]
    refine ⟨⟨?_, ?_⟩, ⟨?_, ?_⟩⟩ <;> linarith
  · obtain ⟨u, v⟩ := s3.mp hq
    rw [hq]
    simp only [child_p, abs_le]
    refine ⟨⟨?_, ?_⟩, ⟨?_, ?_⟩⟩ <;> linarith
  · obtain ⟨u, v⟩ := s4.mp hq
    rw [hq]
    simp only [child_p, abs_le]
    refine ⟨⟨?_, ?_⟩, ⟨?_, ?_⟩⟩ <;> linarith

theorem placed_leaf (S : List (vector K)) (c p : vector K) (m h : K) (hx : |c.x - p.x| ≤ h)
    (hy : |c.y - p.y| ≤ h) (hc : c ∈ S) (hm : 0 < m) : placed S p h (leaf c p m h) := by
  simp [placed, leaf, hx, hy, hc, hm]

theorem placed_get_child (S : List (vector K)) (q : Nat) (p : vector K) (h : K) (t : qt K)
    (ht : placed S p h t) : placed S (child_p q p (h / 2)) (h / 2) (get_child q t) := by
  cases t with
  | null => rw [get_child_null]; trivial
  | node nw ne sw se c np m nh =>
    obtain ⟨e1, e2, hc, h1, h2, h3, h4⟩ := ht
    rcases q with _ | _ | _ | _ | _ | q
    · trivial
    · exact h1
    · exact h2
    · exact h3
    · exact h4
    · trivial

theorem placed_set_child (S : List (vector K)) (q : Nat) (hq1 : 1 ≤ q) (hq4 : q ≤ 4)
    (p : vector K) (h : K) (t r : qt K) (ht : placed S p h t) (hr0 : r.isNull = false)
    (hr : placed S (child_p q p (h / 2)) (h / 2) r) : placed S p h (set_child q t r) := by
  cases t with
  | null => rcases q with _ | _ | _ | _ | _ | q <;> trivial
  | node nw ne sw se c np m nh =>
    obtain ⟨e1, e2, hc, h1, h2, h3, h4⟩ := ht
    rcases q with _ | _ | _ | _ | _ | q
    · omega
    · exact ⟨e1, e2, fun hl => by simp [childless, hr0] at hl, hr, h2, h3, h4⟩
    · exact ⟨e1, e2, fun hl => by simp [childless, hr0] at hl, h1, hr, h3, h4⟩
    · exact ⟨e1, e2, fun hl => by simp [childless, hr0] at hl, h1, h2, hr, h4⟩
    · exact ⟨e1, e2, fun hl => by simp [childless, hr0] at hl, h1, h2, h3, hr⟩
    · omega

theorem placed_upd (S : List (vector K)) (a : vector K) (am : K) (p : vector K) (h : K)
    (t : qt K) (hi : childless t = false) (ht : placed S p h t) : placed S p h (upd a am t) := by
  cases t with
  | null => trivial
  | node nw ne sw se c np m nh =>
    obtain ⟨e1, e2, hc, h1, h2, h3, h4⟩ := ht
    refine ⟨e1, e2, fun hl => ?_, h1, h2, h3, h4⟩
    simp only [childless] at hi hl
    rw [hi] at hl
    cases hl

/-- The expansion of a node stays childless only for an external node whose
centre of mass is the centre of its box. -/
theorem childless_expand (nw ne sw se : qt K) (c p : vector K) (m h : K)
    (hl : childless (expand (qt.node nw ne sw se c p m h)) = true) :
    childless (qt.node nw ne sw se c p m h) = true ∧ c = p := by
  cases ht : childless (qt.node nw ne sw se c p m h) with
  | false =>
    rw [expand_of_internal _ ht, ht] at hl
    cases hl
  | true =>
    refine ⟨rfl, ?_⟩
    by_contra hcp
    obtain ⟨q1, q4⟩ := check_quadrant_range c p hcp
    rw [eq_leaf_of_childless _ _ _ _ _ _ _ _ ht, expand_leaf,
      childless_set_child _ q1 q4 (leaf c p m h) (leaf c _ m (h / 2)) rfl rfl] at hl
    cases hl

theorem placed_expand (S : List (vector K)) (p : vector K) (h : K) (t : qt K)
    (ht : placed S p h t) : placed S p h (expand t) := by
  cases t with
  | null => trivial
  | node nw ne sw se c np m nh =>
    cases hl : childless (qt.node nw ne sw se c np m nh) with
    | false => rw [expand_of_internal _ hl]; exact ht
    | true =>
      have ht2 := ht
      obtain ⟨e1, e2, hc, -⟩ := ht2
      subst e1 e2
      obtain ⟨hx, hy, hS, hm⟩ := hc hl
      rw [eq_leaf_of_childless _ _ _ _ _ _ _ _ hl] at ht ⊢
      rw [expand_leaf]
      by_cases hcp : c = np
      · rw [(check_quadrant_eq_zero_iff c np).mpr hcp]
        exact ht
      · obtain ⟨q1, q4⟩ := check_quadrant_range c np hcp
        obtain ⟨bx, by1⟩ := child_box_contains c np nh hx hy hcp
        exact placed_set_child S _ q1 q4 _ _ _ _ ht rfl (placed_leaf S _ _ _ _ bx by1 hS hm)

/-- A node at the centre of its box that takes in a second node at the same
point keeps its centre of mass, when the summed mass is not 0. -/
theorem upd_same_point (a : vector K) (m am : K) (hm : m + am ≠ 0) :
    (⟨(a.x * m + a.x * am) / (m + am), (a.y * m + a.y * am) / (m + am)⟩ : vector K) = a := by
  obtain ⟨ax, ay⟩ := a
  simp only [vector.mk.injEq]
  constructor
  · rw [← mul_add, mul_div_assoc, div_self hm, mul_one]
  · rw [← mul_add, mul_div_assoc, div_self hm, mul_one]

/-- The invariant `placed` is kept by `qt_add` of a leaf of positive mass whose
centre of mass lies in the closed box of the node and is in the list `S`. -/
theorem qt_add_placed (k : Nat) :
    ∀ (t : qt K) (p : vector K) (h : K) (S : List (vector K)) (a : vector K) (am : K)
      (r : qt K), placed S p h t → |a.x - p.x| ≤ h → |a.y - p.y| ≤ h → a ∈ S → 0 < am →
      qt_add k t (leaf a p am h) = some r → placed S p h r := by
  induction k with
  | zero => intro t p h S a am r _ _ _ _ _ hr; simp [qt_add] at hr
  | succ k ih =>
    intro t p h S a am r ht hx hy haS ham hr
    cases t with
    | null =>
      rw [qt_add_null] at hr
      cases hr
      exact placed_leaf _ _ _ _ _ hx hy haS ham
    | node nw ne sw se c np m nh =>
      have hE := placed_expand S p h _ ht
      have ht2 := ht
      obtain ⟨e1, e2, hc, -⟩ := ht2
      subst e1 e2
      rw [qt_add_succ_node] at hr
      split_ifs at hr with hq
      · cases hr
        have hap := (check_quadrant_eq_zero_iff a np).mp hq
        cases hl : childless (expand (qt.node nw ne sw se c np m nh)) with
        | false => exact placed_upd S _ _ _ _ _ hl hE
        | true =>
          obtain ⟨hl1, hcp⟩ := childless_expand _ _ _ _ _ _ _ _ hl
          obtain ⟨-, -, -, hm⟩ := hc hl1
          have h0 : 0 ≤ nh := le_trans (abs_nonneg _) hx
          rw [hap] at haS
          rw [eq_leaf_of_childless _ _ _ _ _ _ _ _ hl1, expand_leaf, hcp, hap,
            check_quadrant_centre_zero, set_child_zero]
          show placed S np nh (leaf _ np (m + am) nh)
          rw [upd_same_point np m am (by positivity)]
          exact placed_leaf _ _ _ _ _ (by simpa using h0) (by simpa using h0) haS (by positivity)
      · rw [Option.map_eq_some'] at hr
        obtain ⟨r1, hr1, rfl⟩ := hr
        have hap : a ≠ np := fun e => hq ((check_quadrant_eq_zero_iff a np).mpr e)
        obtain ⟨q1, q4⟩ := check_quadrant_range a np hap
        obtain ⟨bx, by1⟩ := child_box_contains a np nh hx hy hap
        have hr0 := qt_add_isNull _ _ _ _ _ _ _ hr1
        have hp1 := ih _ _ _ _ _ _ _ (placed_get_child S _ _ _ _ hE) bx by1 haS ham hr1
        rw [← upd_set_child]
        apply placed_upd
        · apply childless_set_child _ q1 q4 _ _ _ hr0
          rw [expand_isNull]
          rfl
        · exact placed_set_child _ _ q1 q4 _ _ _ _ hE hr0 hp1

theorem unit_square_box (x : K) (h0 : 0 ≤ x) (h1 : x ≤ 1) : |x - 1 / 2| ≤ 1 / 2 := by
  rw [abs_le]
  constructor <;> linarith

theorem foldlM_qt_add_placed (k : Nat) (S : List (vector K)) (bodies : List (vector K × K)) :
    ∀ (t r : qt K), placed S ⟨1 / 2, 1 / 2⟩ (1 / 2) t →
      (∀ b ∈ bodies, 0 ≤ b.1.x ∧ b.1.x ≤ 1 ∧ 0 ≤ b.1.y ∧ b.1.y ≤ 1) →
      (∀ b ∈ bodies, 0 < b.2) → (∀ b ∈ bodies, b.1 ∈ S) →
      bodies.foldlM (fun t b => qt_add k t (new_qt b.1 b.2)) t = some r →
      placed S ⟨1 / 2, 1 / 2⟩ (1 / 2) r := by
  induction bodies with
  | nil =>
    intro t r ht _ _ _ hr
    simp at hr
    subst hr
    exact ht
  | cons b bs ih =>
    intro t r ht hsq hpos hS hr
    rw [List.foldlM_cons] at hr
    obtain ⟨r1, hr1, hrest⟩ := Option.bind_eq_some.mp hr
    obtain ⟨x0, x1, y0, y1⟩ := hsq b (List.mem_cons_self _ _)
    have hp1 := qt_add_placed k t _ _ S b.1 b.2 r1 ht (unit_square_box _ x0 x1)
      (unit_square_box _ y0 y1) (hS b (List.mem_cons_self _ _)) (hpos b (List.mem_cons_self _ _))
      hr1
    exact ih r1 r hp1 (fun b2 hb2 => hsq b2 (List.mem_cons_of_mem _ hb2))
      (fun b2 hb2 => hpos b2 (List.mem_cons_of_mem _ hb2))
      (fun b2 hb2 => hS b2 (List.mem_cons_of_mem _ hb2)) hrest

/-- Every tree built from bodies with positive masses in the closed unit square
is `placed` for the list of their positions. -/
theorem build_placed (k : Nat) (bodies : List (vector K × K)) (t : qt K)
    (hsq : ∀ b ∈ bodies, 0 ≤ b.1.x ∧ b.1.x ≤ 1 ∧ 0 ≤ b.1.y ∧ b.1.y ≤ 1)
    (hpos : ∀ b ∈ bodies, 0 < b.2) (ht : build k bodies = some t) :
    placed (bodies.map (fun b => b.1)) ⟨1 / 2, 1 / 2⟩ (1 / 2) t :=
  foldlM_qt_add_placed k _ bodies qt.null t trivial hsq hpos
    (fun _ hb => List.mem_map_of_mem (fun b => b.1) hb) ht

theorem box_p_set_child (q : Nat) (t r : qt K) : box_p (set_child q t r) = box_p t := by
  cases t with
  | null => rcases q with _ | _ | _ | _ | _ | q <;> rfl
  | node nw ne sw se c p m h => rcases q with _ | _ | _ | _ | _ | q <;> rfl

theorem box_h_set_child (q : Nat) (t r : qt K) : box_h (set_child q t r) = box_h t := by
  cases t with
  | null => rcases q with _ | _ | _ | _ | _ | q <;> rfl
  | node nw ne sw se c p m h => rcases q with _ | _ | _ | _ | _ | q <;> rfl

theorem box_p_leaf (c p : vector K) (m h : K) : box_p (leaf c p m h) = p := rfl

theorem box_h_leaf (c p : vector K) (m h : K) : box_h (leaf c p m h) = h := rfl

theorem box_p_upd (a : vector K) (am : K) (t : qt K) : box_p (upd a am t) = box_p t := by
  cases t <;> rfl

theorem box_h_upd (a : vector K) (am : K) (t : qt K) : box_h (upd a am t) = box_h t := by
  cases t <;> rfl

theorem box_p_expand (t : qt K) : box_p (expand t) = box_p t := by
  cases t with
  | null => rfl
  | node nw ne sw se c p m h =>
    simp only [expand]
    split_ifs
    · rfl
    · exact box_p_set_child _ _ _

theorem box_h_expand (t : qt K) : box_h (expand t) = box_h t := by
  cases t with
  | null => rfl
  | node nw ne sw se c p m h =>
    simp only [expand]
    split_ifs
    · rfl
    · exact box_h_set_child _ _ _

/-- The two ways in which `qt_add` of a leaf into a node returns. -/
theorem qt_add_cases (k : Nat) (t : qt K) (a ap : vector K) (am ah : K) (r : qt K)
    (h : qt_add k t (leaf a ap am ah) = some r) (ht : t.isNull = false) :
    (check_quadrant a (box_p t) = 0 ∧ r = upd a am (expand t)) ∨
    (check_quadrant a (box_p t) ≠ 0 ∧ ∃ k0 r1, k = k0 + 1 ∧
      qt_add k0 (get_child (check_quadrant a (box_p t)) (expand t))
        (leaf a (child_p (check_quadrant a (box_p t)) (box_p t) (box_h t / 2)) am
          (box_h t / 2)) = some r1 ∧
      r = set_child (check_quadrant a (box_p t)) (upd a am (expand t)) r1) := by
  cases k with
  | zero => simp [qt_add] at h
  | succ k =>
    cases t with
    | null => simp [qt.isNull] at ht
    | node nw ne sw se c p m hh =>
      rw [qt_add_succ_node] at h
      simp only [box_p, box_h]
      split_ifs at h with hq
      · cases h
        exact Or.inl ⟨hq, rfl⟩
      · rw [Option.map_eq_some'] at h
        obtain ⟨r1, h1, rfl⟩ := h
        exact Or.inr ⟨hq, k, r1, rfl, h1, rfl⟩

theorem qt_add_null_eq (k : Nat) (tadd r : qt K) (h : qt_add k qt.null tadd = some r) :
    r = tadd := by
  cases k with
  | zero => simp [qt_add] at h
  | succ k =>
    rw [qt_add_null] at h
    exact (Option.some.inj h).symm

theorem upd_leaf_comm (a b p : vector K) (ma mb h : K) :
    upd b mb (leaf a p ma h) = upd a ma (leaf b p mb h) := by
  simp only [upd, leaf, qt.node.injEq, vector.mk.injEq, true_and, and_true]
  refine ⟨⟨?_, ?_⟩, add_comm _ _⟩
  · rw [add_comm (a.x * ma), add_comm ma]
  · rw [add_comm (a.y * ma), add_comm ma]

theorem upd_comm (a b : vector K) (ma mb : K) (hma : 0 < ma) (hmb : 0 < mb) (t : qt K)
    (ht : pos_mass t) : upd b mb (upd a ma t) = upd a ma (upd b mb t) := by
  cases t with
  | null => rfl
  | node nw ne sw se c p m h =>
    have hm : 0 < m := ht.1
    have h1 : m + ma ≠ 0 := by positivity
    have h2 : m + mb ≠ 0 := by positivity
    simp only [upd, qt.node.injEq, vector.mk.injEq, true_and, and_true]
    refine ⟨⟨?_, ?_⟩, by ring⟩
    · rw [div_mul_cancel₀ _ h1, div_mul_cancel₀ _ h2]
      congr 1 <;> ring
    · rw [div_mul_cancel₀ _ h1, div_mul_cancel₀ _ h2]
      congr 1 <;> ring

theorem pos_mass_get_child (q : Nat) (t : qt K) (ht : pos_mass t) : pos_mass (get_child q t) := by
  cases t with
  | null => rw [get_child_null]; trivial
  | node nw ne sw se c p m h =>
    obtain ⟨h0, h1, h2, h3, h4⟩ := ht
    rcases q with _ | _ | _ | _ | _ | q <;> first | assumption | trivial

theorem pos_mass_set_child (q : Nat) (t r : qt K) (ht : pos_mass t) (hr : pos_mass r) :
    pos_mass (set_child q t r) := by
  cases t with
  | null => rcases q with _ | _ | _ | _ | _ | q <;> trivial
  | node nw ne sw se c p m h =>
    obtain ⟨h0, h1, h2, h3, h4⟩ := ht
    rcases q with _ | _ | _ | _ | _ | q
    · exact ⟨h0, h1, h2, h3, h4⟩
    · exact ⟨h0, hr, h2, h3, h4⟩
    · exact ⟨h0, h1, hr, h3, h4⟩
    · exact ⟨h0, h1, h2, hr, h4⟩
    · exact ⟨h0, h1, h2, h3, hr⟩
    · exact ⟨h0, h1, h2, h3, h4⟩

theorem pos_mass_upd (a : vector K) (am : K) (ham : 0 < am) (t : qt K) (ht : pos_mass t) :
    pos_mass (upd a am t) := by
  cases t with
  | null => trivial
  | node nw ne sw se c p m h =>
    obtain ⟨h0, h1, h2, h3, h4⟩ := ht
    exact ⟨by positivity, h1, h2, h3, h4⟩

theorem pos_mass_leaf (c p : vector K) (m h : K) (hm : 0 < m) : pos_mass (leaf c p m h) :=
  ⟨hm, trivial, trivial, trivial, trivial⟩

theorem pos_mass_expand (t : qt K) (ht : pos_mass t) : pos_mass (expand t) := by
  cases t with
  | null => trivial
  | node nw ne sw se c p m h =>
    simp only [expand]
    split_ifs
    · exact ht
    · exact pos_mass_set_child _ _ _ ht (pos_mass_leaf _ _ _ _ ht.1)

/-- Positive masses are kept by `qt_add` of a leaf of positive mass. -/
theorem qt_add_pos_mass (a : vector K) (am : K) (ham : 0 < am) (k : Nat) :
    ∀ (t : qt K) (ap : vector K) (ah : K) (r : qt K), pos_mass t →
      qt_add k t (leaf a ap am ah) = some r → pos_mass r := by
  induction k with
  | zero => intro t ap ah r _ h; simp [qt_add] at h
  | succ k ih =>
    intro t ap ah r ht h
    cases t with
    | null =>
      rw [qt_add_null] at h
      cases h
      exact pos_mass_leaf _ _ _ _ ham
    | node nw ne sw se c p m hh =>
      rcases qt_add_cases _ _ _ _ _ _ _ h rfl with ⟨-, rfl⟩ | ⟨-, k0, r1, hk, h1, rfl⟩
      · exact pos_mass_upd _ _ ham _ (pos_mass_expand _ ht)
      · cases hk
        exact pos_mass_set_child _ _ _ (pos_mass_upd _ _ ham _ (pos_mass_expand _ ht))
          (ih _ _ _ _ (pos_mass_get_child _ _ (pos_mass_expand _ ht)) h1)

theorem foldlM_qt_add_pos_mass (k : Nat) (bodies : List (vector K × K)) :
    ∀ (t r : qt K), pos_mass t → (∀ b ∈ bodies, 0 < b.2) →
      bodies.foldlM (fun t b => qt_add k t (new_qt b.1 b.2)) t = some r → pos_mass r := by
  induction bodies with
  | nil => intro t r ht _ hr; simp at hr; subst hr; exact ht
  | cons b bs ih =>
    intro t r ht hpos hr
    rw [List.foldlM_cons] at hr
    obtain ⟨r1, hr1, hrest⟩ := Option.bind_eq_some.mp hr
    exact ih _ _ (qt_add_pos_mass _ _ (hpos b (List.mem_cons_self _ _)) k _ _ _ _ ht hr1)
      (fun b2 hb2 => hpos b2 (List.mem_cons_of_mem _ hb2)) hrest

theorem avoids_get_child {L : Type} (a : vector L) (q : Nat) (t : qt L) (ht : avoids a t) :
    avoids a (get_child q t) := by
  cases t with
  | null => rw [get_child_null]; trivial
  | node nw ne sw se c p m h =>
    obtain ⟨h0, h1, h2, h3, h4⟩ := ht
    rcases q with _ | _ | _ | _ | _ | q <;> first | assumption | trivial

theorem avoids_leaf {L : Type} (a c p : vector L) (m h : L) (hc : c ≠ a) :
    avoids a (leaf c p m h) :=
  ⟨fun _ => hc, trivial, trivial, trivial, trivial⟩

theorem avoids_expand_child (a : vector K) (q : Nat) (t : qt K) (ht : avoids a t) :
    avoids a (get_child q (expand t)) := by
  cases t with
  | null => exact avoids_get_child a q _ ht
  | node nw ne sw se c p m h =>
    cases hl : childless (qt.node nw ne sw se c p m h) with
    | false =>
      rw [expand_of_internal _ hl]
      exact avoids_get_child a q _ ht
    | true =>
      have hca := ht.1 hl
      rw [eq_leaf_of_childless _ _ _ _ _ _ _ _ hl, expand_leaf]
      by_cases hq : q = check_quadrant c p
      · subst hq
        by_cases hcp : c = p
        · rw [(check_quadrant_eq_zero_iff c p).mpr hcp]
          trivial
        · obtain ⟨q1, q4⟩ := check_quadrant_range c p hcp
          rw [get_set_child _ q1 q4 (leaf c p m h) _ rfl]
          exact avoids_leaf _ _ _ _ _ hca
      · rw [get_set_child_ne _ _ hq, childless_of_get_child _ (leaf c p m h) rfl]
        trivial

theorem avoids_of_placed (S : List (vector K)) (a : vector K) (haS : a ∉ S) (t : qt K) :
    ∀ (p : vector K) (h : K), placed S p h t → avoids a t := by
  induction t with
  | null => intro p h _; trivial
  | node nw ne sw se c np m nh i1 i2 i3 i4 =>
    intro p h ht
    obtain ⟨e1, e2, hc, h1, h2, h3, h4⟩ := ht
    exact ⟨fun hl e => haS (e ▸ (hc hl).2.2.1), i1 _ _ h1, i2 _ _ h2, i3 _ _ h3, i4 _ _ h4⟩

/-- Splitting a leaf is symmetric: the leaf of `a` with `b` added is the leaf of
`b` with `a` added. -/
theorem qt_add_leaves_comm (a b : vector K) (ma mb : K) (hab : a ≠ b) (k : Nat) :
    ∀ (p : vector K) (h : K) (k2 : Nat) (r s : qt K),
      qt_add k (leaf a p ma h) (leaf b p mb h) = some r →
      qt_add k2 (leaf b p mb h) (leaf a p ma h) = some s → r = s := by
  induction k with
  | zero => intro p h k2 r s hr; simp [qt_add] at hr
  | succ k ih =>
    intro p h k2 r s hr hs
    have cr := qt_add_cases _ _ _ _ _ _ _ hr rfl
    have cs := qt_add_cases _ _ _ _ _ _ _ hs rfl
    simp only [box_p_leaf, box_h_leaf] at cr cs
    rw [expand_leaf] at cr cs
    rcases cr with ⟨qb0, rfl⟩ | ⟨qb0, k0, r1, hk, hr1, rfl⟩
    · have hbp := (check_quadrant_eq_zero_iff b p).mp qb0
      rcases cs with ⟨qa0, rfl⟩ | ⟨qa0, k3, s1, -, hs1, rfl⟩
      · exact absurd (((check_quadrant_eq_zero_iff a p).mp qa0).trans hbp.symm) hab
      · rw [qb0, set_child_zero, childless_of_get_child _ (leaf b p mb h) rfl] at hs1
        have e := qt_add_null_eq _ _ _ hs1
        subst e
        rw [qb0, set_child_zero, upd_set_child, upd_leaf_comm]
    · rcases cs with ⟨qa0, rfl⟩ | ⟨qa0, k3, s1, -, hs1, rfl⟩
      · rw [qa0, set_child_zero, childless_of_get_child _ (leaf a p ma h) rfl] at hr1
        have e := qt_add_null_eq _ _ _ hr1
        subst e
        rw [qa0, set_child_zero, upd_set_child, upd_leaf_comm]
      · have hk0 : k0 = k := by omega
        subst hk0
        by_cases hqq : check_quadrant a p = check_quadrant b p
        · have hbp : b ≠ p := fun e => qb0 ((check_quadrant_eq_zero_iff b p).mpr e)
          obtain ⟨q1, q4⟩ := check_quadrant_range b p hbp
          rw [hqq, get_set_child _ q1 q4 (leaf a p ma h) _ rfl] at hr1
          rw [hqq, get_set_child _ q1 q4 (leaf b p mb h) _ rfl] at hs1
          have e := ih _ _ _ _ _ hr1 hs1
          subst e
          rw [hqq, upd_set_child, upd_set_child, set_set_child, set_set_child, upd_leaf_comm]
        · rw [get_set_child_ne _ _ (Ne.symm hqq), childless_of_get_child _ (leaf a p ma h) rfl]
            at hr1
          rw [get_set_child_ne _ _ hqq, childless_of_get_child _ (leaf b p mb h) rfl] at hs1
          have e1 := qt_add_null_eq _ _ _ hr1
          have e2 := qt_add_null_eq _ _ _ hs1
          subst e1 e2
          rw [upd_set_child, upd_set_child, upd_leaf_comm, set_child_comm _ _ hqq]

theorem check_quadrant_pos (a p : vector K) (h : check_quadrant a p ≠ 0) :
    1 ≤ check_quadrant a p ∧ check_quadrant a p ≤ 4 := by
  have h4 := check_quadrant_le_four a p
  omega

/-- The two ways in which `qt_add` of a leaf into an internal node returns. -/
theorem qt_add_cases_internal (k : Nat) (t : qt K) (a ap : vector K) (am ah : K) (r : qt K)
    (h : qt_add k t (leaf a ap am ah) = some r) (ht : childless t = false) :
    (check_quadrant a (box_p t) = 0 ∧ r = upd a am t) ∨
    (check_quadrant a (box_p t) ≠ 0 ∧ ∃ k0 r1, k = k0 + 1 ∧
      qt_add k0 (get_child (check_quadrant a (box_p t)) t)
        (leaf a (child_p (check_quadrant a (box_p t)) (box_p t) (box_h t / 2)) am
          (box_h t / 2)) = some r1 ∧
      r = set_child (check_quadrant a (box_p t)) (upd a am t) r1) := by
  have h0 : t.isNull = false := by
    cases t with
    | null => simp [childless] at ht
    | node nw ne sw se c p m hh => rfl
  have := qt_add_cases _ _ _ _ _ _ _ h h0
  rw [expand_of_internal _ ht] at this
  exact this

/-- Two insertions commute: adding the leaf of `a` and then the leaf of `b` to a
tree with positive masses, no leaf of which is at `a` or at `b`, gives the same
tree as adding them in the other order, whatever depth budgets let the four
calls return. -/
theorem qt_add_comm (a b : vector K) (ma mb : K) (hab : a ≠ b) (hma : 0 < ma) (hmb : 0 < mb)
    (k1 : Nat) :
    ∀ (t : qt K) (p : vector K) (h : K) (k2 k3 k4 : Nat) (r1 r2 s1 s2 : qt K),
      pos_mass t → avoids a t → avoids b t →
      qt_add k1 t (leaf a p ma h) = some r1 → qt_add k2 r1 (leaf b p mb h) = some r2 →
      qt_add k3 t (leaf b p mb h) = some s1 → qt_add k4 s1 (leaf a p ma h) = some s2 →
      r2 = s2 := by
  induction k1 with
  | zero => intro t p h k2 k3 k4 r1 r2 s1 s2 _ _ _ h1; simp [qt_add] at h1
  | succ k1 ih =>
    intro t p h k2 k3 k4 r1 r2 s1 s2 hpos hava havb h1 h2 h3 h4
    cases t with
    | null =>
      have e1 := qt_add_null_eq _ _ _ h1
      have e3 := qt_add_null_eq _ _ _ h3
      subst e1 e3
      exact qt_add_leaves_comm a b ma mb hab _ _ _ _ _ _ h2 h4
    | node nw ne sw se c np m nh =>
      have c1 := qt_add_cases _ _ _ _ _ _ _ h1 rfl
      have c3 := qt_add_cases _ _ _ _ _ _ _ h3 rfl
      simp only [box_p, box_h] at c1 c3
      have hE0 : (expand (qt.node nw ne sw se c np m nh)).isNull = false := by
        rw [expand_isNull]
        rfl
      have hEpos := pos_mass_expand _ hpos
      have hEp : box_p (expand (qt.node nw ne sw se c np m nh)) = np := box_p_expand _
      have hEh : box_h (expand (qt.node nw ne sw se c np m nh)) = nh := box_h_expand _
      have hEa : ∀ q, avoids a (get_child q (expand (qt.node nw ne sw se c np m nh))) :=
        fun q => avoids_expand_child a q _ hava
      have hEb : ∀ q, avoids b (get_child q (expand (qt.node nw ne sw se c np m nh))) :=
        fun q => avoids_expand_child b q _ havb
      have hla : check_quadrant a np = 0 →
          childless (expand (qt.node nw ne sw se c np m nh)) = false := by
        intro hq
        cases hl : childless (expand (qt.node nw ne sw se c np m nh)) with
        | false => rfl
        | true =>
          obtain ⟨hl1, hcp⟩ := childless_expand _ _ _ _ _ _ _ _ hl
          exact absurd (hcp.trans ((check_quadrant_eq_zero_iff a np).mp hq).symm) (hava.1 hl1)
      have hlb : check_quadrant b np = 0 →
          childless (expand (qt.node nw ne sw se c np m nh)) = false := by
        intro hq
        cases hl : childless (expand (qt.node nw ne sw se c np m nh)) with
        | false => rfl
        | true =>
          obtain ⟨hl1, hcp⟩ := childless_expand _ _ _ _ _ _ _ _ hl
          exact absurd (hcp.trans ((check_quadrant_eq_zero_iff b np).mp hq).symm) (havb.1 hl1)
      clear h1 h3 hpos hava havb
      generalize expand (qt.node nw ne sw se c np m nh) = E at *
      have hU0 : ∀ (x : vector K) (mx : K), (upd x mx E).isNull = false := by
        intro x mx
        rw [upd_isNull]
        exact hE0
      rcases c1 with ⟨qa0, rfl⟩ | ⟨qa0, k0, ra, hk, hra, rfl⟩
      · have c2 := qt_add_cases_internal _ _ _ _ _ _ _ h2
          (by rw [childless_upd]; exact hla qa0)
        simp only [box_p_upd, box_h_upd, hEp, hEh, get_child_upd] at c2
        rcases c2 with ⟨qb0, rfl⟩ | ⟨qb0, k5, rb, -, hrb, rfl⟩
        · exact absurd (((check_quadrant_eq_zero_iff a np).mp qa0).trans
            ((check_quadrant_eq_zero_iff b np).mp qb0).symm) hab
        · rcases c3 with ⟨qb1, rfl⟩ | ⟨-, k6, sb, -, hsb, rfl⟩
          · exact absurd qb1 qb0
          · obtain ⟨q1, q4⟩ := check_quadrant_pos b np qb0
            have c4 := qt_add_cases_internal _ _ _ _ _ _ _ h4
              (childless_set_child _ q1 q4 _ _ (hU0 _ _) (qt_add_isNull _ _ _ _ _ _ _ hsb))
            simp only [box_p_upd, box_h_upd, box_p_set_child, box_h_set_child, hEp, hEh] at c4
            rcases c4 with ⟨-, rfl⟩ | ⟨qa1, -⟩
            · have e := qt_add_det _ _ _ _ _ _ _ _ _ hrb hsb
              subst e
              rw [upd_set_child, upd_comm a b ma mb hma hmb E hEpos]
            · exact absurd qa0 qa1
      · have hk0 : k0 = k1 := by omega
        subst hk0
        obtain ⟨qa1, qa4⟩ := check_quadrant_pos a np qa0
        have c2 := qt_add_cases_internal _ _ _ _ _ _ _ h2
          (childless_set_child _ qa1 qa4 _ _ (hU0 _ _) (qt_add_isNull _ _ _ _ _ _ _ hra))
        simp only [box_p_upd, box_h_upd, box_p_set_child, box_h_set_child, hEp, hEh] at c2
        rcases c3 with ⟨qb0, rfl⟩ | ⟨qb0, k6, sb, -, hsb, rfl⟩
        · rcases c2 with ⟨-, rfl⟩ | ⟨qb1, -⟩
          · have c4 := qt_add_cases_internal _ _ _ _ _ _ _ h4
              (by rw [childless_upd]; exact hlb qb0)
            simp only [box_p_upd, box_h_upd, hEp, hEh, get_child_upd] at c4
            rcases c4 with ⟨qa2, -⟩ | ⟨-, k7, sa, -, hsa, rfl⟩
            · exact absurd qa2 qa0
            · have e := qt_add_det _ _ _ _ _ _ _ _ _ hra hsa
              subst e
              rw [upd_set_child, upd_comm a b ma mb hma hmb E hEpos]
          · exact absurd qb0 qb1
        · obtain ⟨qb1, qb4⟩ := check_quadrant_pos b np qb0
          rcases c2 with ⟨qb2, -⟩ | ⟨-, k5, rb, -, hrb, rfl⟩
          · exact absurd qb2 qb0
          · have c4 := qt_add_cases_internal _ _ _ _ _ _ _ h4
              (childless_set_child _ qb1 qb4 _ _ (hU0 _ _) (qt_add_isNull _ _ _ _ _ _ _ hsb))
            simp only [box_p_upd, box_h_upd, box_p_set_child, box_h_set_child, hEp, hEh] at c4
            rcases c4 with ⟨qa2, -⟩ | ⟨-, k7, sa, -, hsa, rfl⟩
            · exact absurd qa2 qa0
            · by_cases hqq : check_quadrant a np = check_quadrant b np
              · rw [hqq] at hra hsa
                rw [hqq, get_set_child _ qb1 qb4 _ _ (hU0 _ _)] at hrb
                rw [get_set_child _ qb1 qb4 _ _ (hU0 _ _)] at hsa
                have e := ih _ _ _ _ _ _ _ _ _ _ (pos_mass_get_child _ _ hEpos) (hEa _) (hEb _)
                  hra hrb hsb hsa
                subst e
                rw [hqq, upd_set_child, upd_set_child, set_set_child, set_set_child,
                  upd_comm a b ma mb hma hmb E hEpos]
              · rw [get_set_child_ne _ _ (Ne.symm hqq), get_child_upd] at hrb
                rw [get_set_child_ne _ _ hqq, get_child_upd] at hsa
                have e1 := qt_add_det _ _ _ _ _ _ _ _ _ hrb hsb
                have e2 := qt_add_det _ _ _ _ _ _ _ _ _ hra hsa
                subst e1 e2
                rw [upd_set_child, upd_set_child, upd_comm a b ma mb hma hmb E hEpos,
                  set_child_comm _ _ hqq]

/-! ## The other order of two insertions returns -/

/-- The step of `qt_add` of a leaf into an internal node. -/
theorem qt_add_step_internal (k : Nat) (t : qt K) (a ap : vector K) (am ah : K)
    (ht : childless t = false) :
    qt_add (k + 1) t (leaf a ap am ah) =
      if check_quadrant a (box_p t) = 0 then some (upd a am t)
      else
        (qt_add k (get_child (check_quadrant a (box_p t)) t)
          (leaf a (child_p (check_quadrant a (box_p t)) (box_p t) (box_h t / 2)) am
            (box_h t / 2))).map
          (fun r => set_child (check_quadrant a (box_p t)) (upd a am t) r) := by
  cases t with
  | null => simp [childless] at ht
  | node nw ne sw se c p m h =>
    rw [qt_add_succ_node, expand_of_internal _ ht]
    rfl

/-- Splitting a leaf in the other order returns too, one level deeper at
most. -/
theorem qt_add_leaves_swap (a b : vector K) (ma mb : K) (k : Nat) :
    ∀ (p : vector K) (h : K) (r : qt K),
      qt_add k (leaf a p ma h) (leaf b p mb h) = some r →
      (qt_add (k + 1) (leaf b p mb h) (leaf a p ma h)).isSome = true := by
  induction k with
  | zero => intro p h r hr; simp [qt_add] at hr
  | succ k ih =>
    intro p h r hr
    have cr := qt_add_cases _ _ _ _ _ _ _ hr rfl
    simp only [box_p_leaf, box_h_leaf] at cr
    rw [expand_leaf] at cr
    have step : qt_add (k + 1 + 1) (leaf b p mb h) (leaf a p ma h) = _ :=
      qt_add_succ_node (k + 1) qt.null qt.null qt.null qt.null b p mb h a p ma h
    rw [show qt.node qt.null qt.null qt.null qt.null b p mb h = leaf b p mb h from rfl,
      expand_leaf] at step
    rw [step]
    by_cases qa0 : check_quadrant a p = 0
    · rw [if_pos qa0]
      rfl
    · rw [if_neg qa0]
      by_cases hqq : check_quadrant a p = check_quadrant b p
      · rcases cr with ⟨qb0, -⟩ | ⟨qb0, k0, r1, hk, hr1, -⟩
        · exact absurd (hqq.trans qb0) qa0
        · have hk0 : k = k0 := by omega
          subst hk0
          obtain ⟨q1, q4⟩ := check_quadrant_pos b p qb0
          rw [← hqq, get_set_child _ (hqq ▸ q1) (hqq ▸ q4) (leaf a p ma h) _ rfl] at hr1
          obtain ⟨s, hs⟩ := Option.isSome_iff_exists.mp (ih _ _ _ hr1)
          rw [← hqq, get_set_child _ (hqq ▸ q1) (hqq ▸ q4) (leaf b p mb h) _ rfl, hs]
          rfl
      · rw [get_set_child_ne _ _ hqq, childless_of_get_child _ (leaf b p mb h) rfl, qt_add_null]
        rfl

/-- When adding the leaf of `a` and then the leaf of `b` returns within the
depth budget `k`, adding them in the other order returns within `k + 1`. -/
theorem qt_add_swap_returns (a b : vector K) (ma mb : K) (hab : a ≠ b) (k : Nat) :
    ∀ (t : qt K) (p : vector K) (h : K) (r1 r2 : qt K), avoids a t → avoids b t →
      qt_add k t (leaf a p ma h) = some r1 → qt_add k r1 (leaf b p mb h) = some r2 →
      ∃ s1, qt_add (k + 1) t (leaf b p mb h) = some s1 ∧
        (qt_add (k + 1) s1 (leaf a p ma h)).isSome = true := by
  induction k with
  | zero => intro t p h r1 r2 _ _ h1; simp [qt_add] at h1
  | succ k ih =>
    intro t p h r1 r2 hava havb h1 h2
    cases t with
    | null =>
      have e1 := qt_add_null_eq _ _ _ h1
      subst e1
      exact ⟨leaf b p mb h, rfl, qt_add_leaves_swap a b ma mb _ _ _ _ h2⟩
    | node nw ne sw se c np m nh =>
      have c1 := qt_add_cases _ _ _ _ _ _ _ h1 rfl
      simp only [box_p, box_h] at c1
      have step : qt_add (k + 1 + 1) (qt.node nw ne sw se c np m nh) (leaf b p mb h) = _ :=
        qt_add_succ_node (k + 1) nw ne sw se c np m nh b p mb h
      have hE0 : (expand (qt.node nw ne sw se c np m nh)).isNull = false := by
        rw [expand_isNull]
        rfl
      have hEp : box_p (expand (qt.node nw ne sw se c np m nh)) = np := box_p_expand _
      have hEh : box_h (expand (qt.node nw ne sw se c np m nh)) = nh := box_h_expand _
      have hEa : ∀ q, avoids a (get_child q (expand (qt.node nw ne sw se c np m nh))) :=
        fun q => avoids_expand_child a q _ hava
      have hEb : ∀ q, avoids b (get_child q (expand (qt.node nw ne sw se c np m nh))) :=
        fun q => avoids_expand_child b q _ havb
      have hla : check_quadrant a np = 0 →
          childless (expand (qt.node nw ne sw se c np m nh)) = false := by
        intro hq
        cases hl : childless (expand (qt.node nw ne sw se c np m nh)) with
        | false => rfl
        | true =>
          obtain ⟨hl1, hcp⟩ := childless_expand _ _ _ _ _ _ _ _ hl
          exact absurd (hcp.trans ((check_quadrant_eq_zero_iff a np).mp hq).symm) (hava.1 hl1)
      have hlb : check_quadrant b np = 0 →
          childless (expand (qt.node nw ne sw se c np m nh)) = false := by
        intro hq
        cases hl : childless (expand (qt.node nw ne sw se c np m nh)) with
        | false => rfl
        | true =>
          obtain ⟨hl1, hcp⟩ := childless_expand _ _ _ _ _ _ _ _ hl
          exact absurd (hcp.trans ((check_quadrant_eq_zero_iff b np).mp hq).symm) (havb.1 hl1)
      rw [step]
      clear h1 hava havb step
      generalize expand (qt.node nw ne sw se c np m nh) = E at *
      have hU0 : ∀ (x : vector K) (mx : K), (upd x mx E).isNull = false := by
        intro x mx
        rw [upd_isNull]
        exact hE0
      rcases c1 with ⟨qa0, rfl⟩ | ⟨qa0, k0, ra, hk, hra, rfl⟩
      · have c2 := qt_add_cases_internal _ _ _ _ _ _ _ h2
          (by rw [childless_upd]; exact hla qa0)
        simp only [box_p_upd, box_h_upd, hEp, hEh, get_child_upd] at c2
        rcases c2 with ⟨qb0, -⟩ | ⟨qb0, k5, rb, hk5, hrb, -⟩
        · exact absurd (((check_quadrant_eq_zero_iff a np).mp qa0).trans
            ((check_quadrant_eq_zero_iff b np).mp qb0).symm) hab
        · obtain ⟨q1, q4⟩ := check_quadrant_pos b np qb0
          have hk0 : k = k5 := by omega
          subst hk0
          rw [if_neg qb0, qt_add_mono _ _ _ _ _ _ _ hrb]
          refine ⟨_, rfl, ?_⟩
          rw [qt_add_step_internal _ _ _ _ _ _ (childless_set_child _ q1 q4 _ _ (hU0 _ _)
            (qt_add_isNull _ _ _ _ _ _ _ hrb))]
          simp only [box_p_upd, box_p_set_child, hEp]
          rw [if_pos qa0]
          rfl
      · have hk0 : k = k0 := by omega
        subst hk0
        obtain ⟨qa1, qa4⟩ := check_quadrant_pos a np qa0
        have c2 := qt_add_cases_internal _ _ _ _ _ _ _ h2
          (childless_set_child _ qa1 qa4 _ _ (hU0 _ _) (qt_add_isNull _ _ _ _ _ _ _ hra))
        simp only [box_p_upd, box_h_upd, box_p_set_child, box_h_set_child, hEp, hEh] at c2
        rcases c2 with ⟨qb0, -⟩ | ⟨qb0, k5, rb, hk5, hrb, -⟩
        · rw [if_pos qb0]
          refine ⟨_, rfl, ?_⟩
          rw [qt_add_step_internal _ _ _ _ _ _ (by rw [childless_upd]; exact hlb qb0)]
          simp only [box_p_upd, box_h_upd, hEp, hEh, get_child_upd]
          rw [if_neg qa0, qt_add_mono _ _ _ _ _ _ _ hra]
          rfl
        · obtain ⟨qb1, qb4⟩ := check_quadrant_pos b np qb0
          have hk0 : k = k5 := by omega
          subst hk0
          rw [if_neg qb0]
          by_cases hqq : check_quadrant a np = check_quadrant b np
          · rw [hqq] at hra
            rw [hqq, get_set_child _ qb1 qb4 _ _ (hU0 _ _)] at hrb
            obtain ⟨sb, hsb, hsa0⟩ := ih _ _ _ _ _ (hEa _) (hEb _) hra hrb
            obtain ⟨sa, hsa⟩ := Option.isSome_iff_exists.mp hsa0
            rw [hsb]
            refine ⟨_, rfl, ?_⟩
            rw [qt_add_step_internal _ _ _ _ _ _ (childless_set_child _ qb1 qb4 _ _ (hU0 _ _)
              (qt_add_isNull _ _ _ _ _ _ _ hsb))]
            simp only [box_p_upd, box_h_upd, box_p_set_child, box_h_set_child, hEp, hEh]
            rw [if_neg qa0, hqq, get_set_child _ qb1 qb4 _ _ (hU0 _ _), hsa]
            rfl
          · rw [get_set_child_ne _ _ (Ne.symm hqq), get_child_upd] at hrb
            rw [qt_add_mono _ _ _ _ _ _ _ hrb]
            refine ⟨_, rfl, ?_⟩
            rw [qt_add_step_internal _ _ _ _ _ _ (childless_set_child _ qb1 qb4 _ _ (hU0 _ _)
              (qt_add_isNull _ _ _ _ _ _ _ hrb))]
            simp only [box_p_upd, box_h_upd, box_p_set_child, box_h_set_child, hEp, hEh]
            rw [if_neg qa0, get_set_child_ne _ _ hqq, get_child_upd,
              qt_add_mono _ _ _ _ _ _ _ hra]
            rfl

/-- Claim C19: for a tree `t` built by the loop of `main` from bodies in the
closed unit square and two new leaves `a` and `b`, all masses positive and all
positions pairwise distinct: when inserting `a` and then `b` returns the tree
`r` within the depth budget `k`, inserting `b` and then `a` returns the same
tree `r` (same shape, and the same `c`, `p`, `m`, `h` in every node) within
every larger depth budget.  Exchanging `a` and `b` gives the converse, so one
order returns exactly when the other does, with the same tree.  With positive
masses no quotient of `qt_add` is by 0. -/
theorem qt_add_order_independent (k0 : Nat) (bodies : List (vector K × K)) (t : qt K)
    (a b : vector K) (ma mb : K) (k : Nat) (r : qt K)
    (hsq : ∀ x ∈ bodies, 0 ≤ x.1.x ∧ x.1.x ≤ 1 ∧ 0 ≤ x.1.y ∧ x.1.y ≤ 1)
    (hnd : (a :: b :: bodies.map (fun x => x.1)).Nodup)
    (hpos : ∀ x ∈ bodies, 0 < x.2) (hma : 0 < ma) (hmb : 0 < mb)
    (ht : build k0 bodies = some t)
    (hab : (qt_add k t (new_qt a ma)).bind (fun u => qt_add k u (new_qt b mb)) = some r) :
    ∀ k2, k < k2 →
      (qt_add k2 t (new_qt b mb)).bind (fun u => qt_add k2 u (new_qt a ma)) = some r := by
  rw [List.nodup_cons, List.nodup_cons] at hnd
  obtain ⟨ha, hb, -⟩ := hnd
  have hne : a ≠ b := fun e => ha (e ▸ List.mem_cons_self _ _)
  have haS : a ∉ bodies.map (fun x => x.1) := fun e => ha (List.mem_cons_of_mem _ e)
  have hP := build_placed k0 bodies t hsq hpos ht
  have hpm : pos_mass t := foldlM_qt_add_pos_mass k0 bodies qt.null t trivial hpos ht
  have hava := avoids_of_placed _ a haS t _ _ hP
  have havb := avoids_of_placed _ b hb t _ _ hP
  obtain ⟨r1, h1, h2⟩ := Option.bind_eq_some.mp hab
  change qt_add k t (leaf a ⟨1 / 2, 1 / 2⟩ ma (1 / 2)) = some r1 at h1
  change qt_add k r1 (leaf b ⟨1 / 2, 1 / 2⟩ mb (1 / 2)) = some r at h2
  obtain ⟨s1, hs1, hs0⟩ := qt_add_swap_returns a b ma mb hne k t _ _ r1 r hava havb h1 h2
  obtain ⟨s2, hs2⟩ := Option.isSome_iff_exists.mp hs0
  have e := qt_add_comm a b ma mb hne hma hmb k t _ _ k (k + 1) (k + 1) r1 r s1 s2 hpm hava havb
    h1 h2 hs1 hs2
  subst e
  intro k2 hk2
  have g1 := qt_add_mono_le (k + 1) k2 hk2 _ _ _ _ _ _ hs1
  have g2 := qt_add_mono_le (k + 1) k2 hk2 _ _ _ _ _ _ hs2
  show (qt_add k2 t (leaf b ⟨1 / 2, 1 / 2⟩ mb (1 / 2))).bind
    (fun u => qt_add k2 u (leaf a ⟨1 / 2, 1 / 2⟩ ma (1 / 2))) = some r
  rw [g1, Option.some_bind, g2]

theorem check_quadrant_nw_body :
    check_quadrant (⟨1 / 10, 9 / 10⟩ : vector ℚ) ⟨1 / 2, 1 / 2⟩ = 1 := by
  unfold check_quadrant
  norm_num

theorem check_quadrant_se_body :
    check_quadrant (⟨9 / 10, 1 / 10⟩ : vector ℚ) ⟨1 / 2, 1 / 2⟩ = 4 := by
  unfold check_quadrant
  norm_num

theorem apart_then_a :
    qt_add 2 (qt.node qt.null (leaf ⟨7 / 10, 7 / 10⟩ ⟨3 / 4, 3 / 4⟩ 2 (1 / 4))
        (leaf ⟨3 / 10, 3 / 10⟩ ⟨1 / 4, 1 / 4⟩ 1 (1 / 4)) qt.null
        ⟨17 / 30, 17 / 30⟩ ⟨1 / 2, 1 / 2⟩ (3 : ℚ) (1 / 2)) (new_qt ⟨1 / 10, 9 / 10⟩ 1) =
      some (qt.node (leaf ⟨1 / 10, 9 / 10⟩ ⟨1 / 4, 3 / 4⟩ 1 (1 / 4))
        (leaf ⟨7 / 10, 7 / 10⟩ ⟨3 / 4, 3 / 4⟩ 2 (1 / 4))
        (leaf ⟨3 / 10, 3 / 10⟩ ⟨1 / 4, 1 / 4⟩ 1 (1 / 4)) qt.null
        ⟨9 / 20, 13 / 20⟩ ⟨1 / 2, 1 / 2⟩ 4 (1 / 2)) := by
  rw [show new_qt (⟨1 / 10, 9 / 10⟩ : vector ℚ) 1 = leaf ⟨1 / 10, 9 / 10⟩ ⟨1 / 2, 1 / 2⟩ 1 (1 / 2)
      from rfl, show (2 : Nat) = 1 + 1 from rfl, qt_add_succ_node, check_quadrant_nw_body]
  simp only [expand, leaf, qt.isNull, get_child, qt_add, upd, set_child, child_p]
  norm_num

theorem apart_then_a_then_b :
    qt_add 2 (qt.node (leaf ⟨1 / 10, 9 / 10⟩ ⟨1 / 4, 3 / 4⟩ 1 (1 / 4))
        (leaf ⟨7 / 10, 7 / 10⟩ ⟨3 / 4, 3 / 4⟩ 2 (1 / 4))
        (leaf ⟨3 / 10, 3 / 10⟩ ⟨1 / 4, 1 / 4⟩ 1 (1 / 4)) qt.null
        ⟨9 / 20, 13 / 20⟩ ⟨1 / 2, 1 / 2⟩ (4 : ℚ) (1 / 2)) (new_qt ⟨9 / 10, 1 / 10⟩ 1) =
      some (qt.node (leaf ⟨1 / 10, 9 / 10⟩ ⟨1 / 4, 3 / 4⟩ 1 (1 / 4))
        (leaf ⟨7 / 10, 7 / 10⟩ ⟨3 / 4, 3 / 4⟩ 2 (1 / 4))
        (leaf ⟨3 / 10, 3 / 10⟩ ⟨1 / 4, 1 / 4⟩ 1 (1 / 4))
        (leaf ⟨9 / 10, 1 / 10⟩ ⟨3 / 4, 1 / 4⟩ 1 (1 / 4))
        ⟨27 / 50, 27 / 50⟩ ⟨1 / 2, 1 / 2⟩ 5 (1 / 2)) := by
  rw [show new_qt (⟨9 / 10, 1 / 10⟩ : vector ℚ) 1 = leaf ⟨9 / 10, 1 / 10⟩ ⟨1 / 2, 1 / 2⟩ 1 (1 / 2)
      from rfl, show (2 : Nat) = 1 + 1 from rfl, qt_add_succ_node, check_quadrant_se_body]
  simp only [expand, leaf, qt.isNull, get_child, qt_add, upd, set_child, child_p]
  norm_num

theorem apart_then_a_b :
    (qt_add 2 (qt.node qt.null (leaf ⟨7 / 10, 7 / 10⟩ ⟨3 / 4, 3 / 4⟩ 2 (1 / 4))
        (leaf ⟨3 / 10, 3 / 10⟩ ⟨1 / 4, 1 / 4⟩ 1 (1 / 4)) qt.null
        ⟨17 / 30, 17 / 30⟩ ⟨1 / 2, 1 / 2⟩ (3 : ℚ) (1 / 2)) (new_qt ⟨1 / 10, 9 / 10⟩ 1)).bind
        (fun u => qt_add 2 u (new_qt ⟨9 / 10, 1 / 10⟩ 1)) =
      some (qt.node (leaf ⟨1 / 10, 9 / 10⟩ ⟨1 / 4, 3 / 4⟩ 1 (1 / 4))
        (leaf ⟨7 / 10, 7 / 10⟩ ⟨3 / 4, 3 / 4⟩ 2 (1 / 4))
        (leaf ⟨3 / 10, 3 / 10⟩ ⟨1 / 4, 1 / 4⟩ 1 (1 / 4))
        (leaf ⟨9 / 10, 1 / 10⟩ ⟨3 / 4, 1 / 4⟩ 1 (1 / 4))
        ⟨27 / 50, 27 / 50⟩ ⟨1 / 2, 1 / 2⟩ 5 (1 / 2)) := by
  rw [apart_then_a, Option.some_bind, apart_then_a_then_b]

/-- Claim C19 at the tree of the two bodies of masses 1 and 2 at (0.3, 0.3) and
(0.7, 0.7) and the new leaves of mass 1 at (0.1, 0.9) and (0.9, 0.1): the order
(0.1, 0.9) first returns a tree with depth budget 2, and the other order
returns the same tree with depth budget 3. -/
theorem qt_add_order_independent_witness :
    (∀ x ∈ bodies_apart ℚ, 0 ≤ x.1.x ∧ x.1.x ≤ 1 ∧ 0 ≤ x.1.y ∧ x.1.y ≤ 1) ∧
    ((⟨1 / 10, 9 / 10⟩ : vector ℚ) :: ⟨9 / 10, 1 / 10⟩ ::
      (bodies_apart ℚ).map (fun x => x.1)).Nodup ∧
    (∀ x ∈ bodies_apart ℚ, 0 < x.2) ∧
    build 2 (bodies_apart ℚ) =
      some (qt.node qt.null (leaf ⟨7 / 10, 7 / 10⟩ ⟨3 / 4, 3 / 4⟩ 2 (1 / 4))
        (leaf ⟨3 / 10, 3 / 10⟩ ⟨1 / 4, 1 / 4⟩ 1 (1 / 4)) qt.null
        ⟨17 / 30, 17 / 30⟩ ⟨1 / 2, 1 / 2⟩ 3 (1 / 2)) ∧
    (qt_add 2 (qt.node qt.null (leaf ⟨7 / 10, 7 / 10⟩ ⟨3 / 4, 3 / 4⟩ 2 (1 / 4))
        (leaf ⟨3 / 10, 3 / 10⟩ ⟨1 / 4, 1 / 4⟩ 1 (1 / 4)) qt.null
        ⟨17 / 30, 17 / 30⟩ ⟨1 / 2, 1 / 2⟩ (3 : ℚ) (1 / 2)) (new_qt ⟨1 / 10, 9 / 10⟩ 1)).bind
        (fun u => qt_add 2 u (new_qt ⟨9 / 10, 1 / 10⟩ 1)) =
      some (qt.node (leaf ⟨1 / 10, 9 / 10⟩ ⟨1 / 4, 3 / 4⟩ 1 (1 / 4))
        (leaf ⟨7 / 10, 7 / 10⟩ ⟨3 / 4, 3 / 4⟩ 2 (1 / 4))
        (leaf ⟨3 / 10, 3 / 10⟩ ⟨1 / 4, 1 / 4⟩ 1 (1 / 4))
        (leaf ⟨9 / 10, 1 / 10⟩ ⟨3 / 4, 1 / 4⟩ 1 (1 / 4))
        ⟨27 / 50, 27 / 50⟩ ⟨1 / 2, 1 / 2⟩ 5 (1 / 2)) ∧
    (qt_add 3 (qt.node qt.null (leaf ⟨7 / 10, 7 / 10⟩ ⟨3 / 4, 3 / 4⟩ 2 (1 / 4))
        (leaf ⟨3 / 10, 3 / 10⟩ ⟨1 / 4, 1 / 4⟩ 1 (1 / 4)) qt.null
        ⟨17 / 30, 17 / 30⟩ ⟨1 / 2, 1 / 2⟩ (3 : ℚ) (1 / 2)) (new_qt ⟨9 / 10, 1 / 10⟩ 1)).bind
        (fun u => qt_add 3 u (new_qt ⟨1 / 10, 9 / 10⟩ 1)) =
      some (qt.node (leaf ⟨1 / 10, 9 / 10⟩ ⟨1 / 4, 3 / 4⟩ 1 (1 / 4))
        (leaf ⟨7 / 10, 7 / 10⟩ ⟨3 / 4, 3 / 4⟩ 2 (1 / 4))
        (leaf ⟨3 / 10, 3 / 10⟩ ⟨1 / 4, 1 / 4⟩ 1 (1 / 4))
        (leaf ⟨9 / 10, 1 / 10⟩ ⟨3 / 4, 1 / 4⟩ 1 (1 / 4))
        ⟨27 / 50, 27 / 50⟩ ⟨1 / 2, 1 / 2⟩ 5 (1 / 2)) :=
  ⟨by simp [bodies_apart]; norm_num, by simp [bodies_apart]; norm_num,
    by simp [bodies_apart], build_bodies_apart, apart_then_a_b,
    qt_add_order_independent 2 (bodies_apart ℚ) _ ⟨1 / 10, 9 / 10⟩ ⟨9 / 10, 1 / 10⟩ 1 1 2 _
      (by simp [bodies_apart]; norm_num) (by simp [bodies_apart]; norm_num)
      (by simp [bodies_apart]) (by norm_num) (by norm_num) build_bodies_apart apart_then_a_b
      3 (by decide)⟩

/-! ## The `float` half width -/

/-- With the exact quotient for `half`, `qt_add_rounded` is `qt_add`. -/
theorem qt_add_rounded_exact (k : Nat) :
    ∀ (t tadd : qt K), qt_add_rounded (fun h => h / 2) k t tadd = qt_add k t tadd := by
  induction k with
  | zero => intro t tadd; rfl
  | succ k ih =>
    intro t tadd
    have hrec : qt_add_rounded (fun h : K => h / 2) k = qt_add k := by
      funext t tadd
      exact ih t tadd
    cases t with
    | null => rfl
    | node nw ne sw se c p m h =>
      cases tadd with
      | null => rfl
      | node anw ane asw ase ac ap am ah =>
        simp only [qt_add_rounded, qt_add, hrec]

/-- The half widths of the source reach 0: `float_half` maps `2^-149` to 0, and
0 to 0, and halves every half width from `2^-148` on exactly. -/
theorem float_half_step (p : vector K) (h : K) (hp : p.x = p.y)
    (hh : (h = p.x ∧ 1 / 2 ^ 149 ≤ h) ∨ (h = 0 ∧ 1 / 2 ^ 149 ≤ p.x)) :
    p.x - float_half h = p.y - float_half h ∧
    ((float_half h = p.x - float_half h ∧ 1 / 2 ^ 149 ≤ float_half h) ∨
      (float_half h = 0 ∧ 1 / 2 ^ 149 ≤ p.x - float_half h)) := by
  have e : (1 : K) / 2 ^ 149 = 1 / 2 ^ 148 / 2 := by
    rw [pow_succ]
    field_simp
  refine ⟨by rw [hp], ?_⟩
  rcases hh with ⟨h1, h2⟩ | ⟨h1, h2⟩
  · by_cases hs : h < 1 / 2 ^ 148
    · right
      simp only [float_half, if_pos hs, sub_zero]
      exact ⟨trivial, h1 ▸ h2⟩
    · left
      simp only [float_half, if_neg hs]
      rw [not_lt] at hs
      constructor
      · rw [← h1]
        ring
      · rw [e]
        linarith
  · right
    have hs : h < 1 / 2 ^ 148 := by
      rw [h1]
      positivity
    simp only [float_half, if_pos hs, sub_zero]
    exact ⟨trivial, h2⟩

theorem check_quadrant_origin_sw (p : vector K) (hx : 0 < p.x) (hy : 0 ≤ p.y) :
    check_quadrant (⟨0, 0⟩ : vector K) p = 3 := by
  unfold check_quadrant
  rw [if_neg (fun h => absurd h.2 (not_lt.mpr hy)), if_neg (fun h => absurd h.1 (not_lt.mpr hx.le)),
    if_pos ⟨hx, hy⟩]

theorem check_quadrant_near_origin_sw (p : vector K) (y : K) (hx : 0 < p.x) (hy : y ≤ p.y) :
    check_quadrant (⟨0, y⟩ : vector K) p = 3 := by
  unfold check_quadrant
  rw [if_neg (fun h => absurd h.2 (not_lt.mpr hy)), if_neg (fun h => absurd h.1 (not_lt.mpr hx.le)),
    if_pos ⟨hx, hy⟩]

/-- Once the leaf of (0, 0) sits in a box whose centre is on the diagonal, at
least `2^-149` from the origin, with half width equal to the centre coordinate
or 0, the node of (0, 2^-160) is sent to the SW child together with it at every
depth: the half width reaches 0 before the box centre comes below `2^-149`, and
from then on the box no longer changes. -/
theorem qt_add_rounded_float_diverges (k : Nat) :
    ∀ (p : vector K) (h m1 m2 : K) (ap : vector K) (ah : K), p.x = p.y →
      ((h = p.x ∧ 1 / 2 ^ 149 ≤ h) ∨ (h = 0 ∧ 1 / 2 ^ 149 ≤ p.x)) →
      qt_add_rounded float_half k (qt.node qt.null qt.null qt.null qt.null ⟨0, 0⟩ p m1 h)
        (qt.node qt.null qt.null qt.null qt.null ⟨0, 1 / 2 ^ 160⟩ ap m2 ah) = none := by
  induction k with
  | zero => intro p h m1 m2 ap ah _ _; rfl
  | succ k ih =>
    intro p h m1 m2 ap ah hp hh
    have hpx : (1 : K) / 2 ^ 149 ≤ p.x := by
      rcases hh with ⟨h1, h2⟩ | ⟨-, h2⟩
      · exact h1 ▸ h2
      · exact h2
    have hpos : (0 : K) < 1 / 2 ^ 149 := by positivity
    have hsmall : (1 : K) / 2 ^ 160 ≤ 1 / 2 ^ 149 := by
      apply one_div_le_one_div_of_le (by positivity)
      exact pow_le_pow_right₀ (by norm_num) (by norm_num)
    have hq1 := check_quadrant_origin_sw p (lt_of_lt_of_le hpos hpx) (hp ▸ (hpos.le.trans hpx))
    have hq2 := check_quadrant_near_origin_sw p (1 / 2 ^ 160) (lt_of_lt_of_le hpos hpx)
      (hp ▸ (hsmall.trans hpx))
    obtain ⟨e1, e2⟩ := float_half_step p h hp hh
    simp only [qt_add_rounded, qt.isNull, Bool.not_true, Bool.or_self, Bool.false_eq_true,
      if_false, hq1, qt_add_switch, hq2]
    rw [ih _ _ _ _ _ _ e1 e2]
    rfl

/-- Claim C16, evaluated where it fails: the positions (0, 0) and (0, 2^-160)
are distinct and lie in the closed unit square, and with the half widths that
the `float` field `h` of the source holds (0 after 149 halvings of 0.5, the
`double` values taken exact) the tree-building loop does not return within any
depth: the second `qt_add` call sends both nodes to the SW child at every
level, in a box that stops shrinking at the centre `(2^-149, 2^-149)`. -/
theorem build_float_never_returns :
    (∀ b ∈ bodies_close ℚ, 0 ≤ b.1.x ∧ b.1.x ≤ 1 ∧ 0 ≤ b.1.y ∧ b.1.y ≤ 1) ∧
    ((bodies_close ℚ).map (fun b => b.1)).Nodup ∧
    ∀ k, build_rounded float_half k (bodies_close ℚ) = none := by
  refine ⟨?_, ?_, ?_⟩
  · simp [bodies_close]
    norm_num
  · simp [bodies_close]
    norm_num
  · intro k
    cases k with
    | zero => rfl
    | succ k =>
      simp only [build_rounded, bodies_close, List.foldlM_cons, List.foldlM_nil,
        Option.bind_eq_bind]
      rw [show qt_add_rounded float_half (k + 1) qt.null (new_qt (⟨0, 0⟩ : vector ℚ) 1) =
        some (new_qt ⟨0, 0⟩ 1) from rfl, Option.some_bind]
      simp only [new_qt]
      rw [qt_add_rounded_float_diverges (k + 1) _ _ _ _ _ _ rfl (Or.inl ⟨rfl, by norm_num⟩)]
      rfl

end Proofs

end Galsim
